import Mathlib

/-!
# Register passes of `avo` (`pass/reg.go`, `pass/pass.go`)

A shallow embedding of the liveness analysis, the interference construction,
the binder, the verifier and the pass combinators, followed by theorems about
them.

A pointer to an instruction is a position: a position within the function's
instruction sequence designates the instruction there, any other position
designates an instruction outside the function. A mutable field is a field of
the value stored at a position of the function, and a loop that mutates through
pointers threads the whole sequence as its state. `Liveness` only reads the
instructions outside the function, so they are given by the `LiveIn` sets they
hold.
-/

namespace Avo

/-! ## Data model -/

/-- Modelled from the spec: package `reg` is not part of the sources at hand.
A register is either virtual (an identity and a kind) or physical (a concrete
machine register, also with a kind). -/
inductive Register where
  | virt (id : Nat) (kind : Nat)
  | phys (id : Nat) (kind : Nat)
  deriving DecidableEq, Repr

/-- Modelled from the spec: `Register.Kind()` of package `reg`. -/
def Register.Kind : Register → Nat
  | .virt _ k => k
  | .phys _ k => k

/-- Modelled from the spec: `reg.ToPhysical`, the lookup that yields the
physical register if any, or nothing. -/
def ToPhysical : Register → Option Register
  | .virt _ _ => none
  | .phys i k => some (.phys i k)

/-- Modelled from the spec: `reg.Set`, a set of registers without duplicates;
`Update` is union-into, `Difference` is set difference, `Add` is insertion,
`Discard` is removal and `len` is the cardinality. -/
abbrev RegSet := Finset Register

/-- Modelled from the spec: `reg.NewSetFromSlice`. -/
def NewSetFromSlice (rs : List Register) : RegSet := rs.toFinset

/-- Modelled from the spec: `reg.NewEmptySet`. -/
def NewEmptySet : RegSet := ∅

/-- Modelled from the spec: `Set.OfKind`, the registers of a set that have
kind `k`, as a new set. -/
def RegSet.OfKind (s : RegSet) (k : Nat) : RegSet := s.filter (fun r => r.Kind = k)

/-- Modelled from the spec: package `operand` is not part of the sources at
hand. An operand slot references a register, is a memory reference with an
optional base and an optional index register, or references no register. -/
inductive Op where
  | reg (r : Register)
  | mem (base : Option Register) (index : Option Register) (disp : Int)
  | imm (v : Nat)
  deriving DecidableEq, Repr

/-- Modelled from the spec: `reg.Allocation`, a mapping from virtual register
to physical register, kept as an association list (first entry wins). -/
abbrev Allocation := List (Register × Register)

/-- An `error` value; `none` in `Option Error` is Go's `nil`. -/
abbrev Error := String

/-- Modelled from the spec: `avo.Instruction`. `Inputs` and `Outputs` hold what
the accessors `InputRegisters()` and `OutputRegisters()` return; `Succ` holds
the successor links, `none` being a nil slot and `some p` a pointer to the
instruction at position `p`: an instruction of the function when `p` is one of
its positions, an instruction outside the function otherwise. -/
structure Instruction where
  Operands : List Op
  Inputs : List Register
  Outputs : List Register
  Succ : List (Option Nat)
  LiveIn : RegSet
  LiveOut : RegSet
  deriving DecidableEq

/-- Modelled from the spec: `avo.Function`, an ordered sequence of
instructions plus the slot for the allocation. -/
structure Function where
  Instructions : List Instruction
  Allocation : Allocation
  deriving DecidableEq

/-- Modelled from the spec: `avo.File`, an ordered collection of functions. -/
structure File where
  Functions : List Function
  deriving DecidableEq

/-! ## Mutation through a pointer -/

/-- Apply `f` to the instruction of the function that pointer `i` designates.
The source writes only through the pointers of the slice `fn.Instructions()`;
at a position that is not one of the function the sequence stays as it is. -/
def modifyAt (is : List Instruction) (i : Nat) (f : Instruction → Instruction) :
    List Instruction :=
  match is[i]? with
  | none => is
  | some x => is.set i (f x)

/-- The field `s.LiveIn` read through the pointer `s` of a successor link
(line 41). A position within the function designates the instruction of the
function at that position; every other position designates an instruction
that is not in `fn.Instructions()`, and `outside` gives the `LiveIn` set which
that instruction holds. `Liveness` writes only through the pointers of the
slice `is`, so what `outside` gives does not change during a run. -/
def liveInOf (outside : Nat → RegSet) (is : List Instruction) (s : Nat) : RegSet :=
  match is[s]? with
  | none => outside s
  | some x => x.LiveIn

/-- The `LiveIn` set of the instruction of the function at position `j`, for
stating properties of the function's own instructions (empty where the function
has no instruction). -/
def ownLiveIn (is : List Instruction) (j : Nat) : RegSet :=
  match is[j]? with
  | none => ∅
  | some x => x.LiveIn

/-- The `LiveOut` set of the instruction of the function at position `j`
(empty where the function has no instruction). -/
def ownLiveOut (is : List Instruction) (j : Nat) : RegSet :=
  match is[j]? with
  | none => ∅
  | some x => x.LiveOut

/-! ## `Liveness` (`pass/reg.go`, lines 12-67) -/

/-- Lines 26-27: `i.LiveIn = reg.NewSetFromSlice(i.InputRegisters())` and
`i.LiveOut = reg.NewEmptySet()`. -/
def seed (x : Instruction) : Instruction :=
  { x with LiveIn := NewSetFromSlice x.Inputs, LiveOut := NewEmptySet }

/-- Lines 25-28: the initialisation loop over the slice `is`, whose elements
are visited in the order `order`. -/
def seedAll (order : List Nat) (is : List Instruction) : List Instruction :=
  order.foldl (fun st i => modifyAt st i seed) is

/-- Lines 38-41, one round of the loop over `i.Succ`: a nil successor is
skipped, otherwise `i.LiveOut.Update(s.LiveIn)`. -/
def updateLiveOut (outside : Nat → RegSet) (i : Nat) (st : List Instruction)
    (s : Option Nat) : List Instruction :=
  match s with
  | none => st
  | some p => modifyAt st i (fun x => { x with LiveOut := x.LiveOut ∪ liveInOf outside st p })

/-- Lines 49-50: `def := reg.NewSetFromSlice(i.OutputRegisters())`, then
`i.LiveIn.Update(i.LiveOut.Difference(def))`. -/
def unionDifference (x : Instruction) : Instruction :=
  { x with LiveIn := x.LiveIn ∪ (x.LiveOut \ NewSetFromSlice x.Outputs) }

/-- Lines 51-55: the loop that adds to `i.LiveIn` every register of `i.LiveOut`
not found in `def`. -/
def addNotDefined (x : Instruction) : Instruction :=
  { x with LiveIn := x.LiveIn ∪ x.LiveOut.filter (fun r => r ∉ NewSetFromSlice x.Outputs) }

/-- Lines 49-55: the update of `i.LiveIn`. -/
def updateLiveIn (x : Instruction) : Instruction := addNotDefined (unionDifference x)

/-- Lines 35-58: the body of the inner loop for the instruction at `i`. The
result is the new state and whether `changes = true` was executed. -/
def visit (outside : Nat → RegSet) (st : List Instruction) (i : Nat) :
    List Instruction × Bool :=
  match st[i]? with
  | none => (st, false)
  | some x =>
    let nout := (ownLiveOut st i).card
    let st1 := x.Succ.foldl (updateLiveOut outside i) st
    let c1 := decide ((ownLiveOut st1 i).card ≠ nout)
    let nin := (ownLiveIn st1 i).card
    let st2 := modifyAt st1 i updateLiveIn
    let c2 := decide ((ownLiveIn st2 i).card ≠ nin)
    (st2, c1 || c2)

/-- Lines 32-59: one sweep, `changes := false` followed by the inner loop over
`is` in the order `order`. -/
def sweep (outside : Nat → RegSet) (order : List Nat) (st : List Instruction) :
    List Instruction × Bool :=
  order.foldl (fun acc i => let r := visit outside acc.1 i; (r.1, acc.2 || r.2)) (st, false)

/-- Lines 31-64: the outer `for` loop, which leaves only through
`if !changes { break }`. `fuel` bounds the number of sweeps; the result is the
final state with the number of sweeps run, or `none` when the fuel is used up
before the loop breaks. -/
def iterate (outside : Nat → RegSet) (order : List Nat) :
    Nat → List Instruction → Option (List Instruction × Nat)
  | 0, _ => none
  | fuel + 1, st =>
    let r := sweep outside order st
    if r.2 then (iterate outside order fuel r.1).map (fun q => (q.1, q.2 + 1))
    else some (r.1, 1)

/-- Line 21: `is[l], is[r] = is[r], is[l]` on a slice of pointers. -/
def swapAt (is : List Nat) (l r : Nat) : List Nat :=
  (is.set l (is.getD r 0)).set r (is.getD l 0)

/-- Lines 20-22: the loop `for l, r := 0, len(is)-1; l < r; l, r = l+1, r-1`,
entered with the values of `l` and `r`; `fuel` bounds the number of rounds. -/
def reverseLoop : Nat → Nat → Nat → List Nat → List Nat
  | 0, _, _, is => is
  | fuel + 1, l, r, is =>
    if l < r then reverseLoop fuel (l + 1) (r - 1) (swapAt is l r) else is

/-- Lines 16-22: `is := fn.Instructions()` is a fresh slice of the pointers to
the instructions in program order, on which the swap loop runs (`len(is)`
rounds of fuel are more than it needs); the result is the visiting order. -/
def reverseOrder (fn : Function) : List Nat :=
  reverseLoop fn.Instructions.length 0 (fn.Instructions.length - 1)
    (List.range fn.Instructions.length)

/-- `Liveness` with the slice `is` in an arbitrary order: initialisation, then
the fixed-point loop, then `return nil`. The result carries the function, the
returned error and the number of sweeps. -/
def LivenessIn (outside : Nat → RegSet) (order : List Nat) (fuel : Nat) (fn : Function) :
    Option (Function × Option Error × Nat) :=
  (iterate outside order fuel (seedAll order fn.Instructions)).map
    (fun q => ({ fn with Instructions := q.1 }, none, q.2))

/-- `Liveness` as written: the instructions are visited in reverse program
order. -/
def Liveness (outside : Nat → RegSet) (fuel : Nat) (fn : Function) :
    Option (Function × Option Error × Nat) :=
  LivenessIn outside (reverseOrder fn) fuel fn

/-! ## `AllocateRegisters` (`pass/reg.go`, lines 70-110) -/

/-- Modelled from the spec: `operand.Registers`, the registers an operand slot
references. -/
def Op.Registers : Op → List Register
  | .reg r => [r]
  | .mem b i _ => b.toList ++ i.toList
  | .imm _ => []

/-- Modelled from the spec: `Instruction.Registers()`, every register reference
in the operands of the instruction. -/
def Instruction.Registers (x : Instruction) : List Register :=
  (x.Operands.map Op.Registers).flatten

/-- Modelled from the spec: the per-kind `Allocator` of `pass/alloc.go`, which
owns the registers of its kind and an interference relation. -/
structure Allocator where
  kind : Nat
  registers : Finset Register
  edges : Finset (Register × Register)
  deriving DecidableEq

/-- Modelled from the spec: what `pass/alloc.go` supplies to `AllocateRegisters`
besides the bookkeeping: the construction error of a kind with no known
allocation strategy, and the allocation strategy itself. -/
structure Strategy where
  unknownKind : Nat → Option Error
  allocate : Allocator → Except Error Allocation

/-- Modelled from the spec: `NewAllocatorForKind`, which fails with a
construction error if the kind has no known allocation strategy and otherwise
gives a fresh allocator. -/
def NewAllocatorForKind (S : Strategy) (k : Nat) : Except Error Allocator :=
  match S.unknownKind k with
  | some e => .error e
  | none => .ok { kind := k, registers := ∅, edges := ∅ }

/-- Modelled from the spec: `Allocator.Add`. -/
def Allocator.Add (a : Allocator) (r : Register) : Allocator :=
  { a with registers := insert r a.registers }

/-- Modelled from the spec: `Allocator.AddInterferenceSet`, which adds an
interference edge from `d` to every register of `s`. -/
def Allocator.AddInterferenceSet (a : Allocator) (d : Register) (s : RegSet) : Allocator :=
  { a with edges := a.edges ∪ s.image (fun r => (d, r)) }

/-- The Go map `as` of line 72, from kind to allocator, as an association list
with at most one entry per kind. -/
abbrev AllocMap := List (Nat × Allocator)

/-- The read `as[k]`. -/
def AllocMap.find (m : AllocMap) (k : Nat) : Option Allocator := m.lookup k

/-- The write `as[k] = a`. -/
def AllocMap.put : AllocMap → Nat → Allocator → AllocMap
  | [], k, a => [(k, a)]
  | (k', a') :: rest, k, a =>
    if k' = k then (k, a) :: rest else (k', a') :: AllocMap.put rest k a

/-- Lines 75-83: the body of the loop over `i.Registers()`. -/
def populateReg (S : Strategy) (m : AllocMap) (r : Register) : Except Error AllocMap :=
  let k := r.Kind
  match m.find k with
  | some a => .ok (m.put k (a.Add r))
  | none =>
    match NewAllocatorForKind S k with
    | .error err => .error err
    | .ok a => .ok (m.put k (a.Add r))

/-- Lines 74-84: the loop over the registers of one instruction, leaving at the
first error. -/
def populateRegs (S : Strategy) : AllocMap → List Register → Except Error AllocMap
  | m, [] => .ok m
  | m, r :: rs =>
    match populateReg S m r with
    | .error err => .error err
    | .ok m' => populateRegs S m' rs

/-- Lines 72-85: populate the allocators, one per kind. -/
def populate (S : Strategy) : AllocMap → List Instruction → Except Error AllocMap
  | m, [] => .ok m
  | m, i :: is =>
    match populateRegs S m i.Registers with
    | .error err => .error err
    | .ok m' => populate S m' is

/-- Lines 90-93: the body of the loop over `i.OutputRegisters()`. `out` is the
new set `i.LiveOut.OfKind(k)` with `d` discarded. The call on `as[k]` has no
result (`none`) when the map has no allocator for `k`. -/
def interfereReg (x : Instruction) (m : AllocMap) (d : Register) : Option AllocMap :=
  let k := d.Kind
  let out := (x.LiveOut.OfKind k).erase d
  match m.find k with
  | none => none
  | some a => some (m.put k (a.AddInterferenceSet d out))

/-- Lines 89-94: the loop over the output registers of one instruction. -/
def interfereRegs (x : Instruction) : AllocMap → List Register → Option AllocMap
  | m, [] => some m
  | m, d :: ds =>
    match interfereReg x m d with
    | none => none
    | some m' => interfereRegs x m' ds

/-- Lines 88-95: record register interferences. The instructions are only
read. -/
def interfere : AllocMap → List Instruction → Option AllocMap
  | m, [] => some m
  | m, i :: is =>
    match interfereRegs i m i.Outputs with
    | none => none
    | some m' => interfere m' is

/-- Modelled from the spec: `Allocation.Merge`, which adds the entries of `b`
to `a` and fails when the two disagree on the physical target of a key. -/
def Allocation.Merge : Allocation → Allocation → Allocation × Option Error
  | a, [] => (a, none)
  | a, (v, p) :: rest =>
    match a.lookup v with
    | some alt =>
      if alt = p then Allocation.Merge a rest else (a, some "conflicting allocation")
    | none => Allocation.Merge ((v, p) :: a) rest

/-- Lines 99-107: run the allocators in the order `order` in which the map
is ranged over, merging each result into the function's allocation. -/
def executeAllocators (S : Strategy) : Allocation → List Allocator → Allocation × Option Error
  | al, [] => (al, none)
  | al, a :: rest =>
    match S.allocate a with
    | .error err => (al, some err)
    | .ok r =>
      match Allocation.Merge al r with
      | (al', some err) => (al', some err)
      | (al', none) => executeAllocators S al' rest

/-- `AllocateRegisters`. `order` rearranges the entries of the map `as` into
the order in which line 99 ranges over them. The result is `none` when a
method is called on an allocator that the map does not hold. -/
def AllocateRegisters (S : Strategy) (order : AllocMap → AllocMap) (fn : Function) :
    Option (Function × Option Error) :=
  match populate S [] fn.Instructions with
  | .error err => some (fn, some err)
  | .ok m =>
    match interfere m fn.Instructions with
    | none => none
    | some m' =>
      match executeAllocators S [] ((order m').map Prod.snd) with
      | (al, r) => some ({ fn with Allocation := al }, r)

/-! ## `BindRegisters` and `VerifyAllocation` (`pass/reg.go`, lines 112-134) -/

/-- Modelled from the spec: the allocation lookup used by the rewrite. A
physical register and a virtual register without an entry stay as they are. -/
def Allocation.LookupDefault (a : Allocation) (r : Register) : Register :=
  match r with
  | .phys _ _ => r
  | .virt _ _ => (a.lookup r).getD r

/-- Modelled from the spec: `operand.ApplyAllocation`, the rewrite that
returns the operand with its virtual registers replaced per the allocation. -/
def ApplyAllocation (op : Op) (a : Allocation) : Op :=
  match op with
  | .reg r => .reg (a.LookupDefault r)
  | .mem b i d => .mem (b.map a.LookupDefault) (i.map a.LookupDefault) d
  | .imm v => .imm v

/-- Lines 115-117: the loop over the operand slots of one instruction. -/
def bindInstruction (a : Allocation) (x : Instruction) : Instruction :=
  { x with Operands := x.Operands.map (fun op => ApplyAllocation op a) }

/-- `BindRegisters`: every operand slot of every instruction is overwritten
with `operand.ApplyAllocation` of itself; the result is `nil`. -/
def BindRegisters (fn : Function) : Function × Option Error :=
  ({ fn with Instructions := fn.Instructions.map (bindInstruction fn.Allocation) }, none)

/-- Lines 126-130: the loop over `i.Registers()`, returning at the first
register without a physical form. -/
def verifyRegisters : List Register → Option Error
  | [] => none
  | r :: rs =>
    if ToPhysical r = none then some "non physical register found" else verifyRegisters rs

/-- Lines 125-131: the loop over the instructions. -/
def verifyInstructions : List Instruction → Option Error
  | [] => none
  | i :: is =>
    match verifyRegisters i.Registers with
    | some err => some err
    | none => verifyInstructions is

/-- `VerifyAllocation`: the function is only read. -/
def VerifyAllocation (fn : Function) : Function × Option Error :=
  (fn, verifyInstructions fn.Instructions)

/-! ## Pass combinators (`pass/pass.go`) -/

/-- `Interface`: a pass has the one method `Execute(*avo.File) error`. It may
change the file it is handed and anything else it can reach, the world `W`. -/
abbrev Interface (W : Type) := File × W → (File × W) × Option Error

/-- `Func` adapts a function to the pass interface; `Execute` calls it. -/
def Func {W : Type} (p : File × W → (File × W) × Option Error) : Interface W := p

/-- Lines 42-47: the loop of `FunctionPass.Execute` over `f.Functions()`,
which returns at the first error. -/
def functionPassLoop {W : Type} (p : Function × W → (Function × W) × Option Error) :
    List Function → W → (List Function × W) × Option Error
  | [], w => (([], w), none)
  | fn :: rest, w =>
    match p (fn, w) with
    | ((fn', w'), some err) => ((fn' :: rest, w'), some err)
    | ((fn', w'), none) =>
      match functionPassLoop p rest w' with
      | ((rest', w''), r) => ((fn' :: rest', w''), r)

/-- `FunctionPass`: a function on each `avo.Function` as a full file pass. -/
def FunctionPass {W : Type} (p : Function × W → (Function × W) × Option Error) :
    Interface W :=
  fun s =>
    match functionPassLoop p s.1.Functions s.2 with
    | ((fns, w), r) => (({ s.1 with Functions := fns }, w), r)

/-- `Concat`: the pass that executes the given passes in order, stopping on
the first error. -/
def Concat {W : Type} : List (Interface W) → Interface W
  | [], s => (s, none)
  | p :: ps, s =>
    match p s with
    | (s', some err) => (s', some err)
    | (s', none) => Concat ps s'

/-- What `Output.Execute` asks of its sink, in order. -/
inductive SinkCall where
  | write (b : List Nat)
  | close
  deriving DecidableEq, Repr

/-- `Output`: the printer and the sink, each given by what its methods return:
`Printer.Print(f)`, `Writer.Write(b)` and `Writer.Close()`. -/
structure Output where
  Print : File → List Nat × Option Error
  Write : List Nat → Nat × Option Error
  Close : Option Error

/-- `Output.Execute`: the calls made on the sink and the returned error. -/
def Output.Execute (o : Output) (f : File) : List SinkCall × Option Error :=
  match o.Print f with
  | (_, some err) => ([], some err)
  | (b, none) =>
    match o.Write b with
    | (_, some err) => ([SinkCall.write b], some err)
    | (_, none) => ([SinkCall.write b, SinkCall.close], o.Close)

/-! ## The states a run of `Liveness` passes through -/

/-- The states after each round of the loop over `i.Succ` (lines 37-42). -/
def outTrace (outside : Nat → RegSet) (i : Nat) :
    List Instruction → List (Option Nat) → List (List Instruction)
  | _, [] => []
  | st, s :: t =>
    updateLiveOut outside i st s :: outTrace outside i (updateLiveOut outside i st s) t

/-- The states passed through while the instruction at `i` is visited: after
each round of the loop over its successors, after line 50 and after the loop of
lines 51-55. -/
def visitTrace (outside : Nat → RegSet) (st : List Instruction) (i : Nat) :
    List (List Instruction) :=
  match st[i]? with
  | none => []
  | some x =>
    let st1 := x.Succ.foldl (updateLiveOut outside i) st
    outTrace outside i st x.Succ ++
      [modifyAt st1 i unionDifference, modifyAt st1 i updateLiveIn]

/-- The states passed through during one sweep. -/
def sweepTrace (outside : Nat → RegSet) :
    List Nat → List Instruction → List (List Instruction)
  | [], _ => []
  | i :: t, st => visitTrace outside st i ++ sweepTrace outside t (visit outside st i).1

/-- The states passed through by the fixed-point loop, as far as the fuel
goes. -/
def iterateTrace (outside : Nat → RegSet) (order : List Nat) :
    Nat → List Instruction → List (List Instruction)
  | 0, _ => []
  | fuel + 1, st =>
    sweepTrace outside order st ++
      (if (sweep outside order st).2 then
        iterateTrace outside order fuel (sweep outside order st).1 else [])

/-- The states of a run of `Liveness` from the seeding step on, in the order
in which they occur. -/
def livenessTrace (outside : Nat → RegSet) (fuel : Nat) (fn : Function) :
    List (List Instruction) :=
  seedAll (reverseOrder fn) fn.Instructions ::
    iterateTrace outside (reverseOrder fn) fuel (seedAll (reverseOrder fn) fn.Instructions)

/-- The state after `j` sweeps. -/
def sweeps (outside : Nat → RegSet) (order : List Nat) (j : Nat) (st : List Instruction) :
    List Instruction :=
  Nat.iterate (fun s => (sweep outside order s).1) j st

/-! ## Notions used to state the properties -/

/-- The union of `LiveIn(s)` over the non-nil successors `s` listed in `succ`,
read in the state `st`. -/
def succLive (outside : Nat → RegSet) (st : List Instruction) :
    List (Option Nat) → RegSet
  | [] => ∅
  | none :: t => succLive outside st t
  | some p :: t => liveInOf outside st p ∪ succLive outside st t

/-- What one visit makes of the visited instruction `x` in the state `st`:
the successors' `LiveIn` sets are added to `LiveOut`, then `LiveIn` is
updated. -/
def stepInstr (outside : Nat → RegSet) (st : List Instruction) (x : Instruction) :
    Instruction :=
  updateLiveIn { x with LiveOut := x.LiveOut ∪ succLive outside st x.Succ }

/-- The fields of an instruction other than `LiveIn` and `LiveOut`. -/
def static (x : Instruction) : Instruction := { x with LiveIn := ∅, LiveOut := ∅ }

/-- State `b` differs from state `a` only in that its `LiveIn` and `LiveOut`
sets may hold more registers. -/
def Grows (a b : List Instruction) : Prop :=
  a.map static = b.map static ∧
    ∀ j, ownLiveIn a j ⊆ ownLiveIn b j ∧ ownLiveOut a j ⊆ ownLiveOut b j

/-- The total size of all `LiveIn` and `LiveOut` sets of a state. -/
def weight (st : List Instruction) : Nat :=
  ∑ j in Finset.range st.length, ((ownLiveIn st j).card + (ownLiveOut st j).card)

/-- The distinct registers among all instructions' input registers. -/
def allInputs (is : List Instruction) : RegSet :=
  is.foldr (fun x acc => NewSetFromSlice x.Inputs ∪ acc) ∅

/-- The `LiveIn` sets of the instructions outside a function of `n`
instructions that the successor links `succ` point to. -/
def linkedOutside (outside : Nat → RegSet) (n : Nat) : List (Option Nat) → RegSet
  | [] => ∅
  | none :: t => linkedOutside outside n t
  | some p :: t => (if p < n then ∅ else outside p) ∪ linkedOutside outside n t

/-- The registers in the `LiveIn` sets of the instructions outside a function
of `n` instructions that some successor link of the instructions `l` points
to. -/
def outsideLive (outside : Nat → RegSet) (n : Nat) (l : List Instruction) : RegSet :=
  l.foldr (fun x acc => linkedOutside outside n x.Succ ∪ acc) ∅

/-- The registers that can reach a set of the function: the input registers of
its instructions and the registers live into the instructions outside the
function that its successor links point to. -/
def reach (outside : Nat → RegSet) (is : List Instruction) : RegSet :=
  allInputs is ∪ outsideLive outside is.length is

/-- Every `LiveIn` and `LiveOut` set of the state lies within `U`. -/
def Bounded (U : RegSet) (st : List Instruction) : Prop :=
  ∀ j, ownLiveIn st j ⊆ U ∧ ownLiveOut st j ⊆ U

/-- Every register of a set has a reason to be there: `LiveIn` holds the input
registers and nothing beyond the right-hand side of its equation, and `LiveOut`
holds nothing beyond the union over the successors. -/
def Sound (outside : Nat → RegSet) (st : List Instruction) : Prop :=
  ∀ (j : Nat) (x : Instruction), st[j]? = some x →
    NewSetFromSlice x.Inputs ⊆ x.LiveIn ∧
    x.LiveOut ⊆ succLive outside st x.Succ ∧
    x.LiveIn ⊆ NewSetFromSlice x.Inputs ∪ (x.LiveOut \ NewSetFromSlice x.Outputs)

/-- Every set of the state lies within the corresponding set of the assignment
`In`, `Out`. -/
def Below (In Out : Nat → RegSet) (st : List Instruction) : Prop :=
  ∀ j, ownLiveIn st j ⊆ In j ∧ ownLiveOut st j ⊆ Out j

/-- The assignment `In`, `Out` of sets to the instructions `prog` satisfies
both dataflow inequations; for a successor outside `prog` the inequation of
`Out` is about the `LiveIn` set which that instruction holds. -/
def PreFixed (outside : Nat → RegSet) (prog : List Instruction) (In Out : Nat → RegSet) :
    Prop :=
  ∀ (j : Nat) (x : Instruction), prog[j]? = some x →
    (∀ p, some p ∈ x.Succ → (if p < prog.length then In p else outside p) ⊆ Out j) ∧
    NewSetFromSlice x.Inputs ∪ (Out j \ NewSetFromSlice x.Outputs) ⊆ In j

/-- The state satisfies both dataflow equations exactly at every
instruction. -/
def Fixed (outside : Nat → RegSet) (st : List Instruction) : Prop :=
  ∀ (j : Nat) (x : Instruction), st[j]? = some x →
    x.LiveOut = succLive outside st x.Succ ∧
    x.LiveIn = NewSetFromSlice x.Inputs ∪ (x.LiveOut \ NewSetFromSlice x.Outputs)

/-- The step of the fold in `sweep`. -/
def sweepStep (outside : Nat → RegSet) (acc : List Instruction × Bool) (i : Nat) :
    List Instruction × Bool :=
  ((visit outside acc.1 i).1, acc.2 || (visit outside acc.1 i).2)

/-- Every successor link of the function is nil or points to an instruction
of the same function. -/
def WellLinked (fn : Function) : Prop :=
  ∀ x ∈ fn.Instructions, ∀ s ∈ x.Succ, ∀ p ∈ s, p < fn.Instructions.length

/-- No instruction outside the function holds a register in its `LiveIn`. -/
def nothingOutside : Nat → RegSet := fun _ => ∅

/-- The instruction at position 1 holds the register `virt 9 0` in its
`LiveIn`. -/
def liveAtOne : Nat → RegSet := fun p => if p = 1 then {Register.virt 9 0} else ∅

/-- A function of one instruction, without input registers, whose successor
link points to position 1, outside the function. -/
def strayFn : Function :=
  { Allocation := [],
    Instructions := [
      { Operands := [], Inputs := [], Outputs := [], Succ := [some 1],
        LiveIn := ∅, LiveOut := ∅ }] }

/-- A function with a loop: instruction 1 is its own successor. -/
def loopFn : Function :=
  { Allocation := [],
    Instructions := [
      { Operands := [], Inputs := [], Outputs := [Register.virt 0 0], Succ := [some 1],
        LiveIn := ∅, LiveOut := ∅ },
      { Operands := [], Inputs := [Register.virt 0 0], Outputs := [Register.virt 1 0],
        Succ := [some 2, some 1], LiveIn := ∅, LiveOut := ∅ },
      { Operands := [], Inputs := [Register.virt 1 0, Register.virt 0 0], Outputs := [],
        Succ := [none], LiveIn := ∅, LiveOut := ∅ }] }

/-- The list `l` of states leads from `st` to `fin` and never loses a
register on the way. -/
def TraceGrows (st : List Instruction) (l : List (List Instruction))
    (fin : List Instruction) : Prop :=
  Grows st fin ∧ (∀ s ∈ l, Grows st s ∧ Grows s fin) ∧ l.Pairwise Grows ∧ fin ∈ st :: l

/-- Each pass of the list is executed once, in list order, from the state its
predecessor left, and each returns `nil`; the last one leaves the state `s'`. -/
inductive Succeeds {W : Type} : List (Interface W) → File × W → File × W → Prop where
  | nil (s : File × W) : Succeeds [] s s
  | cons (p : Interface W) (ps : List (Interface W)) (s s1 s2 : File × W) :
      p s = (s1, none) → Succeeds ps s1 s2 → Succeeds (p :: ps) s s2

/-- The function pass `p` is applied once to each function of the list, in
list order, from the world its previous application left, and each application
returns `nil`; the applications leave the functions `fns'` and the world
`w'`. -/
inductive FnSucceeds {W : Type} (p : Function × W → (Function × W) × Option Error) :
    List Function → W → List Function → W → Prop where
  | nil (w : W) : FnSucceeds p [] w [] w
  | cons (fn fn' : Function) (rest rest' : List Function) (w w1 w2 : W) :
      p (fn, w) = ((fn', w1), none) → FnSucceeds p rest w1 rest' w2 →
      FnSucceeds p (fn :: rest) w (fn' :: rest') w2

/-- An output pass whose printer fails. -/
def printFails : Output :=
  { Print := fun _ => ([], some "print failed"), Write := fun b => (b.length, none),
    Close := none }

/-- An output pass whose sink fails to write. -/
def writeFails : Output :=
  { Print := fun _ => ([65], none), Write := fun _ => (0, some "write failed"),
    Close := none }

/-- The allocation has an entry that maps each virtual register referenced by
an operand of the function to a physical register. -/
def AllocationCovers (fn : Function) : Prop :=
  ∀ i ∈ fn.Instructions, ∀ r ∈ i.Registers, ToPhysical r = none →
    ∃ p ∈ fn.Allocation.lookup r, ToPhysical p ≠ none

/-- A function with virtual registers in a register operand and in a memory
operand, and an allocation for both. -/
def boundFn : Function :=
  { Allocation := [(Register.virt 0 0, Register.phys 3 0), (Register.virt 1 0, Register.phys 5 0)],
    Instructions := [
      { Operands := [Op.reg (Register.virt 0 0), Op.mem (some (Register.virt 1 0)) none 8,
          Op.imm 1],
        Inputs := [Register.virt 1 0], Outputs := [Register.virt 0 0], Succ := [some 1],
        LiveIn := ∅, LiveOut := ∅ },
      { Operands := [Op.reg (Register.phys 7 0)], Inputs := [], Outputs := [], Succ := [],
        LiveIn := ∅, LiveOut := ∅ }] }

/-- Allocator `k` of the map holds the interference edge from `d` to `r`. -/
def HasEdge (m : AllocMap) (k : Nat) (d r : Register) : Prop :=
  ∃ a, m.find k = some a ∧ (d, r) ∈ a.edges

/-- Register `r` is live out of an instruction that defines `d`, has the kind
of `d` and is not `d`. -/
def Interferes (is : List Instruction) (d r : Register) : Prop :=
  ∃ i ∈ is, d ∈ i.Outputs ∧ r ∈ i.LiveOut ∧ r.Kind = d.Kind ∧ r ≠ d

/-- A strategy that knows every kind; its allocation assigns nothing. -/
def anyKind : Strategy :=
  { unknownKind := fun _ => none, allocate := fun _ => .ok [] }

/-- A function after liveness analysis: instruction 0 defines a register of
kind 0 while two registers of kind 0 and one of kind 1 are live out. -/
def liveFn : Function :=
  { Allocation := [],
    Instructions := [
      { Operands := [Op.reg (Register.virt 0 0), Op.reg (Register.virt 2 1)],
        Inputs := [], Outputs := [Register.virt 0 0], Succ := [some 1],
        LiveIn := ∅,
        LiveOut := {Register.virt 0 0, Register.virt 1 0, Register.virt 2 1} },
      { Operands := [Op.reg (Register.virt 0 0), Op.reg (Register.virt 1 0)],
        Inputs := [Register.virt 0 0, Register.virt 1 0, Register.virt 2 1], Outputs := [],
        Succ := [], LiveIn := {Register.virt 0 0, Register.virt 1 0, Register.virt 2 1},
        LiveOut := ∅ }] }

/-- The function with the `LiveIn` and `LiveOut` fields of the instruction at
each position `j` overwritten by `live j`: an arbitrary content of the fields
before a call. -/
def setLive (fn : Function) (live : Nat → RegSet × RegSet) : Function :=
  let put := fun (j : Nat) (x : Instruction) =>
    { x with LiveIn := (live j).1, LiveOut := (live j).2 }
  { fn with Instructions := fn.Instructions.mapIdx put }

/-- The last instruction of `loopFn`. -/
def lastOfLoopFn : Instruction :=
  { Operands := [], Inputs := [Register.virt 1 0, Register.virt 0 0], Outputs := [],
    Succ := [none], LiveIn := ∅, LiveOut := ∅ }

/-- The entries `E` give each register at most one target and give a register
that the allocation `a` already maps the target it has there. -/
def Agrees (a : Allocation) (E : Register → Register → Prop) : Prop :=
  ∀ v p, E v p → (∀ q, a.lookup v = some q → q = p) ∧ ∀ p', E v p' → p' = p

/-- The allocation of one of the allocators of `l` maps `v` to `p`. -/
def Produced (S : Strategy) (l : List Allocator) (v p : Register) : Prop :=
  ∃ a ∈ l, ∃ r, S.allocate a = .ok r ∧ (v, p) ∈ r

/-- A function whose only instruction writes a register that is none of its
operands (an implicit output); a register of the same kind is live out. -/
def implicitFn : Function :=
  { Allocation := [],
    Instructions := [
      { Operands := [Op.imm 1], Inputs := [], Outputs := [Register.virt 0 0], Succ := [],
        LiveIn := ∅, LiveOut := {Register.virt 1 0} }] }

/-- A strategy that knows every kind and whose allocators all fail. -/
def failAll : Strategy :=
  { unknownKind := fun _ => none, allocate := fun _ => .error "no registers" }

/-- A function that holds an allocation from an earlier run. -/
def priorFn : Function :=
  { Allocation := [(Register.virt 0 0, Register.phys 1 0)],
    Instructions := [
      { Operands := [Op.reg (Register.virt 0 0)], Inputs := [],
        Outputs := [Register.virt 0 0], Succ := [], LiveIn := ∅, LiveOut := ∅ }] }

/-- A strategy whose allocator of kind 0 succeeds and whose allocators of the
other kinds fail, each with an error of its own. -/
def threeKinds : Strategy :=
  { unknownKind := fun _ => none,
    allocate := fun a =>
      if a.kind = 0 then .ok [(Register.virt 0 0, Register.phys 0 0)]
      else if a.kind = 1 then .error "kind 1: no registers"
      else .error "kind 2: no registers" }

/-- A function that references one register of each of three kinds. -/
def threeKindFn : Function :=
  { Allocation := [],
    Instructions := [
      { Operands := [Op.reg (Register.virt 0 0), Op.reg (Register.virt 1 1),
          Op.reg (Register.virt 2 2)],
        Inputs := [], Outputs := [], Succ := [], LiveIn := ∅, LiveOut := ∅ }] }

/-- What the first phase has built once the registers `seen` have been
processed: the map has one entry per kind of a register seen, and the allocator
of a kind was created for that kind by `NewAllocatorForKind` and holds exactly
the registers seen of that kind. -/
def PopulateInv (S : Strategy) (seen : Register → Prop) (m : AllocMap) : Prop :=
  (m.map Prod.fst).Nodup ∧
  (∀ k, (m.find k).isSome = true ↔ ∃ r, seen r ∧ r.Kind = k) ∧
  (∀ k a, m.find k = some a →
    a.kind = k ∧ S.unknownKind k = none ∧ ∀ r, r ∈ a.registers ↔ (seen r ∧ r.Kind = k))

/-- A strategy that has no allocator for kind 1. -/
def noKindOne : Strategy :=
  { unknownKind := fun k => if k = 1 then some "unknown register family" else none,
    allocate := fun _ => .ok [] }

/-! ## Lemmas on mutation through a pointer -/

theorem length_modifyAt (is : List Instruction) (i : Nat) (f : Instruction → Instruction) :
    (modifyAt is i f).length = is.length := by
  unfold modifyAt
  split <;> simp

theorem getElem?_modifyAt (is : List Instruction) (i j : Nat) (f : Instruction → Instruction) :
    (modifyAt is i f)[j]? = if i = j then (is[j]?).map f else is[j]? := by
  unfold modifyAt
  split
  · next h =>
    split
    · next e => subst e; simp [h]
    · rfl
  · next x h =>
    rw [List.getElem?_set]
    split
    · next e =>
      subst e
      have hlt : i < is.length := by
        by_contra hc
        rw [List.getElem?_eq_none (by omega)] at h
        exact absurd h (by simp)
      simp [hlt, h]
    · rfl

theorem modifyAt_congr (is : List Instruction) (i : Nat) (f g : Instruction → Instruction)
    (h : ∀ x, is[i]? = some x → f x = g x) : modifyAt is i f = modifyAt is i g := by
  apply List.ext_getElem?
  intro j
  rw [getElem?_modifyAt, getElem?_modifyAt]
  split
  · next e =>
    subst e
    cases hx : is[i]? with
    | none => rfl
    | some x => simp [h x hx]
  · rfl

theorem modifyAt_fixed (is : List Instruction) (i : Nat) (f : Instruction → Instruction)
    (h : ∀ x, is[i]? = some x → f x = x) : modifyAt is i f = is := by
  apply List.ext_getElem?
  intro j
  rw [getElem?_modifyAt]
  split
  · next e =>
    subst e
    cases hx : is[i]? with
    | none => rfl
    | some x => simp [h x hx]
  · rfl

theorem modifyAt_modifyAt (is : List Instruction) (i : Nat) (f g : Instruction → Instruction) :
    modifyAt (modifyAt is i f) i g = modifyAt is i (fun x => g (f x)) := by
  apply List.ext_getElem?
  intro j
  simp only [getElem?_modifyAt]
  split
  · cases is[j]? <;> rfl
  · rfl

theorem ownLiveIn_modifyAt (is : List Instruction) (i j : Nat) (f : Instruction → Instruction) :
    ownLiveIn (modifyAt is i f) j =
      if i = j then (match is[j]? with | none => ∅ | some x => (f x).LiveIn) else ownLiveIn is j := by
  unfold ownLiveIn
  rw [getElem?_modifyAt]
  by_cases e : i = j
  · simp only [if_pos e]
    cases is[j]? <;> rfl
  · simp only [if_neg e]

theorem ownLiveOut_modifyAt (is : List Instruction) (i j : Nat) (f : Instruction → Instruction) :
    ownLiveOut (modifyAt is i f) j =
      if i = j then (match is[j]? with | none => ∅ | some x => (f x).LiveOut) else ownLiveOut is j := by
  unfold ownLiveOut
  rw [getElem?_modifyAt]
  by_cases e : i = j
  · simp only [if_pos e]
    cases is[j]? <;> rfl
  · simp only [if_neg e]

theorem ownLiveIn_modifyAt_same (is : List Instruction) (i j : Nat) (f : Instruction → Instruction)
    (h : ∀ x, (f x).LiveIn = x.LiveIn) : ownLiveIn (modifyAt is i f) j = ownLiveIn is j := by
  rw [ownLiveIn_modifyAt]
  by_cases e : i = j
  · simp only [if_pos e]
    unfold ownLiveIn
    cases is[j]? with
    | none => rfl
    | some x => exact h x
  · simp only [if_neg e]

/-! ## Reading through a successor link -/

theorem liveInOf_eq (outside : Nat → RegSet) (st : List Instruction) (p : Nat) :
    liveInOf outside st p = if p < st.length then ownLiveIn st p else outside p := by
  unfold liveInOf ownLiveIn
  by_cases h : p < st.length
  · rw [if_pos h, List.getElem?_eq_getElem h]
  · rw [if_neg h, List.getElem?_eq_none (by omega)]

theorem liveInOf_inside (outside : Nat → RegSet) {st : List Instruction} {p : Nat}
    {y : Instruction} (h : st[p]? = some y) : liveInOf outside st p = y.LiveIn := by
  unfold liveInOf
  rw [h]

theorem liveInOf_congr (outside : Nat → RegSet) (a b : List Instruction)
    (hl : a.length = b.length) (h : ∀ p, ownLiveIn a p = ownLiveIn b p) (p : Nat) :
    liveInOf outside a p = liveInOf outside b p := by
  rw [liveInOf_eq, liveInOf_eq, hl, h p]

theorem liveInOf_mono (outside : Nat → RegSet) (a b : List Instruction)
    (hl : a.length = b.length) (h : ∀ p, ownLiveIn a p ⊆ ownLiveIn b p) (p : Nat) :
    liveInOf outside a p ⊆ liveInOf outside b p := by
  rw [liveInOf_eq, liveInOf_eq, hl]
  by_cases c : p < b.length
  · rw [if_pos c, if_pos c]
    exact h p
  · rw [if_neg c, if_neg c]

theorem liveInOf_modifyAt_same (outside : Nat → RegSet) (is : List Instruction) (i j : Nat)
    (f : Instruction → Instruction) (h : ∀ x, (f x).LiveIn = x.LiveIn) :
    liveInOf outside (modifyAt is i f) j = liveInOf outside is j :=
  liveInOf_congr outside _ _ (length_modifyAt is i f)
    (fun p => ownLiveIn_modifyAt_same is i p f h) j

/-! ## One visit in closed form -/

theorem mem_succLive (outside : Nat → RegSet) (st : List Instruction) (succ : List (Option Nat))
    (r : Register) :
    r ∈ succLive outside st succ ↔ ∃ p, some p ∈ succ ∧ r ∈ liveInOf outside st p := by
  induction succ with
  | nil => simp [succLive]
  | cons s t ih =>
    cases s with
    | none => simp [succLive, ih]
    | some q =>
      simp only [succLive, Finset.mem_union, ih, List.mem_cons, Option.some.injEq]
      constructor
      · rintro (h | ⟨p, hp, hr⟩)
        · exact ⟨q, Or.inl rfl, h⟩
        · exact ⟨p, Or.inr hp, hr⟩
      · rintro ⟨p, (hp | hp), hr⟩
        · subst hp; exact Or.inl hr
        · exact Or.inr ⟨p, hp, hr⟩

theorem succLive_congr (outside : Nat → RegSet) (a b : List Instruction) (succ : List (Option Nat))
    (h : ∀ p, liveInOf outside a p = liveInOf outside b p)
    : succLive outside a succ = succLive outside b succ := by
  induction succ with
  | nil => rfl
  | cons s t ih =>
    cases s with
    | none => simpa [succLive] using ih
    | some q => simp [succLive, ih, h q]

theorem succLive_mono (outside : Nat → RegSet) (a b : List Instruction) (succ : List (Option Nat))
    (h : ∀ p, liveInOf outside a p ⊆ liveInOf outside b p)
    : succLive outside a succ ⊆ succLive outside b succ := by
  intro r hr
  rw [mem_succLive outside] at hr ⊢
  obtain ⟨p, hp, hr⟩ := hr
  exact ⟨p, hp, h p hr⟩

theorem foldl_updateLiveOut (outside : Nat → RegSet) (i : Nat) (succ : List (Option Nat))
    (st : List Instruction) :
    succ.foldl (updateLiveOut outside i) st =
      modifyAt st i (fun x => { x with LiveOut := x.LiveOut ∪ succLive outside st succ }) := by
  induction succ generalizing st with
  | nil =>
    rw [List.foldl_nil, modifyAt_fixed]
    intro x _
    simp [succLive]
  | cons s t ih =>
    rw [List.foldl_cons, ih]
    cases s with
    | none => rfl
    | some q =>
      simp only [updateLiveOut, succLive]
      rw [modifyAt_modifyAt]
      have hc : succLive outside (modifyAt st i
          (fun x => { x with LiveOut := x.LiveOut ∪ liveInOf outside st q })) t = succLive outside st t :=
        succLive_congr outside _ _ _ (fun p => liveInOf_modifyAt_same outside _ _ _ _ (fun _ => rfl))
      rw [hc]
      apply modifyAt_congr
      intro x _
      simp [Finset.union_assoc]

theorem updateLiveIn_LiveIn (x : Instruction) :
    (updateLiveIn x).LiveIn = x.LiveIn ∪ (x.LiveOut \ NewSetFromSlice x.Outputs) := by
  ext r
  simp only [updateLiveIn, addNotDefined, unionDifference, Finset.mem_union, Finset.mem_sdiff,
    Finset.mem_filter]
  tauto

theorem stepInstr_LiveOut (outside : Nat → RegSet) (st : List Instruction) (x : Instruction) :
    (stepInstr outside st x).LiveOut = x.LiveOut ∪ succLive outside st x.Succ := rfl

theorem stepInstr_LiveIn (outside : Nat → RegSet) (st : List Instruction) (x : Instruction) :
    (stepInstr outside st x).LiveIn =
      x.LiveIn ∪ ((x.LiveOut ∪ succLive outside st x.Succ) \ NewSetFromSlice x.Outputs) := by
  unfold stepInstr
  rw [updateLiveIn_LiveIn]

theorem static_stepInstr (outside : Nat → RegSet) (st : List Instruction) (x : Instruction) :
    static (stepInstr outside st x) = static x := rfl

theorem visit_none (outside : Nat → RegSet) (st : List Instruction) (i : Nat) (h : st[i]? = none) :
    visit outside st i = (st, false) := by
  unfold visit
  rw [h]

theorem visit_some (outside : Nat → RegSet) (st : List Instruction) (i : Nat) (x : Instruction)
    (h : st[i]? = some x) :
    visit outside st i = (modifyAt st i (stepInstr outside st),
      (decide ((x.LiveOut ∪ succLive outside st x.Succ).card ≠ x.LiveOut.card) ||
        decide ((stepInstr outside st x).LiveIn.card ≠ x.LiveIn.card))) := by
  unfold visit
  rw [h]
  simp only [foldl_updateLiveOut outside, modifyAt_modifyAt]
  have e1 : modifyAt st i (fun y => updateLiveIn { y with LiveOut := y.LiveOut ∪ succLive outside st x.Succ })
      = modifyAt st i (stepInstr outside st) := by
    apply modifyAt_congr
    intro y hy
    rw [h] at hy
    cases hy
    rfl
  rw [e1]
  have e2 : ownLiveOut (modifyAt st i (fun y => { y with LiveOut := y.LiveOut ∪ succLive outside st x.Succ })) i
      = x.LiveOut ∪ succLive outside st x.Succ := by
    rw [ownLiveOut_modifyAt, if_pos rfl, h]
  have e3 : ownLiveIn (modifyAt st i (fun y => { y with LiveOut := y.LiveOut ∪ succLive outside st x.Succ })) i
      = x.LiveIn := by
    rw [ownLiveIn_modifyAt, if_pos rfl, h]
  have e4 : ownLiveIn (modifyAt st i (stepInstr outside st)) i = (stepInstr outside st x).LiveIn := by
    rw [ownLiveIn_modifyAt, if_pos rfl, h]
  have e5 : ownLiveOut st i = x.LiveOut := by
    unfold ownLiveOut
    rw [h]
  rw [e2, e3, e4, e5]

theorem visit_fst (outside : Nat → RegSet) (st : List Instruction) (i : Nat) :
    (visit outside st i).1 = modifyAt st i (stepInstr outside st) := by
  cases h : st[i]? with
  | none =>
    rw [visit_none outside st i h, modifyAt_fixed]
    intro x hx
    rw [h] at hx
    cases hx
  | some x => rw [visit_some outside st i x h]

/-! ## Growth and weight -/

theorem instruction_eq_of (a b : Instruction) (h : static a = static b)
    (hin : a.LiveIn = b.LiveIn) (hout : a.LiveOut = b.LiveOut) : a = b := by
  cases a
  cases b
  simp only [static, Instruction.mk.injEq] at h
  simp only [Instruction.mk.injEq]
  simp only at hin hout
  tauto

theorem map_static_modifyAt (st : List Instruction) (i : Nat) (f : Instruction → Instruction)
    (h : ∀ x, static (f x) = static x) :
    (modifyAt st i f).map static = st.map static := by
  apply List.ext_getElem?
  intro j
  rw [List.getElem?_map, List.getElem?_map, getElem?_modifyAt]
  by_cases e : i = j
  · simp only [if_pos e]
    cases st[j]? with
    | none => rfl
    | some x => simp [h x]
  · simp only [if_neg e]

theorem Grows.refl (a : List Instruction) : Grows a a :=
  ⟨rfl, fun _ => ⟨Finset.Subset.refl _, Finset.Subset.refl _⟩⟩

theorem Grows.trans {a b c : List Instruction} (h1 : Grows a b) (h2 : Grows b c) :
    Grows a c :=
  ⟨h1.1.trans h2.1, fun j =>
    ⟨(h1.2 j).1.trans (h2.2 j).1, (h1.2 j).2.trans (h2.2 j).2⟩⟩

theorem Grows.length_eq {a b : List Instruction} (h : Grows a b) : a.length = b.length := by
  have := congrArg List.length h.1
  simpa using this

theorem Grows.static_eq {a b : List Instruction} (h : Grows a b) (j : Nat)
    (x y : Instruction) (hx : a[j]? = some x) (hy : b[j]? = some y) : static x = static y := by
  have := congrArg (fun l => l[j]?) h.1
  simp only [List.getElem?_map, hx, hy, Option.map_some', Option.some.injEq] at this
  exact this

theorem Grows.antisymm {a b : List Instruction} (h1 : Grows a b) (h2 : Grows b a) : a = b := by
  apply List.ext_getElem?
  intro j
  have hl := h1.length_eq
  cases hx : a[j]? with
  | none =>
    have : a.length ≤ j := by
      by_contra hc
      have := List.getElem?_eq_getElem (l := a) (n := j) (by omega)
      rw [hx] at this
      cases this
    rw [List.getElem?_eq_none (by omega)]
  | some x =>
    have hj : j < b.length := by
      by_contra hc
      rw [List.getElem?_eq_none (by omega)] at hx
      cases hx
    have hy : b[j]? = some b[j] := List.getElem?_eq_getElem hj
    rw [hy]
    congr 1
    apply instruction_eq_of _ _ (h1.static_eq j x _ hx hy)
    · have e1 := (h1.2 j).1
      have e2 := (h2.2 j).1
      simp only [ownLiveIn, hx, hy] at e1 e2
      exact Finset.Subset.antisymm e1 e2
    · have e1 := (h1.2 j).2
      have e2 := (h2.2 j).2
      simp only [ownLiveOut, hx, hy] at e1 e2
      exact Finset.Subset.antisymm e1 e2

theorem Grows.weight_le {a b : List Instruction} (h : Grows a b) : weight a ≤ weight b := by
  unfold weight
  rw [← h.length_eq]
  apply Finset.sum_le_sum
  intro j _
  exact Nat.add_le_add (Finset.card_le_card (h.2 j).1) (Finset.card_le_card (h.2 j).2)

theorem Grows.weight_lt {a b : List Instruction} (h : Grows a b) (j : Nat) (hj : j < a.length)
    (hlt : (ownLiveIn a j).card + (ownLiveOut a j).card
      < (ownLiveIn b j).card + (ownLiveOut b j).card) : weight a < weight b := by
  unfold weight
  rw [← h.length_eq]
  apply Finset.sum_lt_sum
  · intro k _
    exact Nat.add_le_add (Finset.card_le_card (h.2 k).1) (Finset.card_le_card (h.2 k).2)
  · exact ⟨j, Finset.mem_range.mpr hj, hlt⟩

theorem grows_modifyAt (st : List Instruction) (i : Nat) (f : Instruction → Instruction)
    (hs : ∀ x, static (f x) = static x)
    (hin : ∀ x, x.LiveIn ⊆ (f x).LiveIn) (hout : ∀ x, x.LiveOut ⊆ (f x).LiveOut) :
    Grows st (modifyAt st i f) := by
  refine ⟨(map_static_modifyAt st i f hs).symm, fun j => ⟨?_, ?_⟩⟩
  · rw [ownLiveIn_modifyAt]
    by_cases e : i = j
    · simp only [if_pos e, ownLiveIn]
      cases st[j]? with
      | none => exact Finset.Subset.refl _
      | some x => exact hin x
    · simp only [if_neg e]
      exact Finset.Subset.refl _
  · rw [ownLiveOut_modifyAt]
    by_cases e : i = j
    · simp only [if_pos e, ownLiveOut]
      cases st[j]? with
      | none => exact Finset.Subset.refl _
      | some x => exact hout x
    · simp only [if_neg e]
      exact Finset.Subset.refl _

theorem stepInstr_LiveIn_subset (outside : Nat → RegSet) (st : List Instruction) (x : Instruction) :
    x.LiveIn ⊆ (stepInstr outside st x).LiveIn := by
  rw [stepInstr_LiveIn outside]
  exact Finset.subset_union_left

theorem stepInstr_LiveOut_subset (outside : Nat → RegSet) (st : List Instruction)
    (x : Instruction) :
    x.LiveOut ⊆ (stepInstr outside st x).LiveOut := by
  rw [stepInstr_LiveOut outside]
  exact Finset.subset_union_left

theorem grows_visit (outside : Nat → RegSet) (st : List Instruction) (i : Nat) : Grows st
    (visit outside st i).1 := by
  rw [visit_fst outside]
  exact grows_modifyAt st i _ (static_stepInstr outside st) (stepInstr_LiveIn_subset outside st)
    (stepInstr_LiveOut_subset outside st)

theorem visit_unchanged (outside : Nat → RegSet) (st : List Instruction) (i : Nat)
    (h : (visit outside st i).2 = false) :
    (visit outside st i).1 = st := by
  rw [visit_fst outside]
  apply modifyAt_fixed
  intro x hx
  rw [visit_some outside st i x hx] at h
  simp only [Bool.or_eq_false_iff, decide_eq_false_iff_not, not_not] at h
  apply instruction_eq_of _ _ (static_stepInstr outside st x)
  · exact (Finset.eq_of_subset_of_card_le (stepInstr_LiveIn_subset outside st x) (by omega)).symm
  · have := Finset.eq_of_subset_of_card_le (stepInstr_LiveOut_subset outside st x)
      (by rw [stepInstr_LiveOut outside]; omega)
    exact this.symm

theorem visit_changed (outside : Nat → RegSet) (st : List Instruction) (i : Nat)
    (h : (visit outside st i).2 = true) :
    weight st < weight (visit outside st i).1 := by
  cases hx : st[i]? with
  | none =>
    rw [visit_none outside st i hx] at h
    cases h
  | some x =>
    have hi : i < st.length := by
      by_contra hc
      rw [List.getElem?_eq_none (by omega)] at hx
      cases hx
    apply (grows_visit outside st i).weight_lt i hi
    rw [visit_some outside st i x hx] at h
    have a1 : ownLiveIn st i = x.LiveIn := by simp [ownLiveIn, hx]
    have a2 : ownLiveOut st i = x.LiveOut := by simp [ownLiveOut, hx]
    have a3 : ownLiveIn (visit outside st i).1 i = (stepInstr outside st x).LiveIn := by
      rw [visit_fst outside, ownLiveIn_modifyAt, if_pos rfl, hx]
    have a4 : ownLiveOut (visit outside st i).1 i = (stepInstr outside st x).LiveOut := by
      rw [visit_fst outside, ownLiveOut_modifyAt, if_pos rfl, hx]
    rw [a1, a2, a3, a4]
    have b1 := Finset.card_le_card (stepInstr_LiveIn_subset outside st x)
    have b2 := Finset.card_le_card (stepInstr_LiveOut_subset outside st x)
    rw [stepInstr_LiveOut outside] at b2 ⊢
    simp only [Bool.or_eq_true, decide_eq_true_eq] at h
    rcases h with h | h <;> omega

/-! ## One sweep -/

theorem sweep_eq (outside : Nat → RegSet) (order : List Nat) (st : List Instruction) :
    sweep outside order st = order.foldl (sweepStep outside) (st, false) := rfl

theorem foldl_sweepStep_spec (outside : Nat → RegSet) (order : List Nat) (st : List Instruction)
    (c : Bool) :
    Grows st (order.foldl (sweepStep outside) (st, c)).1 ∧
    ((order.foldl (sweepStep outside) (st, c)).2 = true →
      c = true ∨ weight st < weight (order.foldl (sweepStep outside) (st, c)).1) ∧
    ((order.foldl (sweepStep outside) (st, c)).2 = false →
      c = false ∧ (order.foldl (sweepStep outside) (st, c)).1 = st ∧
        ∀ i ∈ order, visit outside st i = (st, false)) := by
  induction order generalizing st c with
  | nil =>
    refine ⟨Grows.refl st, fun h => Or.inl h, fun h => ⟨h, rfl, ?_⟩⟩
    intro i hi
    cases hi
  | cons i t ih =>
    rw [List.foldl_cons]
    have hv := grows_visit outside st i
    have e : sweepStep outside (st, c) i = ((visit outside st i).1, c || (visit outside st i).2) := rfl
    rw [e]
    obtain ⟨g, ht, hf⟩ := ih (visit outside st i).1 (c || (visit outside st i).2)
    refine ⟨hv.trans g, ?_, ?_⟩
    · intro h
      rcases ht h with h1 | h1
      · simp only [Bool.or_eq_true] at h1
        rcases h1 with h1 | h1
        · exact Or.inl h1
        · exact Or.inr (lt_of_lt_of_le (visit_changed outside st i h1) g.weight_le)
      · exact Or.inr (lt_of_le_of_lt hv.weight_le h1)
    · intro h
      obtain ⟨h1, h2, h3⟩ := hf h
      simp only [Bool.or_eq_false_iff] at h1
      have hu : (visit outside st i).1 = st := visit_unchanged outside st i h1.2
      have hvi : visit outside st i = (st, false) := Prod.ext hu h1.2
      rw [hu] at h3
      refine ⟨h1.1, h2.trans hu, ?_⟩
      intro k hk
      rcases List.mem_cons.mp hk with e | e
      · rw [e]; exact hvi
      · exact h3 k e

theorem grows_sweep (outside : Nat → RegSet) (order : List Nat) (st : List Instruction) :
    Grows st (sweep outside order st).1 :=
  (foldl_sweepStep_spec outside order st false).1

theorem sweep_changed (outside : Nat → RegSet) (order : List Nat) (st : List Instruction)
    (h : (sweep outside order st).2 = true) : weight st < weight (sweep outside order st).1 := by
  rcases (foldl_sweepStep_spec outside order st false).2.1 h with h1 | h1
  · cases h1
  · exact h1

theorem sweep_unchanged (outside : Nat → RegSet) (order : List Nat) (st : List Instruction)
    (h : (sweep outside order st).2 = false) :
    (sweep outside order st).1 = st ∧ ∀ i ∈ order, visit outside st i = (st, false) :=
  ((foldl_sweepStep_spec outside order st false).2.2 h).2

theorem foldl_sweepStep_inv (outside : Nat → RegSet) (P : List Instruction → Prop)
    (hP : ∀ st i, P st → P (visit outside st i).1) (order : List Nat)
    (acc : List Instruction × Bool) (h : P acc.1) : P (order.foldl (sweepStep outside) acc).1 := by
  induction order generalizing acc with
  | nil => exact h
  | cons i t ih =>
    rw [List.foldl_cons]
    exact ih _ (hP _ i h)

theorem sweep_inv (outside : Nat → RegSet) (P : List Instruction → Prop)
    (hP : ∀ st i, P st → P (visit outside st i).1) (order : List Nat)
    (st : List Instruction) (h : P st) : P (sweep outside order st).1 :=
  foldl_sweepStep_inv outside P hP order (st, false) h

/-! ## The fixed-point loop -/

theorem iterate_succ (outside : Nat → RegSet) (order : List Nat) (fuel : Nat)
    (st : List Instruction) :
    iterate outside order (fuel + 1) st =
      if (sweep outside order st).2 then
        (iterate outside order fuel (sweep outside order st).1).map (fun q => (q.1, q.2 + 1))
      else some ((sweep outside order st).1, 1) := rfl

theorem iterate_inv (outside : Nat → RegSet) (P : List Instruction → Prop)
    (hP : ∀ st i, P st → P (visit outside st i).1) (order : List Nat) (fuel : Nat)
    (st st' : List Instruction) (k : Nat) (h : P st)
    (hr : iterate outside order fuel st = some (st', k)) : P st' := by
  induction fuel generalizing st k with
  | zero => cases hr
  | succ n ih =>
    rw [iterate_succ outside] at hr
    have hs := sweep_inv outside P hP order st h
    by_cases c : (sweep outside order st).2 = true
    · rw [if_pos c] at hr
      cases hq : iterate outside order n (sweep outside order st).1 with
      | none => rw [hq] at hr; cases hr
      | some q =>
        rw [hq] at hr
        simp only [Option.map_some', Option.some.injEq, Prod.mk.injEq] at hr
        apply ih (sweep outside order st).1 q.2 hs
        rw [hq, ← hr.1]
    · rw [if_neg c] at hr
      simp only [Option.some.injEq, Prod.mk.injEq] at hr
      rw [← hr.1]
      exact hs

theorem iterate_result (outside : Nat → RegSet) (order : List Nat) (fuel : Nat)
    (st st' : List Instruction) (k : Nat)
    (hr : iterate outside order fuel st = some (st', k)) :
    Grows st st' ∧ sweep outside order st' = (st', false) ∧ 1 ≤ k ∧ k ≤ fuel ∧
      weight st + (k - 1) ≤ weight st' := by
  induction fuel generalizing st k with
  | zero => cases hr
  | succ n ih =>
    rw [iterate_succ outside] at hr
    by_cases c : (sweep outside order st).2 = true
    · rw [if_pos c] at hr
      cases hq : iterate outside order n (sweep outside order st).1 with
      | none => rw [hq] at hr; cases hr
      | some q =>
        rw [hq] at hr
        simp only [Option.map_some', Option.some.injEq, Prod.mk.injEq] at hr
        obtain ⟨g, hfix, h1, h2, hw⟩ := ih (sweep outside order st).1 q.2 (by rw [hq, ← hr.1])
        have hlt := sweep_changed outside order st c
        obtain ⟨e1, e2⟩ := hr
        subst e1
        refine ⟨(grows_sweep outside order st).trans g, hfix, by omega, by omega, by omega⟩
    · rw [if_neg c] at hr
      simp only [Option.some.injEq, Prod.mk.injEq] at hr
      obtain ⟨e1, e2⟩ := hr
      have c2 : (sweep outside order st).2 = false := by simpa using c
      have hu := (sweep_unchanged outside order st c2).1
      subst e2
      rw [hu] at e1
      subst e1
      refine ⟨Grows.refl _, Prod.ext hu c2, le_refl _, by omega, by omega⟩

theorem iterate_terminates (outside : Nat → RegSet) (P : List Instruction → Prop)
    (hP : ∀ st i, P st → P (visit outside st i).1) (B : Nat) (hB : ∀ st, P st → weight st ≤ B)
    (order : List Nat) (fuel : Nat) (st : List Instruction) (h : P st)
    (hf : B - weight st < fuel) :
    ∃ st' k, iterate outside order fuel st = some (st', k) := by
  induction fuel generalizing st with
  | zero => omega
  | succ n ih =>
    rw [iterate_succ outside]
    by_cases c : (sweep outside order st).2 = true
    · rw [if_pos c]
      have hs := sweep_inv outside P hP order st h
      have hlt := sweep_changed outside order st c
      have hb := hB _ hs
      obtain ⟨st', k, hk⟩ := ih (sweep outside order st).1 hs (by omega)
      exact ⟨st', k + 1, by rw [hk]; rfl⟩
    · rw [if_neg c]
      exact ⟨_, _, rfl⟩

/-! ## Invariants of a visit -/

theorem static_fields {x y : Instruction} (h : static x = static y) :
    x.Operands = y.Operands ∧ x.Inputs = y.Inputs ∧ x.Outputs = y.Outputs ∧ x.Succ = y.Succ := by
  cases x
  cases y
  simp only [static, Instruction.mk.injEq] at h
  simp only
  tauto

theorem getElem?_of_map_static {a b : List Instruction} (h : a.map static = b.map static)
    (j : Nat) (x : Instruction) (hx : a[j]? = some x) :
    ∃ y, b[j]? = some y ∧ static x = static y := by
  have e := congrArg (fun l => l[j]?) h
  simp only [List.getElem?_map, hx, Option.map_some'] at e
  cases hy : b[j]? with
  | none => rw [hy] at e; cases e
  | some y =>
    rw [hy] at e
    simp only [Option.map_some', Option.some.injEq] at e
    exact ⟨y, rfl, e⟩

theorem ownLiveIn_of_getElem? {st : List Instruction} {j : Nat} {x : Instruction}
    (h : st[j]? = some x) : ownLiveIn st j = x.LiveIn := by
  unfold ownLiveIn
  rw [h]

theorem ownLiveOut_of_getElem? {st : List Instruction} {j : Nat} {x : Instruction}
    (h : st[j]? = some x) : ownLiveOut st j = x.LiveOut := by
  unfold ownLiveOut
  rw [h]

theorem mem_ownLiveIn (st : List Instruction) (p : Nat) (r : Register) :
    r ∈ ownLiveIn st p ↔ ∃ y, st[p]? = some y ∧ r ∈ y.LiveIn := by
  unfold ownLiveIn
  cases st[p]? with
  | none => simp
  | some y => simp

theorem length_of_map_static {a b : List Instruction} (h : a.map static = b.map static) :
    a.length = b.length := by
  have := congrArg List.length h
  simpa using this

theorem succLive_subset (outside : Nat → RegSet) (U : RegSet) (st : List Instruction)
    (succ : List (Option Nat)) (h : ∀ p, some p ∈ succ → liveInOf outside st p ⊆ U) :
    succLive outside st succ ⊆ U := by
  intro r hr
  rw [mem_succLive outside] at hr
  obtain ⟨p, hp, hr⟩ := hr
  exact h p hp hr

theorem bounded_visit (outside : Nat → RegSet) (U : RegSet) (prog st : List Instruction)
    (i : Nat)
    (hU : ∀ (j : Nat) (x : Instruction), prog[j]? = some x →
      ∀ p, some p ∈ x.Succ → prog.length ≤ p → outside p ⊆ U)
    (h : st.map static = prog.map static ∧ Bounded U st) :
    (visit outside st i).1.map static = prog.map static ∧
      Bounded U (visit outside st i).1 := by
  have g := grows_visit outside st i
  refine ⟨g.1.symm.trans h.1, ?_⟩
  have hl := length_of_map_static h.1
  rw [visit_fst outside]
  intro j
  rw [ownLiveIn_modifyAt, ownLiveOut_modifyAt]
  by_cases e : i = j
  · subst e
    simp only [if_pos rfl]
    cases hx : st[i]? with
    | none => exact ⟨Finset.empty_subset _, Finset.empty_subset _⟩
    | some x =>
      obtain ⟨x0, hx0, hs⟩ := getElem?_of_map_static h.1 i x hx
      obtain ⟨_, _, _, f4⟩ := static_fields hs
      have h1 := (h.2 i).1
      have h2 := (h.2 i).2
      rw [ownLiveIn_of_getElem? hx] at h1
      rw [ownLiveOut_of_getElem? hx] at h2
      have h3 : succLive outside st x.Succ ⊆ U := by
        apply succLive_subset outside
        intro p hp
        rw [liveInOf_eq]
        by_cases c : p < st.length
        · rw [if_pos c]
          exact (h.2 p).1
        · rw [if_neg c]
          rw [f4] at hp
          exact hU i x0 hx0 p hp (by omega)
      simp only [stepInstr_LiveIn outside, stepInstr_LiveOut outside]
      constructor
      · exact Finset.union_subset h1
          (Finset.sdiff_subset.trans (Finset.union_subset h2 h3))
      · exact Finset.union_subset h2 h3
  · simp only [if_neg e]
    exact h.2 j

theorem sound_visit (outside : Nat → RegSet) (st : List Instruction) (i : Nat)
    (h : Sound outside st) : Sound outside (visit outside st i).1 := by
  have g := grows_visit outside st i
  rw [visit_fst outside] at g ⊢
  intro j y hy
  have hm : ∀ succ, succLive outside st succ ⊆
      succLive outside (modifyAt st i (stepInstr outside st)) succ :=
    fun succ => succLive_mono outside _ _ succ
      (liveInOf_mono outside _ _ g.length_eq (fun p => (g.2 p).1))
  rw [getElem?_modifyAt] at hy
  by_cases e : i = j
  · subst e
    rw [if_pos rfl] at hy
    cases hx : st[i]? with
    | none => rw [hx] at hy; cases hy
    | some x =>
      rw [hx] at hy
      simp only [Option.map_some', Option.some.injEq] at hy
      subst hy
      obtain ⟨a, b, c⟩ := h i x hx
      have s1 : (stepInstr outside st x).Inputs = x.Inputs := rfl
      have s2 : (stepInstr outside st x).Outputs = x.Outputs := rfl
      have s3 : (stepInstr outside st x).Succ = x.Succ := rfl
      rw [s1, s2, s3, stepInstr_LiveIn outside, stepInstr_LiveOut outside]
      refine ⟨a.trans Finset.subset_union_left, ?_, ?_⟩
      · exact Finset.union_subset (b.trans (hm _)) (hm _)
      · intro r hr
        rcases Finset.mem_union.mp hr with hr | hr
        · have := c hr
          simp only [Finset.mem_union, Finset.mem_sdiff] at this ⊢
          tauto
        · exact Finset.mem_union_right _ hr
  · simp only [if_neg e] at hy
    obtain ⟨a, b, c⟩ := h j y hy
    exact ⟨a, b.trans (hm _), c⟩

theorem below_visit (outside : Nat → RegSet) (prog : List Instruction) (In Out : Nat → RegSet)
    (hp : PreFixed outside prog In Out) (st : List Instruction) (i : Nat)
    (h : st.map static = prog.map static ∧ Below In Out st) :
    (visit outside st i).1.map static = prog.map static ∧
      Below In Out (visit outside st i).1 := by
  have g := grows_visit outside st i
  refine ⟨g.1.symm.trans h.1, ?_⟩
  rw [visit_fst outside]
  intro j
  rw [ownLiveIn_modifyAt, ownLiveOut_modifyAt]
  by_cases e : i = j
  · subst e
    simp only [if_pos rfl]
    cases hx : st[i]? with
    | none => exact ⟨Finset.empty_subset _, Finset.empty_subset _⟩
    | some x =>
      obtain ⟨x0, hx0, hs⟩ := getElem?_of_map_static h.1 i x hx
      obtain ⟨_, f2, f3, f4⟩ := static_fields hs
      obtain ⟨q1, q2⟩ := hp i x0 hx0
      have h1 := (h.2 i).1
      have h2 := (h.2 i).2
      rw [ownLiveIn_of_getElem? hx] at h1
      rw [ownLiveOut_of_getElem? hx] at h2
      have h3 : succLive outside st x.Succ ⊆ Out i := by
        apply succLive_subset outside
        intro p hp'
        rw [f4] at hp'
        have hq := q1 p hp'
        rw [liveInOf_eq, length_of_map_static h.1]
        by_cases c : p < prog.length
        · rw [if_pos c] at hq ⊢
          exact (h.2 p).1.trans hq
        · rw [if_neg c] at hq ⊢
          exact hq
      simp only [stepInstr_LiveIn outside, stepInstr_LiveOut outside]
      have h4 : x.LiveOut ∪ succLive outside st x.Succ ⊆ Out i := Finset.union_subset h2 h3
      refine ⟨Finset.union_subset h1 ?_, h4⟩
      intro r hr
      apply q2
      rw [← f3]
      simp only [Finset.mem_union, Finset.mem_sdiff] at hr ⊢
      exact Or.inr ⟨h4 (Finset.mem_union.mpr hr.1), hr.2⟩
  · simp only [if_neg e]
    exact h.2 j

theorem fixed_of_sweep (outside : Nat → RegSet) (order : List Nat) (st : List Instruction)
    (hc : ∀ j, j < st.length → j ∈ order) (hs : Sound outside st)
    (h : sweep outside order st = (st, false)) : Fixed outside st := by
  intro j x hx
  have hj : j < st.length := by
    by_contra hc'
    rw [List.getElem?_eq_none (by omega)] at hx
    cases hx
  have hv := (sweep_unchanged outside order st (by rw [h])).2 j (hc j hj)
  have hm : modifyAt st j (stepInstr outside st) = st := by
    rw [← visit_fst outside, hv]
  have he : (modifyAt st j (stepInstr outside st))[j]? = st[j]? := by rw [hm]
  rw [getElem?_modifyAt, if_pos rfl, hx] at he
  simp only [Option.map_some', Option.some.injEq] at he
  obtain ⟨a, b, c⟩ := hs j x hx
  have o := congrArg Instruction.LiveOut he
  have n := congrArg Instruction.LiveIn he
  rw [stepInstr_LiveOut outside] at o
  rw [stepInstr_LiveIn outside, o] at n
  have o' : succLive outside st x.Succ ⊆ x.LiveOut := by
    rw [← o]
    exact Finset.subset_union_right
  have n' : x.LiveOut \ NewSetFromSlice x.Outputs ⊆ x.LiveIn := by
    rw [← n]
    exact Finset.subset_union_right
  exact ⟨Finset.Subset.antisymm b o', Finset.Subset.antisymm c (Finset.union_subset a n')⟩

/-! ## The seeded state -/

theorem seed_seed (x : Instruction) : seed (seed x) = seed x := rfl

theorem getElem?_seedAll (order : List Nat) (is : List Instruction) (j : Nat) :
    (seedAll order is)[j]? = if j ∈ order then (is[j]?).map seed else is[j]? := by
  unfold seedAll
  induction order generalizing is with
  | nil => simp
  | cons i t ih =>
    rw [List.foldl_cons, ih, getElem?_modifyAt]
    by_cases e : i = j
    · subst e
      simp only [if_pos rfl, List.mem_cons, true_or]
      cases is[i]? with
      | none => simp
      | some x => simp [seed_seed]
    · have e' : ¬ j = i := fun h => e h.symm
      simp only [if_neg e, List.mem_cons, e', false_or]

theorem seedAll_eq_map (order : List Nat) (is : List Instruction)
    (hc : ∀ j, j < is.length → j ∈ order) : seedAll order is = is.map seed := by
  apply List.ext_getElem?
  intro j
  rw [getElem?_seedAll, List.getElem?_map]
  by_cases hj : j < is.length
  · rw [if_pos (hc j hj)]
  · rw [List.getElem?_eq_none (by omega)]
    simp

theorem map_static_seed (is : List Instruction) : (is.map seed).map static = is.map static := by
  rw [List.map_map]
  rfl

theorem subset_allInputs (is : List Instruction) (x : Instruction) (h : x ∈ is) :
    NewSetFromSlice x.Inputs ⊆ allInputs is := by
  induction is with
  | nil => cases h
  | cons y t ih =>
    simp only [allInputs, List.foldr_cons]
    rcases List.mem_cons.mp h with e | e
    · subst e
      exact Finset.subset_union_left
    · exact (ih e).trans Finset.subset_union_right

theorem mem_allInputs (is : List Instruction) (r : Register) :
    r ∈ allInputs is ↔ ∃ x ∈ is, r ∈ x.Inputs := by
  induction is with
  | nil => simp [allInputs]
  | cons y t ih =>
    have e : allInputs (y :: t) = NewSetFromSlice y.Inputs ∪ allInputs t := rfl
    rw [e, Finset.mem_union, ih]
    simp [NewSetFromSlice]

theorem bounded_seed (is : List Instruction) : Bounded (allInputs is) (is.map seed) := by
  intro j
  unfold ownLiveIn ownLiveOut
  rw [List.getElem?_map]
  cases hx : is[j]? with
  | none => exact ⟨Finset.empty_subset _, Finset.empty_subset _⟩
  | some x =>
    exact ⟨subset_allInputs is x (List.mem_iff_getElem?.mpr ⟨j, hx⟩), Finset.empty_subset _⟩

theorem sound_seed (outside : Nat → RegSet) (is : List Instruction) : Sound outside
    (is.map seed) := by
  intro j y hy
  rw [List.getElem?_map] at hy
  cases hx : is[j]? with
  | none => rw [hx] at hy; cases hy
  | some x =>
    rw [hx] at hy
    simp only [Option.map_some', Option.some.injEq] at hy
    subst hy
    refine ⟨Finset.Subset.refl _, Finset.empty_subset _, ?_⟩
    exact Finset.subset_union_left

theorem below_seed (outside : Nat → RegSet) (prog : List Instruction) (In Out : Nat → RegSet)
    (hp : PreFixed outside prog In Out) (is : List Instruction)
    (hs : is.map static = prog.map static) : Below In Out (is.map seed) := by
  intro j
  unfold ownLiveIn ownLiveOut
  rw [List.getElem?_map]
  cases hx : is[j]? with
  | none => exact ⟨Finset.empty_subset _, Finset.empty_subset _⟩
  | some x =>
    obtain ⟨x0, hx0, hs0⟩ := getElem?_of_map_static hs j x hx
    obtain ⟨_, f2, _, _⟩ := static_fields hs0
    refine ⟨?_, Finset.empty_subset _⟩
    have := (hp j x0 hx0).2
    rw [← f2] at this
    exact Finset.subset_union_left.trans this

theorem weight_le_of_bounded (U : RegSet) (st : List Instruction) (h : Bounded U st) :
    weight st ≤ 2 * st.length * U.card := by
  unfold weight
  have : ∀ j ∈ Finset.range st.length,
      (ownLiveIn st j).card + (ownLiveOut st j).card ≤ 2 * U.card := by
    intro j _
    have a := Finset.card_le_card (h j).1
    have b := Finset.card_le_card (h j).2
    omega
  have hs := Finset.sum_le_sum this
  simp only [Finset.sum_const, Finset.card_range, smul_eq_mul] at hs
  calc _ ≤ st.length * (2 * U.card) := hs
    _ = 2 * st.length * U.card := by ring

theorem iterate_mono (outside : Nat → RegSet) (order : List Nat) (fuel : Nat)
    (st : List Instruction)
    (q : List Instruction × Nat) (h : iterate outside order fuel st = some q) (fuel' : Nat)
    (hf : fuel ≤ fuel') : iterate outside order fuel' st = some q := by
  induction fuel generalizing st q fuel' with
  | zero => cases h
  | succ n ih =>
    obtain ⟨m, rfl⟩ : ∃ m, fuel' = m + 1 := ⟨fuel' - 1, by omega⟩
    rw [iterate_succ outside] at h ⊢
    by_cases c : (sweep outside order st).2 = true
    · rw [if_pos c] at h ⊢
      cases hq : iterate outside order n (sweep outside order st).1 with
      | none => rw [hq] at h; cases h
      | some q' =>
        rw [hq] at h
        rw [ih _ q' hq m (by omega)]
        exact h
    · rw [if_neg c] at h ⊢
      exact h

theorem bounded_mono (U V : RegSet) (st : List Instruction) (h : Bounded U st)
    (hs : U ⊆ V) : Bounded V st :=
  fun j => ⟨(h j).1.trans hs, (h j).2.trans hs⟩

theorem subset_linkedOutside (outside : Nat → RegSet) (n : Nat) (succ : List (Option Nat))
    (p : Nat) (hp : some p ∈ succ) (hn : n ≤ p) :
    outside p ⊆ linkedOutside outside n succ := by
  induction succ with
  | nil => cases hp
  | cons s t ih =>
    cases s with
    | none =>
      rcases List.mem_cons.mp hp with e | e
      · cases e
      · exact ih e
    | some q =>
      have e0 : linkedOutside outside n (some q :: t) =
          (if q < n then ∅ else outside q) ∪ linkedOutside outside n t := rfl
      rw [e0]
      rcases List.mem_cons.mp hp with e | e
      · simp only [Option.some.injEq] at e
        subst e
        rw [if_neg (by omega)]
        exact Finset.subset_union_left
      · exact (ih e).trans Finset.subset_union_right

theorem linkedOutside_eq_empty (outside : Nat → RegSet) (n : Nat) (succ : List (Option Nat))
    (h : ∀ s ∈ succ, ∀ p ∈ s, p < n) : linkedOutside outside n succ = ∅ := by
  induction succ with
  | nil => rfl
  | cons s t ih =>
    have ht := ih (fun s' hs' => h s' (List.mem_cons_of_mem _ hs'))
    cases s with
    | none => exact ht
    | some q =>
      have e0 : linkedOutside outside n (some q :: t) =
          (if q < n then ∅ else outside q) ∪ linkedOutside outside n t := rfl
      rw [e0, ht, if_pos (h (some q) (List.mem_cons_self _ _) q rfl)]
      simp

theorem subset_outsideLive (outside : Nat → RegSet) (n : Nat) (l : List Instruction)
    (x : Instruction) (h : x ∈ l) :
    linkedOutside outside n x.Succ ⊆ outsideLive outside n l := by
  induction l with
  | nil => cases h
  | cons y t ih =>
    simp only [outsideLive, List.foldr_cons]
    rcases List.mem_cons.mp h with e | e
    · subst e
      exact Finset.subset_union_left
    · exact (ih e).trans Finset.subset_union_right

theorem outsideLive_eq_empty (outside : Nat → RegSet) (n : Nat) (l : List Instruction)
    (h : ∀ x ∈ l, ∀ s ∈ x.Succ, ∀ p ∈ s, p < n) : outsideLive outside n l = ∅ := by
  induction l with
  | nil => rfl
  | cons y t ih =>
    have e0 : outsideLive outside n (y :: t) =
        linkedOutside outside n y.Succ ∪ outsideLive outside n t := rfl
    rw [e0, ih (fun x hx => h x (List.mem_cons_of_mem _ hx)),
      linkedOutside_eq_empty outside n y.Succ (h y (List.mem_cons_self _ _))]
    simp

theorem outside_subset_reach (outside : Nat → RegSet) (is : List Instruction) (j : Nat)
    (x : Instruction) (hx : is[j]? = some x) (p : Nat) (hp : some p ∈ x.Succ)
    (hn : is.length ≤ p) : outside p ⊆ reach outside is :=
  ((subset_linkedOutside outside is.length x.Succ p hp hn).trans
    (subset_outsideLive outside is.length is x (List.mem_iff_getElem?.mpr ⟨j, hx⟩))).trans
    Finset.subset_union_right

theorem reach_of_wellLinked (outside : Nat → RegSet) (fn : Function) (h : WellLinked fn) :
    reach outside fn.Instructions = allInputs fn.Instructions := by
  unfold reach
  rw [outsideLive_eq_empty outside _ _ h]
  simp

theorem reach_nothingOutside (is : List Instruction) :
    reach nothingOutside is = allInputs is := by
  have h1 : ∀ (n : Nat) (succ : List (Option Nat)), linkedOutside nothingOutside n succ = ∅ := by
    intro n succ
    induction succ with
    | nil => rfl
    | cons s t ih =>
      cases s with
      | none => exact ih
      | some q =>
        have e0 : linkedOutside nothingOutside n (some q :: t) =
            (if q < n then ∅ else nothingOutside q) ∪ linkedOutside nothingOutside n t := rfl
        rw [e0, ih]
        simp [nothingOutside]
  have h2 : ∀ (n : Nat) (l : List Instruction), outsideLive nothingOutside n l = ∅ := by
    intro n l
    induction l with
    | nil => rfl
    | cons y t ih =>
      have e0 : outsideLive nothingOutside n (y :: t) =
          linkedOutside nothingOutside n y.Succ ∪ outsideLive nothingOutside n t := rfl
      rw [e0, ih, h1]
      simp
  unfold reach
  rw [h2]
  simp

/-- The seeded state reaches a fixed point within the fuel `2 * n * r + 1`,
where `r` counts the registers that can reach a set. -/
theorem iterate_seed_terminates (outside : Nat → RegSet) (order : List Nat)
    (is : List Instruction) :
    ∃ st' k, iterate outside order (2 * is.length * (reach outside is).card + 1)
        (is.map seed) = some (st', k) ∧
      k ≤ 2 * is.length * (reach outside is).card + 1 := by
  have hP : ∀ st i, (st.map static = is.map static ∧ Bounded (reach outside is) st) →
      ((visit outside st i).1.map static = is.map static ∧
        Bounded (reach outside is) (visit outside st i).1) :=
    fun st i h => bounded_visit outside _ is st i (outside_subset_reach outside is) h
  have hB : ∀ st, (st.map static = is.map static ∧ Bounded (reach outside is) st) →
      weight st ≤ 2 * is.length * (reach outside is).card := by
    intro st h
    rw [← length_of_map_static h.1]
    exact weight_le_of_bounded _ st h.2
  have h0 : (is.map seed).map static = is.map static ∧
      Bounded (reach outside is) (is.map seed) :=
    ⟨map_static_seed is, bounded_mono _ _ _ (bounded_seed is) Finset.subset_union_left⟩
  obtain ⟨st', k, hk⟩ := iterate_terminates outside _ hP _ hB order
    (2 * is.length * (reach outside is).card + 1) (is.map seed) h0 (by omega)
  refine ⟨st', k, hk, ?_⟩
  exact (iterate_result outside order _ _ st' k hk).2.2.2.1

/-! ## `Liveness`: results -/

theorem length_swapAt (is : List Nat) (l r : Nat) : (swapAt is l r).length = is.length := by
  simp [swapAt]

theorem getElem?_swapAt (is : List Nat) (l r k : Nat) (hl : l < is.length) (hr : r < is.length) :
    (swapAt is l r)[k]? = if k = r then is[l]? else if k = l then is[r]? else is[k]? := by
  unfold swapAt
  rw [List.getElem?_set, List.getElem?_set]
  simp only [List.length_set]
  by_cases e1 : r = k
  · subst e1
    simp [hr, hl, List.getD_eq_getElem?_getD, List.getElem?_eq_getElem]
  · have e1' : ¬ k = r := fun h => e1 h.symm
    rw [if_neg e1, if_neg e1']
    by_cases e2 : l = k
    · subst e2
      simp [hr, hl, List.getD_eq_getElem?_getD, List.getElem?_eq_getElem]
    · have e2' : ¬ k = l := fun h => e2 h.symm
      rw [if_neg e2, if_neg e2']

theorem getElem?_reverseLoop (fuel l r : Nat) (is : List Nat)
    (hlen : l + r + 1 = is.length) (hf : r ≤ l + 2 * fuel) (j : Nat) :
    (reverseLoop fuel l r is)[j]? = if l ≤ j ∧ j ≤ r then is[l + r - j]? else is[j]? := by
  induction fuel generalizing l r is with
  | zero =>
    unfold reverseLoop
    by_cases h : l ≤ j ∧ j ≤ r
    · rw [if_pos h]
      congr 1
      omega
    · rw [if_neg h]
  | succ n ih =>
    unfold reverseLoop
    by_cases c : l < r
    · have hl : l < is.length := by omega
      have hr : r < is.length := by omega
      rw [if_pos c, ih (l + 1) (r - 1) _ (by rw [length_swapAt]; omega) (by omega)]
      simp only [getElem?_swapAt is l r _ hl hr]
      by_cases h1 : l + 1 ≤ j ∧ j ≤ r - 1
      · have e : l + 1 + (r - 1) - j = l + r - j := by omega
        rw [if_pos h1, e, if_neg (by omega), if_neg (by omega), if_pos (by omega)]
      · rw [if_neg h1]
        by_cases h2 : j = r
        · rw [if_pos h2, if_pos (by omega)]
          congr 1
          omega
        · rw [if_neg h2]
          by_cases h3 : j = l
          · rw [if_pos h3, if_pos (by omega)]
            congr 1
            omega
          · rw [if_neg h3, if_neg (by omega)]
    · rw [if_neg c]
      by_cases h : l ≤ j ∧ j ≤ r
      · rw [if_pos h]
        congr 1
        omega
      · rw [if_neg h]

theorem reverseLoop_eq_reverse (is : List Nat) :
    reverseLoop is.length 0 (is.length - 1) is = is.reverse := by
  cases hn : is.length with
  | zero =>
    have : is = [] := List.length_eq_zero.mp hn
    subst this
    rfl
  | succ m =>
    apply List.ext_getElem?
    intro j
    rw [← hn, getElem?_reverseLoop _ _ _ _ (by omega) (by omega)]
    by_cases h : j < is.length
    · rw [if_pos (by omega), List.getElem?_reverse h]
      congr 1
      omega
    · rw [if_neg (by omega), List.getElem?_eq_none (by omega),
        List.getElem?_eq_none (by rw [List.length_reverse]; omega)]

theorem reverseOrder_eq (fn : Function) :
    reverseOrder fn = (List.range fn.Instructions.length).reverse := by
  have h := reverseLoop_eq_reverse (List.range fn.Instructions.length)
  rw [List.length_range] at h
  exact h

theorem covers_reverseOrder (fn : Function) :
    ∀ j, j < fn.Instructions.length → j ∈ reverseOrder fn := by
  intro j hj
  rw [reverseOrder_eq]
  simp [hj]

theorem livenessIn_eq (outside : Nat → RegSet) (order : List Nat) (fuel : Nat) (fn : Function)
    (hc : ∀ j, j < fn.Instructions.length → j ∈ order) :
    LivenessIn outside order fuel fn =
      (iterate outside order fuel (fn.Instructions.map seed)).map
        (fun q => ({ fn with Instructions := q.1 }, none, q.2)) := by
  unfold LivenessIn
  rw [seedAll_eq_map order _ hc]

theorem livenessIn_some (outside : Nat → RegSet) (order : List Nat) (fuel : Nat) (fn fn' : Function)
    (e : Option Error) (k : Nat)
    (hc : ∀ j, j < fn.Instructions.length → j ∈ order)
    (h : LivenessIn outside order fuel fn = some (fn', e, k)) :
    iterate outside order fuel (fn.Instructions.map seed) = some (fn'.Instructions, k) ∧
      fn' = { fn with Instructions := fn'.Instructions } ∧ e = none := by
  rw [livenessIn_eq outside order fuel fn hc] at h
  cases hq : iterate outside order fuel (fn.Instructions.map seed) with
  | none => rw [hq] at h; cases h
  | some q =>
    rw [hq] at h
    simp only [Option.map_some', Option.some.injEq, Prod.mk.injEq] at h
    obtain ⟨h1, h2, h3⟩ := h
    subst h1
    exact ⟨by rw [← h3], rfl, h2.symm⟩

theorem livenessIn_terminates (outside : Nat → RegSet) (order : List Nat) (fn : Function)
    (hc : ∀ j, j < fn.Instructions.length → j ∈ order) :
    ∃ fn' k, LivenessIn outside order
        (2 * fn.Instructions.length * (reach outside fn.Instructions).card + 1) fn
          = some (fn', none, k) ∧
      k ≤ 2 * fn.Instructions.length * (reach outside fn.Instructions).card + 1 := by
  obtain ⟨st', k, hk, hle⟩ := iterate_seed_terminates outside order fn.Instructions
  refine ⟨{ fn with Instructions := st' }, k, ?_, hle⟩
  rw [livenessIn_eq outside order _ fn hc, hk]
  rfl

theorem livenessIn_terminates_linked (outside : Nat → RegSet) (order : List Nat) (fn : Function)
    (hc : ∀ j, j < fn.Instructions.length → j ∈ order) (hwf : WellLinked fn) :
    ∃ fn' k, LivenessIn outside order
        (2 * fn.Instructions.length * (allInputs fn.Instructions).card + 1) fn
          = some (fn', none, k) ∧
      k ≤ 2 * fn.Instructions.length * (allInputs fn.Instructions).card + 1 := by
  have h := livenessIn_terminates outside order fn hc
  rw [reach_of_wellLinked outside fn hwf] at h
  exact h

theorem livenessIn_fuel (outside : Nat → RegSet) (order : List Nat) (fn : Function) (f1 f2 : Nat)
    (r1 r2 : Function × Option Error × Nat)
    (h1 : LivenessIn outside order f1 fn = some r1)
    (h2 : LivenessIn outside order f2 fn = some r2) :
    r1 = r2 := by
  unfold LivenessIn at h1 h2
  cases hq1 : iterate outside order f1 (seedAll order fn.Instructions) with
  | none => rw [hq1] at h1; cases h1
  | some q1 =>
    cases hq2 : iterate outside order f2 (seedAll order fn.Instructions) with
    | none => rw [hq2] at h2; cases h2
    | some q2 =>
      have a := iterate_mono outside order f1 _ q1 hq1 (max f1 f2) (le_max_left _ _)
      have b := iterate_mono outside order f2 _ q2 hq2 (max f1 f2) (le_max_right _ _)
      rw [a] at b
      simp only [Option.some.injEq] at b
      subst b
      rw [hq1] at h1
      rw [hq2] at h2
      rw [h1] at h2
      simpa using h2

theorem livenessIn_fixed (outside : Nat → RegSet) (order : List Nat) (fuel : Nat)
    (fn fn' : Function)
    (e : Option Error) (k : Nat)
    (hc : ∀ j, j < fn.Instructions.length → j ∈ order)
    (h : LivenessIn outside order fuel fn = some (fn', e, k)) :
    fn'.Instructions.map static = fn.Instructions.map static ∧ Fixed outside fn'.Instructions := by
  obtain ⟨hi, _, _⟩ := livenessIn_some outside order fuel fn fn' e k hc h
  obtain ⟨g, hfix, _⟩ := iterate_result outside order fuel _ _ k hi
  have hs : Sound outside fn'.Instructions :=
    iterate_inv outside (Sound outside) (sound_visit outside) order fuel _ _ k (sound_seed outside _) hi
  have hst : fn'.Instructions.map static = fn.Instructions.map static :=
    g.1.symm.trans (map_static_seed _)
  refine ⟨hst, fixed_of_sweep outside order _ ?_ hs hfix⟩
  intro j hj
  apply hc
  have := congrArg List.length hst
  simp only [List.length_map] at this
  omega

/-! ## The flag of each sweep -/

theorem sweeps_succ (outside : Nat → RegSet) (order : List Nat) (j : Nat) (st : List Instruction) :
    sweeps outside order (j + 1) st = sweeps outside order j (sweep outside order st).1 := by
  unfold sweeps
  rw [Function.iterate_succ_apply]

theorem iterate_flags (outside : Nat → RegSet) (order : List Nat) (fuel : Nat)
    (st st' : List Instruction) (k : Nat)
    (h : iterate outside order fuel st = some (st', k)) :
    (∀ j, j < k - 1 → (sweep outside order (sweeps outside order j st)).2 = true) ∧
      (sweep outside order (sweeps outside order (k - 1) st)).2 = false ∧ st' = sweeps outside order k st := by
  induction fuel generalizing st k with
  | zero => cases h
  | succ n ih =>
    rw [iterate_succ outside] at h
    by_cases c : (sweep outside order st).2 = true
    · rw [if_pos c] at h
      cases hq : iterate outside order n (sweep outside order st).1 with
      | none => rw [hq] at h; cases h
      | some q =>
        rw [hq] at h
        simp only [Option.map_some', Option.some.injEq, Prod.mk.injEq] at h
        obtain ⟨e1, e2⟩ := h
        have hq' : iterate outside order n (sweep outside order st).1 = some (st', q.2) := by rw [hq, ← e1]
        obtain ⟨a, b, d⟩ := ih (sweep outside order st).1 q.2 hq'
        have hk1 := (iterate_result outside order n _ _ _ hq').2.2.1
        subst e2
        refine ⟨?_, ?_, ?_⟩
        · intro j hj
          cases j with
          | zero => exact c
          | succ j' =>
            rw [sweeps_succ outside]
            exact a j' (by omega)
        · have e : q.2 + 1 - 1 = (q.2 - 1) + 1 := by omega
          rw [e, sweeps_succ outside]
          exact b
        · rw [sweeps_succ outside]
          exact d
    · rw [if_neg c] at h
      simp only [Option.some.injEq, Prod.mk.injEq] at h
      obtain ⟨e1, e2⟩ := h
      subst e2
      refine ⟨fun j hj => by omega, by simpa [sweeps] using c, ?_⟩
      rw [← e1]
      rfl

/-! ## Every step only adds registers -/

theorem grows_updateLiveOut (outside : Nat → RegSet) (i : Nat) (st : List Instruction)
    (s : Option Nat) :
    Grows st (updateLiveOut outside i st s) := by
  cases s with
  | none => exact Grows.refl st
  | some p =>
    exact grows_modifyAt st i _ (fun _ => rfl) (fun _ => Finset.Subset.refl _)
      (fun _ => Finset.subset_union_left)

theorem grows_unionDifference (st : List Instruction) (i : Nat) :
    Grows st (modifyAt st i unionDifference) :=
  grows_modifyAt st i _ (fun _ => rfl) (fun _ => Finset.subset_union_left)
    (fun _ => Finset.Subset.refl _)

theorem grows_addNotDefined (st : List Instruction) (i : Nat) :
    Grows st (modifyAt st i addNotDefined) :=
  grows_modifyAt st i _ (fun _ => rfl) (fun _ => Finset.subset_union_left)
    (fun _ => Finset.Subset.refl _)

theorem TraceGrows.nil (st : List Instruction) : TraceGrows st [] st :=
  ⟨Grows.refl st, fun s hs => (by cases hs), List.Pairwise.nil, List.mem_cons_self _ _⟩

theorem TraceGrows.single (st s : List Instruction) (h : Grows st s) : TraceGrows st [s] s := by
  refine ⟨h, ?_, List.pairwise_singleton _ _, by simp⟩
  intro t ht
  rw [List.mem_singleton] at ht
  subst ht
  exact ⟨h, Grows.refl _⟩

theorem TraceGrows.append {st mid fin : List Instruction} {l1 l2 : List (List Instruction)}
    (h1 : TraceGrows st l1 mid) (h2 : TraceGrows mid l2 fin) :
    TraceGrows st (l1 ++ l2) fin := by
  obtain ⟨a1, b1, c1, d1⟩ := h1
  obtain ⟨a2, b2, c2, d2⟩ := h2
  refine ⟨a1.trans a2, ?_, ?_, ?_⟩
  · intro s hs
    rcases List.mem_append.mp hs with hs | hs
    · exact ⟨(b1 s hs).1, (b1 s hs).2.trans a2⟩
    · exact ⟨a1.trans (b2 s hs).1, (b2 s hs).2⟩
  · rw [List.pairwise_append]
    exact ⟨c1, c2, fun a ha b hb => (b1 a ha).2.trans (b2 b hb).1⟩
  · rcases List.mem_cons.mp d2 with e | e
    · rw [e]
      rcases List.mem_cons.mp d1 with e' | e'
      · rw [e']; exact List.mem_cons_self _ _
      · exact List.mem_cons_of_mem _ (List.mem_append_left _ e')
    · exact List.mem_cons_of_mem _ (List.mem_append_right _ e)

theorem traceGrows_outTrace (outside : Nat → RegSet) (i : Nat) (succ : List (Option Nat))
    (st : List Instruction) :
    TraceGrows st (outTrace outside i st succ) (succ.foldl (updateLiveOut outside i) st) := by
  induction succ generalizing st with
  | nil => exact TraceGrows.nil st
  | cons s t ih =>
    have e : outTrace outside i st (s :: t) =
        [updateLiveOut outside i st s] ++ outTrace outside i (updateLiveOut outside i st s) t := rfl
    rw [e, List.foldl_cons]
    exact (TraceGrows.single _ _ (grows_updateLiveOut outside i st s)).append (ih _)

theorem traceGrows_visitTrace (outside : Nat → RegSet) (st : List Instruction) (i : Nat) :
    TraceGrows st (visitTrace outside st i) (visit outside st i).1 := by
  unfold visitTrace
  cases hx : st[i]? with
  | none =>
    rw [visit_none outside st i hx]
    exact TraceGrows.nil st
  | some x =>
    have hv : (visit outside st i).1 = modifyAt (x.Succ.foldl (updateLiveOut outside i) st) i updateLiveIn := by
      unfold visit
      rw [hx]
    rw [hv]
    apply (traceGrows_outTrace outside i x.Succ st).append
    have e : modifyAt (x.Succ.foldl (updateLiveOut outside i) st) i updateLiveIn =
        modifyAt (modifyAt (x.Succ.foldl (updateLiveOut outside i) st) i unionDifference) i
          addNotDefined := by
      rw [modifyAt_modifyAt]
      rfl
    have t1 := TraceGrows.single _ _ (grows_unionDifference (x.Succ.foldl (updateLiveOut outside i) st) i)
    have t2 := TraceGrows.single _ _
      (grows_addNotDefined (modifyAt (x.Succ.foldl (updateLiveOut outside i) st) i unionDifference) i)
    rw [← e] at t2
    exact t1.append t2

theorem foldl_sweepStep_fst (outside : Nat → RegSet) (order : List Nat) (st : List Instruction)
    (c c' : Bool) :
    (order.foldl (sweepStep outside) (st, c)).1 = (order.foldl (sweepStep outside) (st, c')).1 := by
  induction order generalizing st c c' with
  | nil => rfl
  | cons i t ih =>
    rw [List.foldl_cons, List.foldl_cons]
    exact ih _ _ _

theorem sweep_cons_fst (outside : Nat → RegSet) (i : Nat) (t : List Nat) (st : List Instruction) :
    (sweep outside (i :: t) st).1 = (sweep outside t (visit outside st i).1).1 := by
  rw [sweep_eq outside, sweep_eq outside, List.foldl_cons]
  exact foldl_sweepStep_fst outside t _ _ _

theorem traceGrows_sweepTrace (outside : Nat → RegSet) (order : List Nat) (st : List Instruction) :
    TraceGrows st (sweepTrace outside order st) (sweep outside order st).1 := by
  induction order generalizing st with
  | nil => exact TraceGrows.nil st
  | cons i t ih =>
    rw [sweep_cons_fst outside]
    exact (traceGrows_visitTrace outside st i).append (ih _)

theorem traceGrows_iterateTrace (outside : Nat → RegSet) (order : List Nat) (fuel : Nat)
    (st : List Instruction) :
    ∃ fin, TraceGrows st (iterateTrace outside order fuel st) fin ∧
      ∀ st' k, iterate outside order fuel st = some (st', k) → st' = fin := by
  induction fuel generalizing st with
  | zero => exact ⟨st, TraceGrows.nil st, fun st' k h => (by cases h)⟩
  | succ n ih =>
    have e : iterateTrace outside order (n + 1) st = sweepTrace outside order st ++
        (if (sweep outside order st).2 then iterateTrace outside order n (sweep outside order st).1 else []) := rfl
    rw [e, iterate_succ outside]
    by_cases c : (sweep outside order st).2 = true
    · rw [if_pos c, if_pos c]
      obtain ⟨fin, hf, hr⟩ := ih (sweep outside order st).1
      refine ⟨fin, (traceGrows_sweepTrace outside order st).append hf, ?_⟩
      intro st' k h
      cases hq : iterate outside order n (sweep outside order st).1 with
      | none => rw [hq] at h; cases h
      | some q =>
        rw [hq] at h
        simp only [Option.map_some', Option.some.injEq, Prod.mk.injEq] at h
        apply hr st' q.2
        rw [hq, ← h.1]
    · rw [if_neg c, if_neg c, List.append_nil]
      refine ⟨(sweep outside order st).1, traceGrows_sweepTrace outside order st, ?_⟩
      intro st' k h
      simp only [Option.some.injEq, Prod.mk.injEq] at h
      exact h.1.symm

/-! ## The result is the least solution, whatever the visiting order -/

theorem prefixed_of_fixed (outside : Nat → RegSet) (st : List Instruction) (h : Fixed outside st) :
    PreFixed outside st (ownLiveIn st) (ownLiveOut st) := by
  intro j x hx
  obtain ⟨ho, hi⟩ := h j x hx
  rw [ownLiveIn_of_getElem? hx, ownLiveOut_of_getElem? hx]
  constructor
  · intro p hp r hr
    rw [ho, mem_succLive outside]
    exact ⟨p, hp, by rw [liveInOf_eq]; exact hr⟩
  · rw [← hi]

theorem prefixed_congr (outside : Nat → RegSet) (a b : List Instruction)
    (In Out : Nat → RegSet) (h : a.map static = b.map static)
    (hp : PreFixed outside a In Out) : PreFixed outside b In Out := by
  intro j x hx
  obtain ⟨y, hy, hs⟩ := getElem?_of_map_static h.symm j x hx
  obtain ⟨_, f2, f3, f4⟩ := static_fields hs
  have := hp j y hy
  rw [length_of_map_static h, ← f2, ← f3, ← f4] at this
  exact this

theorem mem_linkedOutside (outside : Nat → RegSet) (n : Nat) (succ : List (Option Nat))
    (r : Register) (h : r ∈ linkedOutside outside n succ) :
    ∃ p, some p ∈ succ ∧ n ≤ p ∧ r ∈ outside p := by
  induction succ with
  | nil => simp [linkedOutside] at h
  | cons s t ih =>
    cases s with
    | none =>
      obtain ⟨p, hp, hn, hr⟩ := ih h
      exact ⟨p, List.mem_cons_of_mem _ hp, hn, hr⟩
    | some q =>
      have e0 : linkedOutside outside n (some q :: t) =
          (if q < n then ∅ else outside q) ∪ linkedOutside outside n t := rfl
      rw [e0, Finset.mem_union] at h
      rcases h with h | h
      · by_cases c : q < n
        · rw [if_pos c] at h
          simp at h
        · rw [if_neg c] at h
          exact ⟨q, List.mem_cons_self _ _, by omega, h⟩
      · obtain ⟨p, hp, hn, hr⟩ := ih h
        exact ⟨p, List.mem_cons_of_mem _ hp, hn, hr⟩

theorem mem_outsideLive (outside : Nat → RegSet) (n : Nat) (l : List Instruction)
    (r : Register) (h : r ∈ outsideLive outside n l) :
    ∃ x ∈ l, ∃ p, some p ∈ x.Succ ∧ n ≤ p ∧ r ∈ outside p := by
  induction l with
  | nil => simp [outsideLive] at h
  | cons y t ih =>
    have e0 : outsideLive outside n (y :: t) =
        linkedOutside outside n y.Succ ∪ outsideLive outside n t := rfl
    rw [e0, Finset.mem_union] at h
    rcases h with h | h
    · exact ⟨y, List.mem_cons_self _ _, mem_linkedOutside outside n y.Succ r h⟩
    · obtain ⟨x, hx, hr⟩ := ih h
      exact ⟨x, List.mem_cons_of_mem _ hx, hr⟩

theorem prefixed_reach (outside : Nat → RegSet) (is : List Instruction) :
    PreFixed outside is (fun _ => reach outside is) (fun _ => reach outside is) := by
  intro j x hx
  constructor
  · intro p hp
    by_cases c : p < is.length
    · rw [if_pos c]
    · rw [if_neg c]
      exact outside_subset_reach outside is j x hx p hp (by omega)
  · exact Finset.union_subset
      ((subset_allInputs _ x (List.mem_iff_getElem?.mpr ⟨j, hx⟩)).trans
        Finset.subset_union_left) Finset.sdiff_subset

theorem livenessIn_below (outside : Nat → RegSet) (order : List Nat) (fuel : Nat)
    (fn fn' : Function)
    (e : Option Error) (k : Nat)
    (hc : ∀ j, j < fn.Instructions.length → j ∈ order)
    (h : LivenessIn outside order fuel fn = some (fn', e, k))
    (prog : List Instruction) (In Out : Nat → RegSet) (hp : PreFixed outside prog In Out)
    (hs : fn.Instructions.map static = prog.map static) :
    Below In Out fn'.Instructions := by
  obtain ⟨hi, _, _⟩ := livenessIn_some outside order fuel fn fn' e k hc h
  have h0 : (fn.Instructions.map seed).map static = prog.map static ∧
      Below In Out (fn.Instructions.map seed) :=
    ⟨(map_static_seed _).trans hs, below_seed outside prog In Out hp _ hs⟩
  exact (iterate_inv outside (fun st => st.map static = prog.map static ∧ Below In Out st)
    (below_visit outside prog In Out hp) order fuel _ _ k h0 hi).2

theorem livenessIn_unique (outside : Nat → RegSet) (o1 o2 : List Nat) (f1 f2 : Nat)
    (fn fn1 fn2 : Function)
    (e1 e2 : Option Error) (k1 k2 : Nat)
    (hc1 : ∀ j, j < fn.Instructions.length → j ∈ o1)
    (hc2 : ∀ j, j < fn.Instructions.length → j ∈ o2)
    (h1 : LivenessIn outside o1 f1 fn = some (fn1, e1, k1))
    (h2 : LivenessIn outside o2 f2 fn = some (fn2, e2, k2)) : fn1 = fn2 ∧ e1 = e2 := by
  obtain ⟨s1, x1⟩ := livenessIn_fixed outside o1 f1 fn fn1 e1 k1 hc1 h1
  obtain ⟨s2, x2⟩ := livenessIn_fixed outside o2 f2 fn fn2 e2 k2 hc2 h2
  have b12 := livenessIn_below outside o1 f1 fn fn1 e1 k1 hc1 h1 fn2.Instructions _ _
    (prefixed_of_fixed outside _ x2) s2.symm
  have b21 := livenessIn_below outside o2 f2 fn fn2 e2 k2 hc2 h2 fn1.Instructions _ _
    (prefixed_of_fixed outside _ x1) s1.symm
  have hi : fn1.Instructions = fn2.Instructions :=
    Grows.antisymm ⟨s1.trans s2.symm, b12⟩ ⟨s2.trans s1.symm, b21⟩
  obtain ⟨_, a1, c1⟩ := livenessIn_some outside o1 f1 fn fn1 e1 k1 hc1 h1
  obtain ⟨_, a2, c2⟩ := livenessIn_some outside o2 f2 fn fn2 e2 k2 hc2 h2
  refine ⟨?_, by rw [c1, c2]⟩
  rw [a1, a2, hi]

/-- C1. For a function whose successor links point to instructions of the same
function, `Liveness` returns (the fuel `2 * n * r + 1` is enough), and whenever
it returns, no field other than `LiveIn` and `LiveOut` has changed and every
instruction satisfies both dataflow equations exactly: each successor is an
instruction of the function, `LiveOut` holds exactly the registers of the
`LiveIn` sets of the non-nil successors, and `LiveIn` is
`InputRegisters ∪ (LiveOut − OutputRegisters)`. -/
theorem liveness_dataflow_equations (outside : Nat → RegSet) (fn : Function) (hwf : WellLinked fn) :
    (∃ res, Liveness outside
      (2 * fn.Instructions.length * (allInputs fn.Instructions).card + 1) fn = some res) ∧
    ∀ (fuel : Nat) (fn' : Function) (e : Option Error) (k : Nat),
      Liveness outside fuel fn = some (fn', e, k) →
      fn'.Instructions.map static = fn.Instructions.map static ∧
      ∀ (i : Nat) (x : Instruction), fn'.Instructions[i]? = some x →
        (∀ p, some p ∈ x.Succ → ∃ y, fn'.Instructions[p]? = some y) ∧
        (∀ r, r ∈ x.LiveOut ↔
          ∃ p y, some p ∈ x.Succ ∧ fn'.Instructions[p]? = some y ∧ r ∈ y.LiveIn) ∧
        x.LiveIn = NewSetFromSlice x.Inputs ∪ (x.LiveOut \ NewSetFromSlice x.Outputs) := by
  constructor
  · obtain ⟨fn', k, hk, _⟩ :=
      livenessIn_terminates_linked outside (reverseOrder fn) fn (covers_reverseOrder fn) hwf
    exact ⟨_, hk⟩
  · intro fuel fn' e k h
    obtain ⟨hst, hfix⟩ :=
      livenessIn_fixed outside (reverseOrder fn) fuel fn fn' e k (covers_reverseOrder fn) h
    refine ⟨hst, ?_⟩
    intro i x hx
    obtain ⟨ho, hi⟩ := hfix i x hx
    have hin : ∀ p, some p ∈ x.Succ → ∃ y, fn'.Instructions[p]? = some y := by
      intro p hp
      obtain ⟨x0, hx0, hs0⟩ := getElem?_of_map_static hst i x hx
      obtain ⟨_, _, _, f4⟩ := static_fields hs0
      rw [f4] at hp
      have hlt : p < fn.Instructions.length :=
        hwf x0 (List.mem_iff_getElem?.mpr ⟨i, hx0⟩) (some p) hp p rfl
      have hl := congrArg List.length hst
      simp only [List.length_map] at hl
      exact ⟨fn'.Instructions[p], List.getElem?_eq_getElem (by omega)⟩
    refine ⟨hin, ?_, hi⟩
    intro r
    rw [ho, mem_succLive outside]
    constructor
    · rintro ⟨p, hp, hr⟩
      obtain ⟨y, hy⟩ := hin p hp
      rw [liveInOf_inside outside hy] at hr
      exact ⟨p, y, hp, hy, hr⟩
    · rintro ⟨p, y, hp, hy, hry⟩
      exact ⟨p, hp, by rw [liveInOf_inside outside hy]; exact hry⟩

/-- Witness of C1 on `loopFn`, whose links all stay within the function. -/
theorem liveness_dataflow_equations_witness :
    WellLinked loopFn ∧
    ((∃ res, Liveness nothingOutside
      (2 * loopFn.Instructions.length * (allInputs loopFn.Instructions).card + 1) loopFn
        = some res) ∧
    ∀ (fuel : Nat) (fn' : Function) (e : Option Error) (k : Nat),
      Liveness nothingOutside fuel loopFn = some (fn', e, k) →
      fn'.Instructions.map static = loopFn.Instructions.map static ∧
      ∀ (i : Nat) (x : Instruction), fn'.Instructions[i]? = some x →
        (∀ p, some p ∈ x.Succ → ∃ y, fn'.Instructions[p]? = some y) ∧
        (∀ r, r ∈ x.LiveOut ↔
          ∃ p y, some p ∈ x.Succ ∧ fn'.Instructions[p]? = some y ∧ r ∈ y.LiveIn) ∧
        x.LiveIn = NewSetFromSlice x.Inputs ∪ (x.LiveOut \ NewSetFromSlice x.Outputs)) :=
  ⟨by unfold WellLinked; decide,
    liveness_dataflow_equations nothingOutside loopFn (by unfold WellLinked; decide)⟩

/-- C2, the claim fails: `strayFn` has one instruction and no input
register, so the claimed bound is one sweep; its successor link points to an
instruction outside the function that holds `virt 9 0` in its `LiveIn`, the
first sweep adds that register to `LiveOut` and `LiveIn` and sets `changes`,
and the loop returns after two sweeps. -/
theorem liveness_outside_link_extra_sweep :
    2 * strayFn.Instructions.length * (allInputs strayFn.Instructions).card + 1 = 1 ∧
    (sweep liveAtOne (reverseOrder strayFn)
      (seedAll (reverseOrder strayFn) strayFn.Instructions)).2 = true ∧
    Liveness liveAtOne 1 strayFn = none ∧
    (Liveness liveAtOne 2 strayFn).map (fun q => q.2) = some (none, 2) := by
  decide

/-- C2 as amended. For every function, whatever its successor links (cycles,
self-loops and links to instructions outside the function included), the
fixed-point loop of `Liveness` terminates. With `n` instructions and `r`
distinct registers among all input registers and the `LiveIn` sets of the
linked instructions outside the function, the fuel `2 * n * r + 1` is enough;
the loop runs `k` sweeps, of which the first `k - 1` set `changes` and the last
does not, with `k - 1 ≤ 2 * n * r`; and every run that returns gives this same
result after these same `k` sweeps. When every successor link points to an
instruction of the function, the same holds with `r` the number of distinct
registers among all input registers. -/
theorem liveness_terminates (outside : Nat → RegSet) (fn : Function) :
    ∃ (fn' : Function) (k : Nat),
      Liveness outside (2 * fn.Instructions.length * (reach outside fn.Instructions).card + 1) fn
        = some (fn', none, k) ∧
      1 ≤ k ∧ k - 1 ≤ 2 * fn.Instructions.length * (reach outside fn.Instructions).card ∧
      (∀ j, j < k - 1 →
        (sweep outside (reverseOrder fn)
          (sweeps outside (reverseOrder fn) j
            (seedAll (reverseOrder fn) fn.Instructions))).2 = true) ∧
      (sweep outside (reverseOrder fn)
        (sweeps outside (reverseOrder fn) (k - 1)
          (seedAll (reverseOrder fn) fn.Instructions))).2 = false ∧
      (∀ (fuel : Nat) (res : Function × Option Error × Nat),
        Liveness outside fuel fn = some res → res = (fn', none, k)) ∧
      (WellLinked fn →
        Liveness outside
          (2 * fn.Instructions.length * (allInputs fn.Instructions).card + 1) fn
            = some (fn', none, k) ∧
        k - 1 ≤ 2 * fn.Instructions.length * (allInputs fn.Instructions).card) := by
  obtain ⟨fn', k, hk, hle⟩ :=
    livenessIn_terminates outside (reverseOrder fn) fn (covers_reverseOrder fn)
  obtain ⟨hi, _, _⟩ := livenessIn_some outside _ _ fn fn' none k (covers_reverseOrder fn) hk
  have hf := iterate_flags outside _ _ _ _ k hi
  rw [seedAll_eq_map (reverseOrder fn) fn.Instructions (covers_reverseOrder fn)]
  refine ⟨fn', k, hk, (iterate_result outside _ _ _ _ k hi).2.2.1, by omega, hf.1, hf.2.1,
    ?_, ?_⟩
  · intro fuel res h
    exact livenessIn_fuel outside (reverseOrder fn) fn _ _ _ _ h hk
  · intro hwf
    have hk2 : Liveness outside
        (2 * fn.Instructions.length * (reach outside fn.Instructions).card + 1) fn
          = some (fn', none, k) := hk
    rw [reach_of_wellLinked outside fn hwf] at hk2 hle
    exact ⟨hk2, by omega⟩

/-- Witness of the amended C2 on `loopFn`, whose links all stay within the
function. -/
theorem liveness_terminates_witness :
    WellLinked loopFn ∧
    ∃ (fn' : Function) (k : Nat),
      Liveness nothingOutside
        (2 * loopFn.Instructions.length * (reach nothingOutside loopFn.Instructions).card + 1)
        loopFn = some (fn', none, k) ∧
      1 ≤ k ∧
      k - 1 ≤ 2 * loopFn.Instructions.length * (reach nothingOutside loopFn.Instructions).card ∧
      (∀ j, j < k - 1 →
        (sweep nothingOutside (reverseOrder loopFn)
          (sweeps nothingOutside (reverseOrder loopFn) j
            (seedAll (reverseOrder loopFn) loopFn.Instructions))).2 = true) ∧
      (sweep nothingOutside (reverseOrder loopFn)
        (sweeps nothingOutside (reverseOrder loopFn) (k - 1)
          (seedAll (reverseOrder loopFn) loopFn.Instructions))).2 = false ∧
      (∀ (fuel : Nat) (res : Function × Option Error × Nat),
        Liveness nothingOutside fuel loopFn = some res → res = (fn', none, k)) ∧
      (WellLinked loopFn →
        Liveness nothingOutside
          (2 * loopFn.Instructions.length * (allInputs loopFn.Instructions).card + 1) loopFn
            = some (fn', none, k) ∧
        k - 1 ≤ 2 * loopFn.Instructions.length * (allInputs loopFn.Instructions).card) :=
  ⟨by unfold WellLinked; decide, liveness_terminates nothingOutside loopFn⟩

/-- C9. From the seeding step on, every step of every sweep only adds
registers: of any two states a run of `Liveness` passes through, the later one
holds, at every instruction, every register the earlier one holds in `LiveIn`
and in `LiveOut` (and differs in nothing else); in every such state `LiveIn`
contains the input registers; and the state `Liveness` returns is one of these
states. -/
theorem liveness_monotone (outside : Nat → RegSet) (fuel : Nat) (fn : Function) :
    (livenessTrace outside fuel fn).Pairwise Grows ∧
    (∀ st ∈ livenessTrace outside fuel fn, ∀ (i : Nat) (x : Instruction), st[i]? = some x →
      NewSetFromSlice x.Inputs ⊆ x.LiveIn) ∧
    (∀ (fn' : Function) (e : Option Error) (k : Nat),
      Liveness outside fuel fn = some (fn', e, k) → fn'.Instructions ∈ livenessTrace outside fuel fn) := by
  unfold livenessTrace
  obtain ⟨fin, ht, hr⟩ := traceGrows_iterateTrace outside (reverseOrder fn) fuel
    (seedAll (reverseOrder fn) fn.Instructions)
  obtain ⟨_, hb, hpw, hfin⟩ := ht
  have hg : ∀ st ∈ seedAll (reverseOrder fn) fn.Instructions ::
      iterateTrace outside (reverseOrder fn) fuel (seedAll (reverseOrder fn) fn.Instructions),
      Grows (seedAll (reverseOrder fn) fn.Instructions) st := by
    intro st hst
    rcases List.mem_cons.mp hst with e | e
    · rw [e]; exact Grows.refl _
    · exact (hb st e).1
  refine ⟨?_, ?_, ?_⟩
  · rw [List.pairwise_cons]
    exact ⟨fun s hs => (hb s hs).1, hpw⟩
  · intro st hst i x hx
    have g := hg st hst
    rw [seedAll_eq_map _ _ (covers_reverseOrder fn)] at g
    obtain ⟨y, hy, hs⟩ := getElem?_of_map_static g.1.symm i x hx
    obtain ⟨_, f2, _, _⟩ := static_fields hs
    have h1 := (sound_seed outside fn.Instructions i y hy).1
    have h2 := (g.2 i).1
    rw [ownLiveIn_of_getElem? hy, ownLiveIn_of_getElem? hx] at h2
    rw [f2]
    exact h1.trans h2
  · intro fn' e k h
    unfold Liveness LivenessIn at h
    cases hq : iterate outside (reverseOrder fn) fuel (seedAll (reverseOrder fn) fn.Instructions) with
    | none => rw [hq] at h; cases h
    | some q =>
      rw [hq] at h
      simp only [Option.map_some', Option.some.injEq, Prod.mk.injEq] at h
      have := hr q.1 q.2 hq
      rw [← h.1]
      simp only
      rw [this]
      exact hfin

/-- C10. The sets computed by `Liveness` do not depend on the order in which
the instructions are visited: with the slice `is` in any permutation `order` of
the instructions, the analysis returns (the fuel `2 * n * r + 1` is enough, `r`
counting the registers among the input registers and the `LiveIn` sets of the
linked instructions outside the function), and it returns the same function
(the same `LiveIn` and `LiveOut` at every instruction) as with the reverse
program order that the code uses. -/
theorem liveness_order_independent (outside : Nat → RegSet) (fn : Function) (order : List Nat)
    (hperm : order.Perm (reverseOrder fn)) :
    ∃ (fn' : Function) (k1 k2 : Nat),
      LivenessIn outside order
        (2 * fn.Instructions.length * (reach outside fn.Instructions).card + 1) fn
          = some (fn', none, k1) ∧
      Liveness outside (2 * fn.Instructions.length * (reach outside fn.Instructions).card + 1) fn
        = some (fn', none, k2) ∧
      ∀ (f1 f2 : Nat) (r1 r2 : Function × Option Error × Nat),
        LivenessIn outside order f1 fn = some r1 → Liveness outside f2 fn = some r2 →
          r1.1 = r2.1 := by
  have hc : ∀ j, j < fn.Instructions.length → j ∈ order :=
    fun j hj => hperm.mem_iff.mpr (covers_reverseOrder fn j hj)
  obtain ⟨fn1, k1, h1, _⟩ := livenessIn_terminates outside order fn hc
  obtain ⟨fn2, k2, h2, _⟩ :=
    livenessIn_terminates outside (reverseOrder fn) fn (covers_reverseOrder fn)
  have hu : ∀ (f1 f2 : Nat) (r1 r2 : Function × Option Error × Nat),
      LivenessIn outside order f1 fn = some r1 → Liveness outside f2 fn = some r2 →
        r1.1 = r2.1 := by
    intro f1 f2 r1 r2 a b
    obtain ⟨g1, e1, j1⟩ := r1
    obtain ⟨g2, e2, j2⟩ := r2
    exact (livenessIn_unique outside order (reverseOrder fn) f1 f2 fn g1 g2 e1 e2 j1 j2 hc
      (covers_reverseOrder fn) a b).1
  have he : fn1 = fn2 := hu _ _ _ _ h1 h2
  subst he
  exact ⟨fn1, k1, k2, h1, h2, hu⟩

/-- Witness of C10 on `loopFn`, visited in program order. -/
theorem liveness_order_independent_witness :
    [0, 1, 2].Perm (reverseOrder loopFn) ∧
    ∃ (fn' : Function) (k1 k2 : Nat),
      LivenessIn nothingOutside [0, 1, 2]
        (2 * loopFn.Instructions.length * (reach nothingOutside loopFn.Instructions).card + 1)
        loopFn = some (fn', none, k1) ∧
      Liveness nothingOutside
        (2 * loopFn.Instructions.length * (reach nothingOutside loopFn.Instructions).card + 1)
        loopFn = some (fn', none, k2) ∧
      ∀ (f1 f2 : Nat) (r1 r2 : Function × Option Error × Nat),
        LivenessIn nothingOutside [0, 1, 2] f1 loopFn = some r1 →
          Liveness nothingOutside f2 loopFn = some r2 → r1.1 = r2.1 :=
  ⟨by decide, liveness_order_independent nothingOutside loopFn [0, 1, 2] (by decide)⟩

/-! ## Pass combinators: results -/

theorem concat_fails {W : Type} (pre : List (Interface W)) (p : Interface W)
    (s s1 s2 : File × W) (err : Error) (h : Succeeds pre s s1) (hp : p s1 = (s2, some err))
    (post : List (Interface W)) : Concat (pre ++ p :: post) s = (s2, some err) := by
  induction h with
  | nil s =>
    simp only [List.nil_append, Concat]
    rw [hp]
  | cons q qs a b c hq _ ih =>
    simp only [List.cons_append, Concat]
    rw [hq]
    exact ih hp

theorem concat_succeeds {W : Type} (passes : List (Interface W)) (s s' : File × W)
    (h : Succeeds passes s s') : Concat passes s = (s', none) := by
  induction h with
  | nil s => rfl
  | cons q qs a b c hq _ ih =>
    simp only [Concat]
    rw [hq]
    exact ih

/-- C3. For every list of passes and every file, the pass returned by `Concat`
either meets a first failing pass `p`: the passes before it have been executed
once each in list order with result `nil`, `p` returns `err`, and `Concat`
returns exactly `err` and leaves the state exactly as `p` left it, whatever
passes follow `p` in the list (none of them is executed); or no pass fails:
every pass has been executed once in list order and the result is `nil`. -/
theorem concat_stops_at_first_error {W : Type} (passes : List (Interface W)) (f : File)
    (w : W) :
    (∃ (pre : List (Interface W)) (p : Interface W) (post : List (Interface W))
        (s1 s2 : File × W) (err : Error),
        passes = pre ++ p :: post ∧ Succeeds pre (f, w) s1 ∧ p s1 = (s2, some err) ∧
        Concat passes (f, w) = (s2, some err) ∧
        ∀ post' : List (Interface W), Concat (pre ++ p :: post') (f, w) = (s2, some err)) ∨
    (∃ s' : File × W, Succeeds passes (f, w) s' ∧ Concat passes (f, w) = (s', none)) := by
  generalize (f, w) = s
  induction passes generalizing s with
  | nil => exact Or.inr ⟨s, Succeeds.nil s, rfl⟩
  | cons p ps ih =>
    cases hp : p s with
    | mk s1 r =>
      cases r with
      | some err =>
        left
        refine ⟨[], p, ps, s, s1, err, rfl, Succeeds.nil s, hp, ?_, ?_⟩
        · exact concat_fails [] p s s s1 err (Succeeds.nil s) hp ps
        · exact fun post' => concat_fails [] p s s s1 err (Succeeds.nil s) hp post'
      | none =>
        rcases ih s1 with ⟨pre, q, post, t1, t2, err, e, hs, hq, hc, _⟩ | ⟨s', hs, hc⟩
        · left
          have hs' : Succeeds (p :: pre) s t1 := Succeeds.cons p pre s s1 t1 hp hs
          refine ⟨p :: pre, q, post, t1, t2, err, by rw [e]; rfl, hs', hq, ?_, ?_⟩
          · rw [e]
            exact concat_fails (p :: pre) q s t1 t2 err hs' hq post
          · exact fun post' => concat_fails (p :: pre) q s t1 t2 err hs' hq post'
        · right
          have hs' : Succeeds (p :: ps) s s' := Succeeds.cons p ps s s1 s' hp hs
          exact ⟨s', hs', concat_succeeds _ _ _ hs'⟩

theorem functionPassLoop_fails {W : Type} (p : Function × W → (Function × W) × Option Error)
    (pre pre' : List Function) (w w1 w2 : W) (fn fn' : Function) (err : Error)
    (h : FnSucceeds p pre w pre' w1) (hp : p (fn, w1) = ((fn', w2), some err))
    (post : List Function) :
    functionPassLoop p (pre ++ fn :: post) w = ((pre' ++ fn' :: post, w2), some err) := by
  induction h with
  | nil w =>
    simp only [List.nil_append, functionPassLoop]
    rw [hp]
  | cons g g' rest rest' a b c hg _ ih =>
    simp only [List.cons_append, functionPassLoop]
    rw [hg]
    simp only [List.append_eq]
    rw [ih hp]

theorem functionPassLoop_succeeds {W : Type}
    (p : Function × W → (Function × W) × Option Error)
    (fns fns' : List Function) (w w' : W) (h : FnSucceeds p fns w fns' w') :
    functionPassLoop p fns w = ((fns', w'), none) := by
  induction h with
  | nil w => rfl
  | cons g g' rest rest' a b c hg _ ih =>
    simp only [functionPassLoop]
    rw [hg]
    simp only
    rw [ih]

theorem functionPassLoop_cases {W : Type} (p : Function × W → (Function × W) × Option Error)
    (fns : List Function) (w : W) :
    (∃ (pre : List Function) (fn : Function) (post pre' : List Function) (fn' : Function)
        (w1 w2 : W) (err : Error),
        fns = pre ++ fn :: post ∧ FnSucceeds p pre w pre' w1 ∧
        p (fn, w1) = ((fn', w2), some err)) ∨
    (∃ (fns' : List Function) (w' : W), FnSucceeds p fns w fns' w') := by
  induction fns generalizing w with
  | nil => exact Or.inr ⟨[], w, FnSucceeds.nil w⟩
  | cons fn rest ih =>
    cases hp : p (fn, w) with
    | mk a r =>
      obtain ⟨fn', w1⟩ := a
      cases r with
      | some err =>
        exact Or.inl ⟨[], fn, rest, [], fn', w, w1, err, rfl, FnSucceeds.nil w, hp⟩
      | none =>
        rcases ih w1 with ⟨pre, g, post, pre', g', u1, u2, err, e, hs, hg⟩ | ⟨fns', w', hs⟩
        · left
          exact ⟨fn :: pre, g, post, fn' :: pre', g', u1, u2, err, by rw [e]; rfl,
            FnSucceeds.cons fn fn' pre pre' w w1 u1 hp hs, hg⟩
        · right
          exact ⟨fn' :: fns', w', FnSucceeds.cons fn fn' rest fns' w w1 w' hp hs⟩

/-- C8. For every function-level pass `p` and every file,
`FunctionPass(p).Execute` either meets a first function `fn` on which `p`
fails: `p` has been applied once to each function before it, in order, with
result `nil`, the error of `p` on `fn` is returned, and the functions after `fn`
are left as they were (`p` is not applied to them); or `p` succeeds on every
function, in order, and the result is `nil`. The result is `nil` exactly when
`p` succeeded on every function. -/
theorem functionPass_stops_at_first_error {W : Type}
    (p : Function × W → (Function × W) × Option Error) (f : File) (w : W) :
    ((∃ (pre : List Function) (fn : Function) (post pre' : List Function) (fn' : Function)
        (w1 w2 : W) (err : Error),
        f.Functions = pre ++ fn :: post ∧ FnSucceeds p pre w pre' w1 ∧
        p (fn, w1) = ((fn', w2), some err) ∧
        FunctionPass p (f, w) =
          (({ f with Functions := pre' ++ fn' :: post }, w2), some err)) ∨
      (∃ (fns' : List Function) (w' : W), FnSucceeds p f.Functions w fns' w' ∧
        FunctionPass p (f, w) = (({ f with Functions := fns' }, w'), none))) ∧
    ((FunctionPass p (f, w)).2 = none ↔
      ∃ (fns' : List Function) (w' : W), FnSucceeds p f.Functions w fns' w') := by
  have key : ∀ (fns' : List Function) (w' : W), FnSucceeds p f.Functions w fns' w' →
      FunctionPass p (f, w) = (({ f with Functions := fns' }, w'), none) := by
    intro fns' w' hs
    simp only [FunctionPass]
    rw [functionPassLoop_succeeds p _ _ _ _ hs]
  have key2 : ∀ (pre : List Function) (fn : Function) (post pre' : List Function)
      (fn' : Function) (w1 w2 : W) (err : Error),
      f.Functions = pre ++ fn :: post → FnSucceeds p pre w pre' w1 →
      p (fn, w1) = ((fn', w2), some err) →
      FunctionPass p (f, w) = (({ f with Functions := pre' ++ fn' :: post }, w2), some err) := by
    intro pre fn post pre' fn' w1 w2 err e hs hp
    simp only [FunctionPass]
    rw [e, functionPassLoop_fails p pre pre' w w1 w2 fn fn' err hs hp post]
  constructor
  · rcases functionPassLoop_cases p f.Functions w with
      ⟨pre, fn, post, pre', fn', w1, w2, err, e, hs, hp⟩ | ⟨fns', w', hs⟩
    · exact Or.inl ⟨pre, fn, post, pre', fn', w1, w2, err, e, hs, hp,
        key2 pre fn post pre' fn' w1 w2 err e hs hp⟩
    · exact Or.inr ⟨fns', w', hs, key fns' w' hs⟩
  · constructor
    · intro h
      rcases functionPassLoop_cases p f.Functions w with
        ⟨pre, fn, post, pre', fn', w1, w2, err, e, hs, hp⟩ | hs
      · rw [key2 pre fn post pre' fn' w1 w2 err e hs hp] at h
        cases h
      · exact hs
    · rintro ⟨fns', w', hs⟩
      rw [key fns' w' hs]

/-! ## `Output.Execute`: results -/

theorem output_execute_close_iff (o : Output) (f : File) :
    SinkCall.close ∈ (o.Execute f).1 ↔
      (o.Print f).2 = none ∧ (o.Write (o.Print f).1).2 = none := by
  unfold Output.Execute
  cases hp : o.Print f with
  | mk b r =>
    cases r with
    | some err => simp
    | none =>
      cases hw : o.Write b with
      | mk n r' =>
        cases r' with
        | some err => simp [hw]
        | none => simp [hw]

/-- C7, the code at two failing inputs: when the printer fails, `Output.Execute`
returns the error without any call on the sink, and when the write fails it
returns the error after the write alone; in neither run is `Close` called. -/
theorem output_execute_returns_without_close :
    Output.Execute printFails { Functions := [] } = ([], some "print failed") ∧
    Output.Execute writeFails { Functions := [] }
      = ([SinkCall.write [65]], some "write failed") ∧
    SinkCall.close ∉ (Output.Execute printFails { Functions := [] }).1 ∧
    SinkCall.close ∉ (Output.Execute writeFails { Functions := [] }).1 := by
  refine ⟨rfl, rfl, ?_, ?_⟩
  · rw [output_execute_close_iff]
    simp [printFails]
  · rw [output_execute_close_iff]
    simp [writeFails]

/-! ## `VerifyAllocation` and `BindRegisters`: results -/

theorem verifyRegisters_none_iff (rs : List Register) :
    verifyRegisters rs = none ↔ ∀ r ∈ rs, ToPhysical r ≠ none := by
  induction rs with
  | nil => simp [verifyRegisters]
  | cons r t ih =>
    unfold verifyRegisters
    by_cases h : ToPhysical r = none
    · simp [h]
    · simp [h, ih]

theorem verifyInstructions_none_iff (is : List Instruction) :
    verifyInstructions is = none ↔ ∀ i ∈ is, ∀ r ∈ i.Registers, ToPhysical r ≠ none := by
  induction is with
  | nil => simp [verifyInstructions]
  | cons i t ih =>
    unfold verifyInstructions
    cases h : verifyRegisters i.Registers with
    | none =>
      have := (verifyRegisters_none_iff i.Registers).mp h
      simp only [ih, List.mem_cons, forall_eq_or_imp]
      exact ⟨fun a => ⟨this, a⟩, fun a => a.2⟩
    | some err =>
      have : ¬ ∀ r ∈ i.Registers, ToPhysical r ≠ none := by
        intro a
        rw [(verifyRegisters_none_iff i.Registers).mpr a] at h
        cases h
      simp only [List.mem_cons, forall_eq_or_imp]
      constructor
      · intro a; cases a
      · intro a; exact absurd a.1 this

/-- C5. For every function, `VerifyAllocation` returns an error if and only
if some register in the `Registers()` of some instruction has no physical form;
it returns `nil` exactly when every register reference in every instruction is
physical; and it leaves the function as it was. -/
theorem verifyAllocation_error_iff (fn : Function) :
    ((VerifyAllocation fn).2 ≠ none ↔
      ∃ i ∈ fn.Instructions, ∃ r ∈ i.Registers, ToPhysical r = none) ∧
    ((VerifyAllocation fn).2 = none ↔
      ∀ i ∈ fn.Instructions, ∀ r ∈ i.Registers, ToPhysical r ≠ none) ∧
    (VerifyAllocation fn).1 = fn := by
  have h := verifyInstructions_none_iff fn.Instructions
  refine ⟨?_, h, rfl⟩
  show verifyInstructions fn.Instructions ≠ none ↔ _
  rw [Ne, h]
  push_neg
  rfl

theorem registers_applyAllocation (op : Op) (a : Allocation) :
    (ApplyAllocation op a).Registers = op.Registers.map a.LookupDefault := by
  cases op with
  | reg r => rfl
  | mem b i d =>
    cases b <;> cases i <;> rfl
  | imm v => rfl

theorem registers_bindInstruction (a : Allocation) (x : Instruction) :
    (bindInstruction a x).Registers = x.Registers.map a.LookupDefault := by
  unfold Instruction.Registers bindInstruction
  simp only [List.map_map, List.map_flatten]
  congr 1
  apply List.map_congr_left
  intro op _
  exact registers_applyAllocation op a

/-- C6. For every function whose allocation has an entry that maps each
virtual register referenced by an operand to a physical register,
`BindRegisters` returns `nil` and `VerifyAllocation` on the bound function
returns `nil`: after binding, every register referenced by an operand of an
instruction is physical. -/
theorem bind_then_verify (fn : Function) (h : AllocationCovers fn) :
    (BindRegisters fn).2 = none ∧
    (VerifyAllocation (BindRegisters fn).1).2 = none ∧
    ∀ i ∈ (BindRegisters fn).1.Instructions, ∀ r ∈ i.Registers, ToPhysical r ≠ none := by
  have key : ∀ i ∈ (BindRegisters fn).1.Instructions, ∀ r ∈ i.Registers,
      ToPhysical r ≠ none := by
    intro i hi r hr
    simp only [BindRegisters, List.mem_map] at hi
    obtain ⟨x, hx, rfl⟩ := hi
    rw [registers_bindInstruction, List.mem_map] at hr
    obtain ⟨v, hv, rfl⟩ := hr
    cases v with
    | phys n k => simp [Allocation.LookupDefault, ToPhysical]
    | virt n k =>
      obtain ⟨q, hq, hphys⟩ := h x hx (Register.virt n k) hv rfl
      rw [Option.mem_def] at hq
      simp only [Allocation.LookupDefault, hq, Option.getD_some]
      exact hphys
  refine ⟨rfl, ?_, key⟩
  exact (verifyInstructions_none_iff _).mpr key

/-- Witness of C6 on `boundFn`. -/
theorem bind_then_verify_witness :
    AllocationCovers boundFn ∧
    ((BindRegisters boundFn).2 = none ∧
    (VerifyAllocation (BindRegisters boundFn).1).2 = none ∧
    ∀ i ∈ (BindRegisters boundFn).1.Instructions, ∀ r ∈ i.Registers, ToPhysical r ≠ none) :=
  ⟨by unfold AllocationCovers; decide, bind_then_verify boundFn (by unfold AllocationCovers; decide)⟩

/-! ## `AllocateRegisters`: the interference edges -/

theorem find_nil (k' : Nat) : AllocMap.find [] k' = none := rfl

theorem find_cons (k0 : Nat) (a0 : Allocator) (t : AllocMap) (k' : Nat) :
    AllocMap.find ((k0, a0) :: t) k' = if k' = k0 then some a0 else AllocMap.find t k' := by
  by_cases e : k' = k0
  · subst e
    simp [AllocMap.find, List.lookup]
  · have : (k' == k0) = false := by simp [e]
    simp [AllocMap.find, List.lookup, this, e]

theorem find_put (m : AllocMap) (k k' : Nat) (a : Allocator) :
    (m.put k a).find k' = if k' = k then some a else m.find k' := by
  induction m with
  | nil =>
    have e : AllocMap.put [] k a = [(k, a)] := rfl
    rw [e, find_cons]
  | cons h t ih =>
    obtain ⟨k0, a0⟩ := h
    unfold AllocMap.put
    by_cases e0 : k0 = k
    · rw [if_pos e0, find_cons, find_cons, e0]
      by_cases e : k' = k
      · rw [if_pos e, if_pos e]
      · rw [if_neg e, if_neg e, if_neg e]
    · rw [if_neg e0, find_cons, find_cons, ih]
      by_cases e : k' = k0
      · rw [if_pos e, if_pos e, if_neg (by rw [e]; exact e0)]
      · rw [if_neg e, if_neg e]

theorem hasEdge_interfereReg (x : Instruction) (m m' : AllocMap) (d : Register)
    (h : interfereReg x m d = some m') (k : Nat) (d' r' : Register) :
    HasEdge m' k d' r' ↔ HasEdge m k d' r' ∨
      (k = d.Kind ∧ d' = d ∧ r' ∈ x.LiveOut ∧ r'.Kind = d.Kind ∧ r' ≠ d) := by
  unfold interfereReg at h
  simp only at h
  cases hf : m.find d.Kind with
  | none => rw [hf] at h; cases h
  | some a =>
    rw [hf] at h
    simp only [Option.some.injEq] at h
    subst h
    unfold HasEdge
    rw [find_put]
    by_cases e : k = d.Kind
    · subst e
      rw [if_pos rfl]
      simp only [Option.some.injEq, hf]
      constructor
      · rintro ⟨b, hb, hm⟩
        subst hb
        simp only [Allocator.AddInterferenceSet, Finset.mem_union, Finset.mem_image,
          Prod.mk.injEq, Finset.mem_erase, RegSet.OfKind, Finset.mem_filter] at hm
        rcases hm with hm | ⟨r, ⟨hne, hr, hk⟩, hd, hr'⟩
        · exact Or.inl ⟨a, rfl, hm⟩
        · subst hr'
          exact Or.inr ⟨trivial, hd.symm, hr, hk, hne⟩
      · rintro (⟨b, hb, hm⟩ | ⟨_, hd, hr, hk, hne⟩)
        · subst hb
          refine ⟨_, rfl, ?_⟩
          simp only [Allocator.AddInterferenceSet, Finset.mem_union]
          exact Or.inl hm
        · refine ⟨_, rfl, ?_⟩
          simp only [Allocator.AddInterferenceSet, Finset.mem_union, Finset.mem_image,
            Prod.mk.injEq, Finset.mem_erase, RegSet.OfKind, Finset.mem_filter]
          exact Or.inr ⟨r', ⟨hne, hr, hk⟩, hd.symm, rfl⟩
    · simp only [if_neg e]
      constructor
      · exact fun a => Or.inl a
      · rintro (a | ⟨hk, _⟩)
        · exact a
        · exact absurd hk e

theorem find_interfereReg (x : Instruction) (m m' : AllocMap) (d : Register)
    (h : interfereReg x m d = some m') (k : Nat) :
    (m'.find k).isSome = (m.find k).isSome := by
  unfold interfereReg at h
  simp only at h
  cases hf : m.find d.Kind with
  | none => rw [hf] at h; cases h
  | some a =>
    rw [hf] at h
    simp only [Option.some.injEq] at h
    subst h
    rw [find_put]
    by_cases e : k = d.Kind
    · rw [if_pos e, e, hf]
      rfl
    · rw [if_neg e]

theorem hasEdge_interfereRegs (x : Instruction) (ds : List Register) (m m' : AllocMap)
    (h : interfereRegs x m ds = some m') (k : Nat) (d' r' : Register) :
    HasEdge m' k d' r' ↔ HasEdge m k d' r' ∨
      (k = d'.Kind ∧ d' ∈ ds ∧ r' ∈ x.LiveOut ∧ r'.Kind = d'.Kind ∧ r' ≠ d') := by
  induction ds generalizing m with
  | nil =>
    simp only [interfereRegs, Option.some.injEq] at h
    subst h
    simp
  | cons d t ih =>
    unfold interfereRegs at h
    cases h1 : interfereReg x m d with
    | none => rw [h1] at h; cases h
    | some m1 =>
      rw [h1] at h
      rw [ih m1 h, hasEdge_interfereReg x m m1 d h1]
      simp only [List.mem_cons]
      constructor
      · rintro ((a | ⟨hk, hd, b⟩) | ⟨hk, hd, b⟩)
        · exact Or.inl a
        · subst hd; exact Or.inr ⟨hk, Or.inl rfl, b⟩
        · exact Or.inr ⟨hk, Or.inr hd, b⟩
      · rintro (a | ⟨hk, (hd | hd), b⟩)
        · exact Or.inl (Or.inl a)
        · subst hd; exact Or.inl (Or.inr ⟨hk, rfl, b⟩)
        · exact Or.inr ⟨hk, hd, b⟩

theorem find_interfereRegs (x : Instruction) (ds : List Register) (m m' : AllocMap)
    (h : interfereRegs x m ds = some m') (k : Nat) :
    (m'.find k).isSome = (m.find k).isSome := by
  induction ds generalizing m with
  | nil =>
    simp only [interfereRegs, Option.some.injEq] at h
    subst h
    rfl
  | cons d t ih =>
    unfold interfereRegs at h
    cases h1 : interfereReg x m d with
    | none => rw [h1] at h; cases h
    | some m1 =>
      rw [h1] at h
      rw [ih m1 h, find_interfereReg x m m1 d h1]

theorem hasEdge_interfere (is : List Instruction) (m m' : AllocMap)
    (h : interfere m is = some m') (k : Nat) (d r : Register) :
    HasEdge m' k d r ↔ HasEdge m k d r ∨ (k = d.Kind ∧ Interferes is d r) := by
  induction is generalizing m with
  | nil =>
    simp only [interfere, Option.some.injEq] at h
    subst h
    simp [Interferes]
  | cons i t ih =>
    unfold interfere at h
    cases h1 : interfereRegs i m i.Outputs with
    | none => rw [h1] at h; cases h
    | some m1 =>
      rw [h1] at h
      rw [ih m1 h, hasEdge_interfereRegs i i.Outputs m m1 h1]
      simp only [Interferes, List.mem_cons, exists_eq_or_imp]
      tauto

theorem find_interfere (is : List Instruction) (m m' : AllocMap)
    (h : interfere m is = some m') (k : Nat) :
    (m'.find k).isSome = (m.find k).isSome := by
  induction is generalizing m with
  | nil =>
    simp only [interfere, Option.some.injEq] at h
    subst h
    rfl
  | cons i t ih =>
    unfold interfere at h
    cases h1 : interfereRegs i m i.Outputs with
    | none => rw [h1] at h; cases h
    | some m1 =>
      rw [h1] at h
      rw [ih m1 h, find_interfereRegs i i.Outputs m m1 h1]

theorem populateReg_ok (S : Strategy) (m m' : AllocMap) (r : Register)
    (h : populateReg S m r = .ok m') :
    (m'.find r.Kind).isSome = true ∧
    (∀ k, (m.find k).isSome = true → (m'.find k).isSome = true) ∧
    ((∀ k a, m.find k = some a → a.edges = ∅) → ∀ k a, m'.find k = some a → a.edges = ∅) := by
  unfold populateReg at h
  simp only at h
  have main : ∀ a : Allocator, (m.find r.Kind = some a ∨ (m.find r.Kind = none ∧ a.edges = ∅)) →
      m' = m.put r.Kind (a.Add r) →
      (m'.find r.Kind).isSome = true ∧
      (∀ k, (m.find k).isSome = true → (m'.find k).isSome = true) ∧
      ((∀ k a, m.find k = some a → a.edges = ∅) →
        ∀ k a, m'.find k = some a → a.edges = ∅) := by
    intro a ha e
    subst e
    refine ⟨by rw [find_put, if_pos rfl]; rfl, ?_, ?_⟩
    · intro k hk
      rw [find_put]
      by_cases c : k = r.Kind
      · rw [if_pos c]; rfl
      · rw [if_neg c]; exact hk
    · intro hall k b hb
      rw [find_put] at hb
      by_cases c : k = r.Kind
      · rw [if_pos c] at hb
        simp only [Option.some.injEq] at hb
        subst hb
        rcases ha with ha | ha
        · exact hall _ a ha
        · exact ha.2
      · rw [if_neg c] at hb
        exact hall k b hb
  cases hf : m.find r.Kind with
  | some a =>
    rw [hf] at h
    simp only [Except.ok.injEq] at h
    exact main a (Or.inl hf) h.symm
  | none =>
    rw [hf] at h
    unfold NewAllocatorForKind at h
    cases hu : S.unknownKind r.Kind with
    | some err => rw [hu] at h; cases h
    | none =>
      rw [hu] at h
      simp only [Except.ok.injEq] at h
      exact main _ (Or.inr ⟨hf, rfl⟩) h.symm

theorem populateReg_succeeds (S : Strategy) (m : AllocMap) (r : Register)
    (h : S.unknownKind r.Kind = none) : ∃ m', populateReg S m r = .ok m' := by
  unfold populateReg
  simp only
  cases m.find r.Kind with
  | some a => exact ⟨_, rfl⟩
  | none =>
    unfold NewAllocatorForKind
    rw [h]
    exact ⟨_, rfl⟩

theorem populateRegs_ok (S : Strategy) (rs : List Register) (m m' : AllocMap)
    (h : populateRegs S m rs = .ok m') :
    (∀ r ∈ rs, (m'.find r.Kind).isSome = true) ∧
    (∀ k, (m.find k).isSome = true → (m'.find k).isSome = true) ∧
    ((∀ k a, m.find k = some a → a.edges = ∅) → ∀ k a, m'.find k = some a → a.edges = ∅) := by
  induction rs generalizing m with
  | nil =>
    simp only [populateRegs, Except.ok.injEq] at h
    subst h
    exact ⟨fun r hr => (by cases hr), fun _ a => a, fun a => a⟩
  | cons r t ih =>
    unfold populateRegs at h
    cases h1 : populateReg S m r with
    | error err => rw [h1] at h; cases h
    | ok m1 =>
      rw [h1] at h
      obtain ⟨a1, b1, c1⟩ := populateReg_ok S m m1 r h1
      obtain ⟨a2, b2, c2⟩ := ih m1 h
      refine ⟨?_, fun k hk => b2 k (b1 k hk), fun hall => c2 (c1 hall)⟩
      intro q hq
      rcases List.mem_cons.mp hq with e | e
      · rw [e]; exact b2 _ a1
      · exact a2 q e

theorem populateRegs_succeeds (S : Strategy) (rs : List Register) (m : AllocMap)
    (h : ∀ r ∈ rs, S.unknownKind r.Kind = none) : ∃ m', populateRegs S m rs = .ok m' := by
  induction rs generalizing m with
  | nil => exact ⟨m, rfl⟩
  | cons r t ih =>
    obtain ⟨m1, h1⟩ := populateReg_succeeds S m r (h r (List.mem_cons_self _ _))
    obtain ⟨m2, h2⟩ := ih m1 (fun q hq => h q (List.mem_cons_of_mem _ hq))
    refine ⟨m2, ?_⟩
    unfold populateRegs
    rw [h1]
    exact h2

theorem populate_ok (S : Strategy) (is : List Instruction) (m m' : AllocMap)
    (h : populate S m is = .ok m') :
    (∀ i ∈ is, ∀ r ∈ i.Registers, (m'.find r.Kind).isSome = true) ∧
    (∀ k, (m.find k).isSome = true → (m'.find k).isSome = true) ∧
    ((∀ k a, m.find k = some a → a.edges = ∅) → ∀ k a, m'.find k = some a → a.edges = ∅) := by
  induction is generalizing m with
  | nil =>
    simp only [populate, Except.ok.injEq] at h
    subst h
    exact ⟨fun i hi => (by cases hi), fun _ a => a, fun a => a⟩
  | cons i t ih =>
    unfold populate at h
    cases h1 : populateRegs S m i.Registers with
    | error err => rw [h1] at h; cases h
    | ok m1 =>
      rw [h1] at h
      obtain ⟨a1, b1, c1⟩ := populateRegs_ok S i.Registers m m1 h1
      obtain ⟨a2, b2, c2⟩ := ih m1 h
      refine ⟨?_, fun k hk => b2 k (b1 k hk), fun hall => c2 (c1 hall)⟩
      intro j hj r hr
      rcases List.mem_cons.mp hj with e | e
      · rw [e] at hr; exact b2 _ (a1 r hr)
      · exact a2 j e r hr

theorem populate_succeeds (S : Strategy) (is : List Instruction) (m : AllocMap)
    (h : ∀ i ∈ is, ∀ r ∈ i.Registers, S.unknownKind r.Kind = none) :
    ∃ m', populate S m is = .ok m' := by
  induction is generalizing m with
  | nil => exact ⟨m, rfl⟩
  | cons i t ih =>
    obtain ⟨m1, h1⟩ := populateRegs_succeeds S i.Registers m (h i (List.mem_cons_self _ _))
    obtain ⟨m2, h2⟩ := ih m1 (fun j hj => h j (List.mem_cons_of_mem _ hj))
    refine ⟨m2, ?_⟩
    unfold populate
    rw [h1]
    exact h2

theorem interfereRegs_succeeds (x : Instruction) (ds : List Register) (m : AllocMap)
    (h : ∀ d ∈ ds, (m.find d.Kind).isSome = true) : ∃ m', interfereRegs x m ds = some m' := by
  induction ds generalizing m with
  | nil => exact ⟨m, rfl⟩
  | cons d t ih =>
    have hd := h d (List.mem_cons_self _ _)
    obtain ⟨a, ha⟩ := Option.isSome_iff_exists.mp hd
    have h1 : interfereReg x m d =
        some (m.put d.Kind (a.AddInterferenceSet d ((x.LiveOut.OfKind d.Kind).erase d))) := by
      unfold interfereReg
      simp only
      rw [ha]
    obtain ⟨m2, h2⟩ := ih _ (fun q hq => by
      rw [find_interfereReg x m _ d h1]
      exact h q (List.mem_cons_of_mem _ hq))
    refine ⟨m2, ?_⟩
    unfold interfereRegs
    rw [h1]
    exact h2

theorem interfere_succeeds (is : List Instruction) (m : AllocMap)
    (h : ∀ i ∈ is, ∀ d ∈ i.Outputs, (m.find d.Kind).isSome = true) :
    ∃ m', interfere m is = some m' := by
  induction is generalizing m with
  | nil => exact ⟨m, rfl⟩
  | cons i t ih =>
    obtain ⟨m1, h1⟩ := interfereRegs_succeeds i i.Outputs m (h i (List.mem_cons_self _ _))
    obtain ⟨m2, h2⟩ := ih m1 (fun j hj d hd => by
      rw [find_interfereRegs i i.Outputs m m1 h1]
      exact h j (List.mem_cons_of_mem _ hj) d hd)
    refine ⟨m2, ?_⟩
    unfold interfere
    rw [h1]
    exact h2

theorem allocateRegisters_instructions (S : Strategy) (order : AllocMap → AllocMap)
    (fn fn' : Function) (e : Option Error)
    (h : AllocateRegisters S order fn = some (fn', e)) :
    fn'.Instructions = fn.Instructions := by
  unfold AllocateRegisters at h
  cases h1 : populate S [] fn.Instructions with
  | error err =>
    rw [h1] at h
    simp only [Option.some.injEq, Prod.mk.injEq] at h
    rw [← h.1]
  | ok m =>
    rw [h1] at h
    simp only at h
    cases h2 : interfere m fn.Instructions with
    | none => rw [h2] at h; cases h
    | some m' =>
      rw [h2] at h
      simp only [Option.some.injEq, Prod.mk.injEq] at h
      rw [← h.1]

/-- C4. In `AllocateRegisters`, when the kind of every output register has an
allocator (which holds when every kind has a strategy and each output
register's kind is the kind of some register in `Registers()`), the first two
phases complete; and whenever they complete, allocator `k` holds the edge
`(d, r)` exactly when `k` is the kind of `d` and, for some instruction `i`, `d`
is an output register of `i`, `r` is in `LiveOut(i)`, `r` has the kind of `d`
and `r ≠ d`. So no edge joins registers of different kinds and no register
interferes with itself. The instructions, and with them every `LiveOut`, are
those the function had before the call. -/
theorem interference_edges (S : Strategy) (fn : Function) :
    ((∀ i ∈ fn.Instructions, ∀ r ∈ i.Registers, S.unknownKind r.Kind = none) →
      (∀ i ∈ fn.Instructions, ∀ d ∈ i.Outputs,
        ∃ j ∈ fn.Instructions, ∃ r ∈ j.Registers, r.Kind = d.Kind) →
      ∃ m m', populate S [] fn.Instructions = .ok m ∧
        interfere m fn.Instructions = some m') ∧
    (∀ m m', populate S [] fn.Instructions = .ok m →
      interfere m fn.Instructions = some m' →
      ∀ (k : Nat) (d r : Register),
        HasEdge m' k d r ↔ (k = d.Kind ∧ Interferes fn.Instructions d r)) ∧
    (∀ m m', populate S [] fn.Instructions = .ok m →
      interfere m fn.Instructions = some m' →
      ∀ (k : Nat) (d r : Register), HasEdge m' k d r → r.Kind = d.Kind ∧ r ≠ d) ∧
    (∀ (order : AllocMap → AllocMap) (fn' : Function) (e : Option Error),
      AllocateRegisters S order fn = some (fn', e) →
      fn'.Instructions = fn.Instructions) := by
  have edges : ∀ m m', populate S [] fn.Instructions = .ok m →
      interfere m fn.Instructions = some m' →
      ∀ (k : Nat) (d r : Register),
        HasEdge m' k d r ↔ (k = d.Kind ∧ Interferes fn.Instructions d r) := by
    intro m m' hp hi k d r
    rw [hasEdge_interfere fn.Instructions m m' hi]
    have hno := (populate_ok S fn.Instructions [] m hp).2.2
      (fun k a h => by rw [find_nil] at h; cases h)
    constructor
    · rintro (⟨a, ha, hm⟩ | h)
      · rw [hno k a ha] at hm
        exact absurd hm (Finset.not_mem_empty _)
      · exact h
    · exact fun h => Or.inr h
  refine ⟨?_, edges, ?_, fun order fn' e h => allocateRegisters_instructions S order fn fn' e h⟩
  · intro hS hout
    obtain ⟨m, hm⟩ := populate_succeeds S fn.Instructions [] hS
    have hk := (populate_ok S fn.Instructions [] m hm).1
    obtain ⟨m', hm'⟩ := interfere_succeeds fn.Instructions m (fun i hi d hd => by
      obtain ⟨j, hj, r, hr, e⟩ := hout i hi d hd
      rw [← e]
      exact hk j hj r hr)
    exact ⟨m, m', hm, hm'⟩
  · intro m m' hp hi k d r h
    obtain ⟨_, i, _, _, _, hk, hne⟩ := (edges m m' hp hi k d r).mp h
    exact ⟨hk, hne⟩

/-- Witness of C4 on `liveFn` with a strategy for every kind: both phases
complete. -/
theorem interference_edges_witness :
    ∃ m m', populate anyKind [] liveFn.Instructions = .ok m ∧
      interfere m liveFn.Instructions = some m' :=
  (interference_edges anyKind liveFn).1 (by decide) (by decide)

/-! ## `Liveness`: frame, prior fields, least solution -/

theorem seed_static (x : Instruction) : seed (static x) = seed x := rfl

theorem map_seed_of_map_static (a b : List Instruction)
    (h : a.map static = b.map static) : a.map seed = b.map seed := by
  have e : ∀ l : List Instruction, l.map seed = (l.map static).map seed := by
    intro l
    rw [List.map_map]
    rfl
  rw [e a, e b, h]

theorem reverseOrder_congr (fn1 fn2 : Function)
    (h : fn1.Instructions.length = fn2.Instructions.length) :
    reverseOrder fn1 = reverseOrder fn2 := by
  unfold reverseOrder
  rw [h]

theorem map_static_setLive (fn : Function) (live : Nat → RegSet × RegSet) :
    (setLive fn live).Instructions.map static = fn.Instructions.map static := by
  apply List.ext_getElem?
  intro j
  simp only [setLive, List.getElem?_map, List.getElem?_mapIdx]
  cases fn.Instructions[j]? with
  | none => rfl
  | some x => rfl

theorem liveness_congr (outside : Nat → RegSet) (fuel : Nat) (fn1 fn2 : Function)
    (h : fn1.Instructions.map static = fn2.Instructions.map static) :
    (Liveness outside fuel fn1).map (fun q => (q.1.Instructions, q.2)) =
      (Liveness outside fuel fn2).map (fun q => (q.1.Instructions, q.2)) := by
  have hl : fn1.Instructions.length = fn2.Instructions.length := by
    have := congrArg List.length h
    simpa using this
  unfold Liveness
  rw [livenessIn_eq outside _ fuel fn1 (covers_reverseOrder fn1),
    livenessIn_eq outside _ fuel fn2 (covers_reverseOrder fn2),
    reverseOrder_congr fn1 fn2 hl, map_seed_of_map_static _ _ h]
  cases (iterate outside) (reverseOrder fn2) fuel (List.map seed fn2.Instructions) with
  | none => rfl
  | some q => rfl

theorem liveness_static (outside : Nat → RegSet) (fuel : Nat) (fn fn' : Function)
    (e : Option Error) (k : Nat)
    (h : Liveness outside fuel fn = some (fn', e, k)) :
    e = none ∧ fn'.Allocation = fn.Allocation ∧
      fn'.Instructions.map static = fn.Instructions.map static := by
  obtain ⟨_, h2, h3⟩ := livenessIn_some outside _ fuel fn fn' e k (covers_reverseOrder fn) h
  obtain ⟨hst, _⟩ := livenessIn_fixed outside _ fuel fn fn' e k (covers_reverseOrder fn) h
  refine ⟨h3, ?_, hst⟩
  rw [h2]

/-- C20. `Liveness` always returns (the fuel `2 * n * r + 1` is enough, `r`
counting the registers among the input registers and the `LiveIn` sets of the
linked instructions outside the function), with result `nil`, and changes only
the `LiveIn` and `LiveOut` fields: the function holds the same allocation and
as many instructions as before, and the instruction at each position is the one
that was there before the call, with the same operands, successor links, input
registers and output registers (the reversal of the slice `is` does not reach
the function). -/
theorem liveness_changes_only_live_sets (outside : Nat → RegSet) (fn : Function) :
    (∃ (fn' : Function) (k : Nat), Liveness outside
      (2 * fn.Instructions.length * (reach outside fn.Instructions).card + 1) fn
        = some (fn', none, k)) ∧
    ∀ (fuel : Nat) (fn' : Function) (e : Option Error) (k : Nat),
      Liveness outside fuel fn = some (fn', e, k) →
      e = none ∧ fn'.Allocation = fn.Allocation ∧
      fn'.Instructions.length = fn.Instructions.length ∧
      ∀ (j : Nat) (x : Instruction), fn.Instructions[j]? = some x →
        ∃ y, fn'.Instructions[j]? = some y ∧ y.Operands = x.Operands ∧ y.Succ = x.Succ ∧
          y.Inputs = x.Inputs ∧ y.Outputs = x.Outputs := by
  constructor
  · obtain ⟨fn', k, hk, _⟩ :=
      livenessIn_terminates outside (reverseOrder fn) fn (covers_reverseOrder fn)
    exact ⟨fn', k, hk⟩
  · intro fuel fn' e k h
    obtain ⟨he, ha, hst⟩ := liveness_static outside fuel fn fn' e k h
    refine ⟨he, ha, ?_, ?_⟩
    · have := congrArg List.length hst
      simpa using this
    · intro j x hx
      obtain ⟨y, hy, hs⟩ := getElem?_of_map_static hst.symm j x hx
      obtain ⟨f1, f2, f3, f4⟩ := static_fields hs
      exact ⟨y, hy, f1.symm, f4.symm, f2.symm, f3.symm⟩

/-- C16. The result of `Liveness` does not depend on what the `LiveIn` and
`LiveOut` fields held before the call: for every function and any two contents
`live1`, `live2` of those fields, the two runs return the same instructions
(hence the same sets), the same error and the same number of sweeps, or both
run out of the same fuel; and running `Liveness` on its own result returns that
result again. -/
theorem liveness_ignores_prior_sets (outside : Nat → RegSet) (fn : Function) (fuel : Nat) :
    (∀ live1 live2 : Nat → RegSet × RegSet,
      (Liveness outside fuel (setLive fn live1)).map (fun q => (q.1.Instructions, q.2)) =
        (Liveness outside fuel (setLive fn live2)).map (fun q => (q.1.Instructions, q.2))) ∧
    (∀ live : Nat → RegSet × RegSet,
      (Liveness outside fuel (setLive fn live)).map (fun q => (q.1.Instructions, q.2)) =
        (Liveness outside fuel fn).map (fun q => (q.1.Instructions, q.2))) ∧
    (∀ (fn' : Function) (e : Option Error) (k : Nat),
      Liveness outside fuel fn = some (fn', e, k) → Liveness outside fuel fn' = some (fn', e, k)) := by
  refine ⟨?_, ?_, ?_⟩
  · intro live1 live2
    exact liveness_congr outside fuel _ _
      ((map_static_setLive fn live1).trans (map_static_setLive fn live2).symm)
  · intro live
    exact liveness_congr outside fuel _ _ (map_static_setLive fn live)
  · intro fn' e k h
    obtain ⟨he, ha, hst⟩ := liveness_static outside fuel fn fn' e k h
    have hc := liveness_congr outside fuel fn' fn hst
    rw [h] at hc
    cases h2 : Liveness outside fuel fn' with
    | none => rw [h2] at hc; cases hc
    | some q =>
      obtain ⟨g, e2, k2⟩ := q
      rw [h2] at hc
      simp only [Option.map_some', Option.some.injEq, Prod.mk.injEq] at hc
      obtain ⟨c1, c2, c3⟩ := hc
      obtain ⟨_, b2, _⟩ := livenessIn_some outside _ fuel fn' g e2 k2 (covers_reverseOrder fn') h2
      rw [c2, c3]
      congr 2
      rw [b2, c1]

/-- C18, the claim fails: `strayFn` has no input register, and the
empty assignment satisfies both inequations as the claim reads them; its
successor link points to an instruction outside the function that holds
`virt 9 0` in its `LiveIn`, and `Liveness` computes `LiveIn = LiveOut =
{virt 9 0}`, a register that is an input register of no instruction. -/
theorem liveness_outside_link_register :
    (∀ x ∈ strayFn.Instructions, Register.virt 9 0 ∉ x.Inputs) ∧
    (∀ x ∈ strayFn.Instructions,
      NewSetFromSlice x.Inputs ∪ ((∅ : RegSet) \ NewSetFromSlice x.Outputs) ⊆ (∅ : RegSet)) ∧
    (Liveness liveAtOne 2 strayFn).map
        (fun q => q.1.Instructions.map (fun x => (x.LiveIn, x.LiveOut)))
      = some [({Register.virt 9 0}, {Register.virt 9 0})] := by
  decide

/-- C18 as amended. The sets computed by `Liveness` are the least solution of
the dataflow equations, the `LiveIn` sets held by the linked instructions
outside the function being given. `Liveness` returns; whenever it returns, the
computed sets satisfy both equations exactly (`LiveOut(i)` holds exactly the
registers of the `LiveIn` sets of the non-nil successors of `i`, `LiveIn(i)` is
`InputRegisters(i) ∪ (LiveOut(i) − OutputRegisters(i))`), so they are one of
the assignments that satisfy both inequations; for every assignment `In`, `Out`
to the instructions of the function with `Out(i) ⊇ In(s)` for every non-nil
successor `s` of `i` (the `LiveIn` held by `s` when `s` is outside the
function) and `In(i) ⊇ InputRegisters(i) ∪ (Out(i) − OutputRegisters(i))`, the
computed `LiveIn(i)` lies within `In(i)` and `LiveOut(i)` within `Out(i)`; every
register in a computed set is an input register of some instruction or is in
the `LiveIn` of a linked instruction outside the function; and when every
successor link points to an instruction of the function, every register in a
computed set is an input register of some instruction. -/
theorem liveness_least_solution (outside : Nat → RegSet) (fn : Function) :
    (∃ res, Liveness outside
      (2 * fn.Instructions.length * (reach outside fn.Instructions).card + 1) fn = some res) ∧
    ∀ (fuel : Nat) (fn' : Function) (e : Option Error) (k : Nat),
      Liveness outside fuel fn = some (fn', e, k) →
      fn'.Instructions.map static = fn.Instructions.map static ∧
      (∀ (i : Nat) (y : Instruction), fn'.Instructions[i]? = some y →
        (∀ r, r ∈ y.LiveOut ↔
          ∃ p, some p ∈ y.Succ ∧ r ∈ liveInOf outside fn'.Instructions p) ∧
        y.LiveIn = NewSetFromSlice y.Inputs ∪ (y.LiveOut \ NewSetFromSlice y.Outputs)) ∧
      PreFixed outside fn.Instructions (ownLiveIn fn'.Instructions)
        (ownLiveOut fn'.Instructions) ∧
      (∀ In Out : Nat → RegSet, PreFixed outside fn.Instructions In Out →
        ∀ (i : Nat) (y : Instruction), fn'.Instructions[i]? = some y →
          y.LiveIn ⊆ In i ∧ y.LiveOut ⊆ Out i) ∧
      (∀ (i : Nat) (y : Instruction) (r : Register), fn'.Instructions[i]? = some y →
        r ∈ y.LiveIn ∨ r ∈ y.LiveOut →
          (∃ x ∈ fn.Instructions, r ∈ x.Inputs) ∨
          (∃ x ∈ fn.Instructions, ∃ p, some p ∈ x.Succ ∧ fn.Instructions.length ≤ p ∧
            r ∈ outside p)) ∧
      (WellLinked fn →
        ∀ (i : Nat) (y : Instruction) (r : Register), fn'.Instructions[i]? = some y →
          r ∈ y.LiveIn ∨ r ∈ y.LiveOut → ∃ x ∈ fn.Instructions, r ∈ x.Inputs) := by
  constructor
  · obtain ⟨fn', k, hk, _⟩ :=
      livenessIn_terminates outside (reverseOrder fn) fn (covers_reverseOrder fn)
    exact ⟨_, hk⟩
  · intro fuel fn' e k h
    obtain ⟨hst, hfix⟩ :=
      livenessIn_fixed outside _ fuel fn fn' e k (covers_reverseOrder fn) h
    have key : ∀ In Out : Nat → RegSet, PreFixed outside fn.Instructions In Out →
        ∀ (i : Nat) (y : Instruction), fn'.Instructions[i]? = some y →
          y.LiveIn ⊆ In i ∧ y.LiveOut ⊆ Out i := by
      intro In Out hp i y hy
      have hb := livenessIn_below outside _ fuel fn fn' e k (covers_reverseOrder fn) h
        fn.Instructions In Out hp rfl i
      rw [ownLiveIn_of_getElem? hy, ownLiveOut_of_getElem? hy] at hb
      exact hb
    have hreach : ∀ (i : Nat) (y : Instruction) (r : Register), fn'.Instructions[i]? = some y →
        r ∈ y.LiveIn ∨ r ∈ y.LiveOut → r ∈ reach outside fn.Instructions := by
      intro i y r hy hr
      obtain ⟨a, b⟩ := key _ _ (prefixed_reach outside fn.Instructions) i y hy
      rcases hr with hr | hr
      · exact a hr
      · exact b hr
    refine ⟨hst, ?_, prefixed_congr outside _ _ _ _ hst (prefixed_of_fixed outside _ hfix),
      key, ?_, ?_⟩
    · intro i y hy
      obtain ⟨ho, hi⟩ := hfix i y hy
      refine ⟨?_, hi⟩
      intro r
      rw [ho, mem_succLive outside]
    · intro i y r hy hr
      have hm := hreach i y r hy hr
      unfold reach at hm
      rcases Finset.mem_union.mp hm with hm | hm
      · exact Or.inl ((mem_allInputs _ r).mp hm)
      · exact Or.inr (mem_outsideLive outside _ _ r hm)
    · intro hwf i y r hy hr
      have hm := hreach i y r hy hr
      rw [reach_of_wellLinked outside fn hwf] at hm
      exact (mem_allInputs _ r).mp hm

/-- Witness of the amended C18 on `loopFn`, whose links all stay within the
function, with an assignment that satisfies both inequations. -/
theorem liveness_least_solution_witness :
    WellLinked loopFn ∧
    PreFixed nothingOutside loopFn.Instructions
      (fun _ => reach nothingOutside loopFn.Instructions)
      (fun _ => reach nothingOutside loopFn.Instructions) ∧
    ((∃ res, Liveness nothingOutside
      (2 * loopFn.Instructions.length * (reach nothingOutside loopFn.Instructions).card + 1)
        loopFn = some res) ∧
    ∀ (fuel : Nat) (fn' : Function) (e : Option Error) (k : Nat),
      Liveness nothingOutside fuel loopFn = some (fn', e, k) →
      fn'.Instructions.map static = loopFn.Instructions.map static ∧
      (∀ (i : Nat) (y : Instruction), fn'.Instructions[i]? = some y →
        (∀ r, r ∈ y.LiveOut ↔
          ∃ p, some p ∈ y.Succ ∧ r ∈ liveInOf nothingOutside fn'.Instructions p) ∧
        y.LiveIn = NewSetFromSlice y.Inputs ∪ (y.LiveOut \ NewSetFromSlice y.Outputs)) ∧
      PreFixed nothingOutside loopFn.Instructions (ownLiveIn fn'.Instructions)
        (ownLiveOut fn'.Instructions) ∧
      (∀ In Out : Nat → RegSet, PreFixed nothingOutside loopFn.Instructions In Out →
        ∀ (i : Nat) (y : Instruction), fn'.Instructions[i]? = some y →
          y.LiveIn ⊆ In i ∧ y.LiveOut ⊆ Out i) ∧
      (∀ (i : Nat) (y : Instruction) (r : Register), fn'.Instructions[i]? = some y →
        r ∈ y.LiveIn ∨ r ∈ y.LiveOut →
          (∃ x ∈ loopFn.Instructions, r ∈ x.Inputs) ∨
          (∃ x ∈ loopFn.Instructions, ∃ p, some p ∈ x.Succ ∧
            loopFn.Instructions.length ≤ p ∧ r ∈ nothingOutside p)) ∧
      (WellLinked loopFn →
        ∀ (i : Nat) (y : Instruction) (r : Register), fn'.Instructions[i]? = some y →
          r ∈ y.LiveIn ∨ r ∈ y.LiveOut → ∃ x ∈ loopFn.Instructions, r ∈ x.Inputs)) :=
  ⟨by unfold WellLinked; decide, prefixed_reach nothingOutside loopFn.Instructions,
    liveness_least_solution nothingOutside loopFn⟩

/-- C11. For an instruction whose successor list is empty or holds only nil
slots, every round of the loop over its successors takes the `continue`
branch and reads no successor, so the loop leaves the state as it is;
`Liveness` returns (the fuel `2 * n * r + 1` is enough, `r` counting the
registers among the input registers and the `LiveIn` sets of the linked
instructions outside the function); and in the function it returns this
instruction has an empty `LiveOut` and a `LiveIn` that is exactly its input
registers. -/
theorem liveness_terminal_instruction (outside : Nat → RegSet) (fn : Function) (i : Nat)
    (x : Instruction) (hx : fn.Instructions[i]? = some x) (hs : ∀ s ∈ x.Succ, s = none) :
    (∀ st : List Instruction, x.Succ.foldl (updateLiveOut outside i) st = st) ∧
    (∃ res, Liveness outside
      (2 * fn.Instructions.length * (reach outside fn.Instructions).card + 1) fn = some res) ∧
    ∀ (fuel : Nat) (fn' : Function) (e : Option Error) (k : Nat),
      Liveness outside fuel fn = some (fn', e, k) →
      ∃ y, fn'.Instructions[i]? = some y ∧ y.LiveOut = ∅ ∧
        y.LiveIn = NewSetFromSlice x.Inputs := by
  have hnil : ∀ st : List Instruction, succLive outside st x.Succ = ∅ := by
    intro st
    apply Finset.eq_empty_of_forall_not_mem
    intro r hr
    rw [mem_succLive outside] at hr
    obtain ⟨p, hp, _⟩ := hr
    have := hs _ hp
    cases this
  refine ⟨?_, ?_, ?_⟩
  · intro st
    rw [foldl_updateLiveOut outside, hnil]
    apply modifyAt_fixed
    intro y _
    simp
  · obtain ⟨fn', k, hk, _⟩ :=
      livenessIn_terminates outside (reverseOrder fn) fn (covers_reverseOrder fn)
    exact ⟨_, hk⟩
  · intro fuel fn' e k h
    obtain ⟨hst, hfix⟩ := livenessIn_fixed outside _ fuel fn fn' e k (covers_reverseOrder fn) h
    obtain ⟨y, hy, hsx⟩ := getElem?_of_map_static hst.symm i x hx
    obtain ⟨_, f2, f3, f4⟩ := static_fields hsx
    obtain ⟨ho, hi⟩ := hfix i y hy
    have ho' : y.LiveOut = ∅ := by rw [ho, ← f4, hnil]
    refine ⟨y, hy, ho', ?_⟩
    rw [hi, ho', ← f2]
    simp

/-- Witness of C11 on the last instruction of `loopFn`, whose only successor
slot is nil. -/
theorem liveness_terminal_instruction_witness :
    loopFn.Instructions[2]? = some lastOfLoopFn ∧
    (∀ s ∈ lastOfLoopFn.Succ, s = none) ∧
    ((∀ st : List Instruction,
      lastOfLoopFn.Succ.foldl (updateLiveOut nothingOutside 2) st = st) ∧
    (∃ res, Liveness nothingOutside
      (2 * loopFn.Instructions.length * (reach nothingOutside loopFn.Instructions).card + 1)
        loopFn = some res) ∧
    ∀ (fuel : Nat) (fn' : Function) (e : Option Error) (k : Nat),
      Liveness nothingOutside fuel loopFn = some (fn', e, k) →
      ∃ y, fn'.Instructions[2]? = some y ∧ y.LiveOut = ∅ ∧
        y.LiveIn = NewSetFromSlice lastOfLoopFn.Inputs) :=
  ⟨rfl, by decide,
    liveness_terminal_instruction nothingOutside loopFn 2 lastOfLoopFn rfl (by decide)⟩

/-! ## The convergence test -/

theorem visit_flag_iff (outside : Nat → RegSet) (st : List Instruction) (i : Nat) :
    (visit outside st i).2 = true ↔
      (ownLiveIn (visit outside st i).1 i ≠ ownLiveIn st i ∨
        ownLiveOut (visit outside st i).1 i ≠ ownLiveOut st i) := by
  constructor
  · intro h
    by_contra hc
    push_neg at hc
    have hw := visit_changed outside st i h
    have g := grows_visit outside st i
    have hle : weight (visit outside st i).1 ≤ weight st := by
      unfold weight
      rw [← g.length_eq]
      apply Finset.sum_le_sum
      intro j _
      by_cases e : i = j
      · subst e
        rw [hc.1, hc.2]
      · rw [visit_fst outside, ownLiveIn_modifyAt, ownLiveOut_modifyAt, if_neg e, if_neg e]
    omega
  · intro h
    by_contra hc
    have hf : (visit outside st i).2 = false := by simpa using hc
    rw [visit_unchanged outside st i hf] at h
    rcases h with h | h <;> exact h rfl

theorem foldl_sweepStep_flag_iff (outside : Nat → RegSet) (order : List Nat)
    (st : List Instruction) (c : Bool) :
    (order.foldl (sweepStep outside) (st, c)).2 = true ↔
      c = true ∨ ∃ pre i post, order = pre ++ i :: post ∧
        (visit outside (sweep outside pre st).1 i).2 = true := by
  induction order generalizing st c with
  | nil =>
    simp only [List.foldl_nil]
    constructor
    · exact fun h => Or.inl h
    · rintro (h | ⟨pre, i, post, e, _⟩)
      · exact h
      · cases pre <;> cases e
  | cons j t ih =>
    rw [List.foldl_cons]
    have e : sweepStep outside (st, c) j = ((visit outside st j).1, c || (visit outside st j).2) := rfl
    rw [e, ih]
    constructor
    · rintro (h | ⟨pre, i, post, e1, h⟩)
      · simp only [Bool.or_eq_true] at h
        rcases h with h | h
        · exact Or.inl h
        · exact Or.inr ⟨[], j, t, rfl, h⟩
      · refine Or.inr ⟨j :: pre, i, post, by rw [e1]; rfl, ?_⟩
        rw [sweep_cons_fst outside]
        exact h
    · rintro (h | ⟨pre, i, post, e1, h⟩)
      · exact Or.inl (by simp [h])
      · cases pre with
        | nil =>
          simp only [List.nil_append, List.cons.injEq] at e1
          obtain ⟨e2, _⟩ := e1
          subst e2
          have hj : (visit outside st j).2 = true := h
          exact Or.inl (by simp [hj])
        | cons q pre' =>
          simp only [List.cons_append, List.cons.injEq] at e1
          obtain ⟨e2, e3⟩ := e1
          subst e2
          rw [sweep_cons_fst outside] at h
          exact Or.inr ⟨pre', i, post, e3, h⟩

theorem sweeps_succ_outer (outside : Nat → RegSet) (order : List Nat) (j : Nat)
    (st : List Instruction) :
    sweeps outside order (j + 1) st = (sweep outside order (sweeps outside order j st)).1 := by
  unfold sweeps
  rw [Function.iterate_succ_apply']

/-- C17. The convergence test of `Liveness` detects changes in set contents.
The update of one instruction sets `changes` exactly when the `LiveIn` or the
`LiveOut` of that instruction differs between the start and the end of the
update; a sweep ends with `changes` set exactly when this holds for one of the
instructions it visits; and when `Liveness` returns after `k` sweeps, the last
sweep left `changes` unset and every set as it was at its start, which is the
state returned. -/
theorem liveness_flag_detects_changes (outside : Nat → RegSet) :
    (∀ (st : List Instruction) (i : Nat),
      (visit outside st i).2 = true ↔
        (ownLiveIn (visit outside st i).1 i ≠ ownLiveIn st i ∨
          ownLiveOut (visit outside st i).1 i ≠ ownLiveOut st i)) ∧
    (∀ (order : List Nat) (st : List Instruction),
      (sweep outside order st).2 = true ↔
        ∃ pre i post, order = pre ++ i :: post ∧
          (ownLiveIn (visit outside (sweep outside pre st).1 i).1 i ≠ ownLiveIn (sweep outside pre st).1 i ∨
            ownLiveOut (visit outside (sweep outside pre st).1 i).1 i ≠ ownLiveOut (sweep outside pre st).1 i)) ∧
    (∀ (fuel : Nat) (fn fn' : Function) (e : Option Error) (k : Nat),
      Liveness outside fuel fn = some (fn', e, k) →
      sweep outside (reverseOrder fn)
          (sweeps outside (reverseOrder fn) (k - 1) (seedAll (reverseOrder fn) fn.Instructions))
        = (fn'.Instructions, false) ∧
      sweeps outside (reverseOrder fn) (k - 1) (seedAll (reverseOrder fn) fn.Instructions)
        = fn'.Instructions) := by
  refine ⟨(visit_flag_iff outside), ?_, ?_⟩
  · intro order st
    rw [sweep_eq outside, foldl_sweepStep_flag_iff outside]
    constructor
    · rintro (h | ⟨pre, i, post, e, h⟩)
      · cases h
      · exact ⟨pre, i, post, e, (visit_flag_iff outside _ i).mp h⟩
    · rintro ⟨pre, i, post, e, h⟩
      exact Or.inr ⟨pre, i, post, e, (visit_flag_iff outside _ i).mpr h⟩
  · intro fuel fn fn' e k h
    obtain ⟨hi, _, _⟩ := livenessIn_some outside _ fuel fn fn' e k (covers_reverseOrder fn) h
    rw [seedAll_eq_map _ _ (covers_reverseOrder fn)]
    obtain ⟨_, hf, hlast⟩ := iterate_flags outside _ _ _ _ k hi
    have hk := (iterate_result outside _ _ _ _ k hi).2.2.1
    have hu := (sweep_unchanged outside _ _ hf).1
    have hk' : k = (k - 1) + 1 := by omega
    rw [hk', sweeps_succ_outer outside, hu] at hlast
    refine ⟨?_, hlast.symm⟩
    apply Prod.ext
    · rw [hu]; exact hlast.symm
    · exact hf

/-! ## `BindRegisters`: the rewrite -/

/-- C15. `BindRegisters` never fails: for every function and every
allocation it returns `nil`, keeps the allocation, the number and order of the
instructions and of the operands of each instruction, replaces operand `k` of
instruction `j` by `ApplyAllocation` of that operand and the function's
allocation, and changes no other field; nothing is asked of the allocation, so
this holds also when a virtual register has no entry. -/
theorem bindRegisters_rewrites_operands (fn : Function) :
    (BindRegisters fn).2 = none ∧
    (BindRegisters fn).1.Allocation = fn.Allocation ∧
    (BindRegisters fn).1.Instructions.length = fn.Instructions.length ∧
    ∀ (j : Nat) (x : Instruction), fn.Instructions[j]? = some x →
      ∃ y, (BindRegisters fn).1.Instructions[j]? = some y ∧
        y.Operands.length = x.Operands.length ∧
        (∀ (k : Nat) (op : Op), x.Operands[k]? = some op →
          y.Operands[k]? = some (ApplyAllocation op fn.Allocation)) ∧
        y.Inputs = x.Inputs ∧ y.Outputs = x.Outputs ∧ y.Succ = x.Succ ∧
        y.LiveIn = x.LiveIn ∧ y.LiveOut = x.LiveOut := by
  refine ⟨rfl, rfl, by simp [BindRegisters], ?_⟩
  intro j x hx
  refine ⟨bindInstruction fn.Allocation x, ?_, ?_, ?_, rfl, rfl, rfl, rfl, rfl⟩
  · simp [BindRegisters, hx]
  · simp [bindInstruction]
  · intro k op hop
    simp [bindInstruction, hop]

/-! ## `AllocateRegisters`: merging and the order of the allocators -/

theorem lookup_cons_reg (v v0 p0 : Register) (a : Allocation) :
    List.lookup v ((v0, p0) :: a) = if v = v0 then some p0 else List.lookup v a := by
  by_cases e : v = v0
  · subst e
    simp [List.lookup]
  · have : (v == v0) = false := by simp [e]
    simp [List.lookup, this, e]

theorem merge_cons_some (a rest : Allocation) (v p alt : Register)
    (h : a.lookup v = some alt) :
    Allocation.Merge a ((v, p) :: rest) =
      if alt = p then Allocation.Merge a rest else (a, some "conflicting allocation") := by
  simp only [Allocation.Merge]
  rw [h]

theorem merge_cons_none (a rest : Allocation) (v p : Register) (h : a.lookup v = none) :
    Allocation.Merge a ((v, p) :: rest) = Allocation.Merge ((v, p) :: a) rest := by
  simp only [Allocation.Merge]
  rw [h]

theorem merge_spec (b a : Allocation) :
    ((Allocation.Merge a b).2 = none ↔ Agrees a (fun v p => (v, p) ∈ b)) ∧
    ((Allocation.Merge a b).2 = none → ∀ v p,
      (Allocation.Merge a b).1.lookup v = some p ↔
        (a.lookup v = some p ∨ (a.lookup v = none ∧ (v, p) ∈ b))) := by
  induction b generalizing a with
  | nil =>
    refine ⟨⟨fun _ v p h => (by cases h), fun _ => rfl⟩, ?_⟩
    intro _ v p
    simp [Allocation.Merge]
  | cons e rest ih =>
    obtain ⟨v0, p0⟩ := e
    cases h : a.lookup v0 with
    | some alt =>
      rw [merge_cons_some a rest v0 p0 alt h]
      by_cases c : alt = p0
      · subst c
        rw [if_pos rfl]
        obtain ⟨ih1, ih2⟩ := ih a
        have hag : Agrees a (fun v p => (v, p) ∈ rest) ↔
            Agrees a (fun v p => (v, p) ∈ (v0, alt) :: rest) := by
          constructor
          · intro hr v p hm
            rcases List.mem_cons.mp hm with e | e
            · simp only [Prod.mk.injEq] at e
              obtain ⟨e1, e2⟩ := e
              subst e1 e2
              refine ⟨fun q hq => ?_, fun p' hp' => ?_⟩
              · rw [h] at hq
                simp only [Option.some.injEq] at hq
                exact hq.symm
              · rcases List.mem_cons.mp hp' with e' | e'
                · simp only [Prod.mk.injEq] at e'
                  exact e'.2
                · exact ((hr v p' e').1 p h).symm
            · refine ⟨(hr v p e).1, fun p' hp' => ?_⟩
              rcases List.mem_cons.mp hp' with e' | e'
              · simp only [Prod.mk.injEq] at e'
                obtain ⟨e1, e2⟩ := e'
                subst e1 e2
                exact (hr v p e).1 p' h
              · exact (hr v p e).2 p' e'
          · intro hr v p hm
            have := hr v p (List.mem_cons_of_mem _ hm)
            exact ⟨this.1, fun p' hp' => this.2 p' (List.mem_cons_of_mem _ hp')⟩
        refine ⟨ih1.trans hag, ?_⟩
        intro hn v p
        rw [ih2 hn v p]
        constructor
        · rintro (hl | ⟨hl, hm⟩)
          · exact Or.inl hl
          · exact Or.inr ⟨hl, List.mem_cons_of_mem _ hm⟩
        · rintro (hl | ⟨hl, hm⟩)
          · exact Or.inl hl
          · rcases List.mem_cons.mp hm with e | e
            · simp only [Prod.mk.injEq] at e
              rw [e.1, h] at hl
              cases hl
            · exact Or.inr ⟨hl, e⟩
      · rw [if_neg c]
        refine ⟨⟨fun hc => (by cases hc), fun hr => ?_⟩, fun hc => (by cases hc)⟩
        exact absurd ((hr v0 p0 (List.mem_cons_self _ _)).1 alt h) c
    | none =>
      rw [merge_cons_none a rest v0 p0 h]
      obtain ⟨ih1, ih2⟩ := ih ((v0, p0) :: a)
      have hag : Agrees ((v0, p0) :: a) (fun v p => (v, p) ∈ rest) ↔
          Agrees a (fun v p => (v, p) ∈ (v0, p0) :: rest) := by
        constructor
        · intro hr v p hm
          rcases List.mem_cons.mp hm with e | e
          · simp only [Prod.mk.injEq] at e
            obtain ⟨e1, e2⟩ := e
            subst e1 e2
            refine ⟨fun q hq => ?_, fun p' hp' => ?_⟩
            · rw [h] at hq
              cases hq
            · rcases List.mem_cons.mp hp' with e' | e'
              · simp only [Prod.mk.injEq] at e'
                exact e'.2
              · have := (hr v p' e').1 p (by rw [lookup_cons_reg, if_pos rfl])
                exact this.symm
          · have hv := hr v p e
            refine ⟨fun q hq => ?_, fun p' hp' => ?_⟩
            · have hne : ¬ v = v0 := by
                intro e0
                rw [e0, h] at hq
                cases hq
              exact hv.1 q (by rw [lookup_cons_reg, if_neg hne]; exact hq)
            · rcases List.mem_cons.mp hp' with e' | e'
              · simp only [Prod.mk.injEq] at e'
                obtain ⟨e1, e2⟩ := e'
                subst e1 e2
                exact hv.1 p' (by rw [lookup_cons_reg, if_pos rfl])
              · exact hv.2 p' e'
        · intro hr v p hm
          have hv := hr v p (List.mem_cons_of_mem _ hm)
          refine ⟨fun q hq => ?_, fun p' hp' => hv.2 p' (List.mem_cons_of_mem _ hp')⟩
          rw [lookup_cons_reg] at hq
          by_cases e0 : v = v0
          · rw [if_pos e0] at hq
            simp only [Option.some.injEq] at hq
            subst e0
            rw [← hq]
            exact hv.2 p0 (List.mem_cons_self _ _)
          · rw [if_neg e0] at hq
            exact hv.1 q hq
      refine ⟨ih1.trans hag, ?_⟩
      intro hn v p
      have hr := (ih1.trans hag).mp hn
      rw [ih2 hn v p, lookup_cons_reg]
      by_cases e0 : v = v0
      · subst e0
        rw [if_pos rfl, h]
        constructor
        · rintro (hl | ⟨hl, _⟩)
          · simp only [Option.some.injEq] at hl
            subst hl
            exact Or.inr ⟨rfl, List.mem_cons_self _ _⟩
          · cases hl
        · rintro (hl | ⟨_, hm⟩)
          · cases hl
          · left
            have := (hr v p hm).2 p0 (List.mem_cons_self _ _)
            rw [this]
      · rw [if_neg e0]
        constructor
        · rintro (hl | ⟨hl, hm⟩)
          · exact Or.inl hl
          · exact Or.inr ⟨hl, List.mem_cons_of_mem _ hm⟩
        · rintro (hl | ⟨hl, hm⟩)
          · exact Or.inl hl
          · rcases List.mem_cons.mp hm with e | e
            · simp only [Prod.mk.injEq] at e
              exact absurd e.1 e0
            · exact Or.inr ⟨hl, e⟩

theorem agrees_congr (a : Allocation) (E F : Register → Register → Prop)
    (h : ∀ v p, E v p ↔ F v p) : Agrees a E ↔ Agrees a F := by
  constructor
  · intro hr v p hf
    have := hr v p ((h v p).mpr hf)
    exact ⟨this.1, fun p' hp' => this.2 p' ((h v p').mpr hp')⟩
  · intro hr v p he
    have := hr v p ((h v p).mp he)
    exact ⟨this.1, fun p' hp' => this.2 p' ((h v p').mp hp')⟩

theorem agrees_step (al al1 r : Allocation) (E : Register → Register → Prop)
    (hm : Agrees al (fun v p => (v, p) ∈ r))
    (hl : ∀ v p, al1.lookup v = some p ↔
      (al.lookup v = some p ∨ (al.lookup v = none ∧ (v, p) ∈ r))) :
    Agrees al1 E ↔ Agrees al (fun v p => (v, p) ∈ r ∨ E v p) := by
  have hr1 : ∀ v p, (v, p) ∈ r → al1.lookup v = some p := by
    intro v p hp
    cases hq : al.lookup v with
    | none => exact (hl v p).mpr (Or.inr ⟨hq, hp⟩)
    | some q =>
      have := (hm v p hp).1 q hq
      subst this
      exact (hl v q).mpr (Or.inl hq)
  constructor
  · intro h1 v p hp
    rcases hp with hp | hp
    · refine ⟨(hm v p hp).1, fun p' hp' => ?_⟩
      rcases hp' with hp' | hp'
      · exact (hm v p hp).2 p' hp'
      · exact ((h1 v p' hp').1 p (hr1 v p hp)).symm
    · refine ⟨fun q hq => (h1 v p hp).1 q ((hl v q).mpr (Or.inl hq)), fun p' hp' => ?_⟩
      rcases hp' with hp' | hp'
      · exact (h1 v p hp).1 p' (hr1 v p' hp')
      · exact (h1 v p hp).2 p' hp'
  · intro h2 v p hp
    have hv := h2 v p (Or.inr hp)
    refine ⟨fun q hq => ?_, fun p' hp' => hv.2 p' (Or.inr hp')⟩
    rcases (hl v q).mp hq with hq' | ⟨_, hq'⟩
    · exact hv.1 q hq'
    · exact hv.2 q (Or.inl hq')

theorem produced_nil (S : Strategy) (v p : Register) : ¬ Produced S [] v p := by
  rintro ⟨a, ha, _⟩
  cases ha

theorem produced_cons (S : Strategy) (a : Allocator) (rest : List Allocator)
    (r : Allocation) (h : S.allocate a = .ok r) (v p : Register) :
    Produced S (a :: rest) v p ↔ ((v, p) ∈ r ∨ Produced S rest v p) := by
  constructor
  · rintro ⟨b, hb, q, hq, hm⟩
    rcases List.mem_cons.mp hb with e | e
    · subst e
      rw [h] at hq
      simp only [Except.ok.injEq] at hq
      subst hq
      exact Or.inl hm
    · exact Or.inr ⟨b, e, q, hq, hm⟩
  · rintro (hm | ⟨b, hb, q, hq, hm⟩)
    · exact ⟨a, List.mem_cons_self _ _, r, h, hm⟩
    · exact ⟨b, List.mem_cons_of_mem _ hb, q, hq, hm⟩

theorem executeAllocators_spec (S : Strategy) (l : List Allocator) (al : Allocation) :
    ((executeAllocators S al l).2 = none ↔
      ((∀ a ∈ l, ∃ r, S.allocate a = .ok r) ∧ Agrees al (Produced S l))) ∧
    ((executeAllocators S al l).2 = none → ∀ v p,
      (executeAllocators S al l).1.lookup v = some p ↔
        (al.lookup v = some p ∨ (al.lookup v = none ∧ Produced S l v p))) := by
  induction l generalizing al with
  | nil =>
    refine ⟨⟨fun _ => ⟨fun a ha => (by cases ha), fun v p h => absurd h (produced_nil S v p)⟩,
      fun _ => rfl⟩, ?_⟩
    intro _ v p
    simp only [executeAllocators]
    constructor
    · exact fun h => Or.inl h
    · rintro (h | ⟨_, h⟩)
      · exact h
      · exact absurd h (produced_nil S v p)
  | cons a rest ih =>
    cases hA : S.allocate a with
    | error err =>
      have e : executeAllocators S al (a :: rest) = (al, some err) := by
        simp only [executeAllocators]
        rw [hA]
      rw [e]
      refine ⟨⟨fun hc => (by cases hc), fun hr => ?_⟩, fun hc => (by cases hc)⟩
      obtain ⟨r, hr'⟩ := hr.1 a (List.mem_cons_self _ _)
      rw [hA] at hr'
      cases hr'
    | ok r =>
      obtain ⟨m1, m2⟩ := merge_spec r al
      have hpc := produced_cons S a rest r hA
      cases hM : Allocation.Merge al r with
      | mk al1 e1 =>
        rw [hM] at m1 m2
        cases e1 with
        | some err =>
          have e : executeAllocators S al (a :: rest) = (al1, some err) := by
            simp only [executeAllocators]
            rw [hA]
            simp only
            rw [hM]
          rw [e]
          refine ⟨⟨fun hc => (by cases hc), fun hr => ?_⟩, fun hc => (by cases hc)⟩
          have : Agrees al (fun v p => (v, p) ∈ r) := by
            intro v p hp
            have := hr.2 v p ((hpc v p).mpr (Or.inl hp))
            exact ⟨this.1, fun p' hp' => this.2 p' ((hpc v p').mpr (Or.inl hp'))⟩
          have := m1.mpr this
          cases this
        | none =>
          have e : executeAllocators S al (a :: rest) = executeAllocators S al1 rest := by
            simp only [executeAllocators]
            rw [hA]
            simp only
            rw [hM]
          rw [e]
          have hm := m1.mp rfl
          have hl := m2 rfl
          simp only at hl
          obtain ⟨ih1, ih2⟩ := ih al1
          have hag := (agrees_step al al1 r (Produced S rest) hm hl).trans
            (agrees_congr al _ _ (fun v p => (hpc v p).symm))
          have hsucc : (executeAllocators S al1 rest).2 = none ↔
              ((∀ b ∈ a :: rest, ∃ q, S.allocate b = .ok q) ∧
                Agrees al (Produced S (a :: rest))) := by
            rw [ih1, hag]
            constructor
            · rintro ⟨h1, h2⟩
              refine ⟨fun b hb => ?_, h2⟩
              rcases List.mem_cons.mp hb with e' | e'
              · rw [e']; exact ⟨r, hA⟩
              · exact h1 b e'
            · rintro ⟨h1, h2⟩
              exact ⟨fun b hb => h1 b (List.mem_cons_of_mem _ hb), h2⟩
          refine ⟨hsucc, ?_⟩
          intro hn v p
          have hall := (hsucc.mp hn).2
          rw [ih2 hn v p, hpc v p]
          constructor
          · rintro (h1 | ⟨h1, h2⟩)
            · rcases (hl v p).mp h1 with h3 | h3
              · exact Or.inl h3
              · exact Or.inr ⟨h3.1, Or.inl h3.2⟩
            · have hnone : al.lookup v = none := by
                cases hq : al.lookup v with
                | none => rfl
                | some q =>
                  rw [(hl v q).mpr (Or.inl hq)] at h1
                  cases h1
              exact Or.inr ⟨hnone, Or.inr h2⟩
          · rintro (h1 | ⟨h1, (h2 | h2)⟩)
            · exact Or.inl ((hl v p).mpr (Or.inl h1))
            · exact Or.inl ((hl v p).mpr (Or.inr ⟨h1, h2⟩))
            · cases hq : al1.lookup v with
              | none => exact Or.inr ⟨rfl, h2⟩
              | some q =>
                left
                rcases (hl v q).mp hq with h3 | h3
                · rw [h1] at h3
                  cases h3
                · have h4 := (hall v q ((hpc v q).mpr (Or.inl h3.2))).2 p
                    ((hpc v p).mpr (Or.inr h2))
                  rw [h4]

theorem produced_congr (S : Strategy) (l1 l2 : List Allocator)
    (h : ∀ a, a ∈ l1 ↔ a ∈ l2) (v p : Register) :
    Produced S l1 v p ↔ Produced S l2 v p := by
  constructor
  · rintro ⟨a, ha, r, hr, hm⟩
    exact ⟨a, (h a).mp ha, r, hr, hm⟩
  · rintro ⟨a, ha, r, hr, hm⟩
    exact ⟨a, (h a).mpr ha, r, hr, hm⟩

theorem executeAllocators_order (S : Strategy) (l1 l2 : List Allocator) (al : Allocation)
    (h : ∀ a, a ∈ l1 ↔ a ∈ l2) :
    ((executeAllocators S al l1).2 = none ↔ (executeAllocators S al l2).2 = none) ∧
    ((executeAllocators S al l1).2 = none → ∀ v,
      (executeAllocators S al l1).1.lookup v = (executeAllocators S al l2).1.lookup v) := by
  obtain ⟨a1, b1⟩ := executeAllocators_spec S l1 al
  obtain ⟨a2, b2⟩ := executeAllocators_spec S l2 al
  have hiff : (executeAllocators S al l1).2 = none ↔ (executeAllocators S al l2).2 = none := by
    rw [a1, a2, agrees_congr al _ _ (produced_congr S l1 l2 h)]
    constructor
    · rintro ⟨x, y⟩
      exact ⟨fun a ha => x a ((h a).mpr ha), y⟩
    · rintro ⟨x, y⟩
      exact ⟨fun a ha => x a ((h a).mp ha), y⟩
  refine ⟨hiff, ?_⟩
  intro hn v
  have hn2 := hiff.mp hn
  have key : ∀ p, (executeAllocators S al l1).1.lookup v = some p ↔
      (executeAllocators S al l2).1.lookup v = some p := by
    intro p
    rw [b1 hn v p, b2 hn2 v p, produced_congr S l1 l2 h v p]
  cases hq : (executeAllocators S al l1).1.lookup v with
  | some p => exact ((key p).mp hq).symm
  | none =>
    cases hq2 : (executeAllocators S al l2).1.lookup v with
    | none => rfl
    | some p =>
      have := (key p).mpr hq2
      rw [hq] at this
      cases this

/-! ## `AllocateRegisters`: the three phases -/

theorem allocateRegisters_cases (S : Strategy) (order : AllocMap → AllocMap) (fn : Function) :
    (∃ err, populate S [] fn.Instructions = .error err ∧
      AllocateRegisters S order fn = some (fn, some err)) ∨
    (∃ m, populate S [] fn.Instructions = .ok m ∧ interfere m fn.Instructions = none ∧
      AllocateRegisters S order fn = none) ∨
    (∃ m m', populate S [] fn.Instructions = .ok m ∧
      interfere m fn.Instructions = some m' ∧
      AllocateRegisters S order fn =
        some ({ fn with Allocation :=
                  (executeAllocators S [] ((order m').map Prod.snd)).1 },
              (executeAllocators S [] ((order m').map Prod.snd)).2)) := by
  unfold AllocateRegisters
  cases h1 : populate S [] fn.Instructions with
  | error err => exact Or.inl ⟨err, rfl, rfl⟩
  | ok m =>
    right
    cases h2 : interfere m fn.Instructions with
    | none => exact Or.inl ⟨m, rfl, h2, by simp only [h2]⟩
    | some m' => exact Or.inr ⟨m, m', rfl, h2, by simp only [h2]⟩

/-- C19. Under the precondition that every output register of every
instruction also appears among that instruction's `Registers()`, every lookup
`as[d.Kind()]` of the interference phase finds an allocator created in the first
phase: the phase completes, and `AllocateRegisters` makes no call on a missing
allocator. Without the precondition the lookup can miss: on `implicitFn`, whose
output register is not among its operands, the map is empty after the first
phase and the call is made on a missing allocator. -/
theorem interference_lookup_finds_allocator :
    (∀ (S : Strategy) (fn : Function) (m : AllocMap),
      (∀ i ∈ fn.Instructions, ∀ d ∈ i.Outputs, d ∈ i.Registers) →
      populate S [] fn.Instructions = .ok m →
      (∀ i ∈ fn.Instructions, ∀ d ∈ i.Outputs, ∃ a, m.find d.Kind = some a) ∧
      (∃ m', interfere m fn.Instructions = some m') ∧
      ∀ order : AllocMap → AllocMap, AllocateRegisters S order fn ≠ none) ∧
    (populate anyKind [] implicitFn.Instructions = .ok [] ∧
      interfere [] implicitFn.Instructions = none ∧
      AllocateRegisters anyKind id implicitFn = none) := by
  constructor
  · intro S fn m hpre hp
    have hk := (populate_ok S fn.Instructions [] m hp).1
    have hfind : ∀ i ∈ fn.Instructions, ∀ d ∈ i.Outputs, (m.find d.Kind).isSome = true :=
      fun i hi d hd => hk i hi d (hpre i hi d hd)
    obtain ⟨m', hm'⟩ := interfere_succeeds fn.Instructions m hfind
    refine ⟨fun i hi d hd => Option.isSome_iff_exists.mp (hfind i hi d hd), ⟨m', hm'⟩, ?_⟩
    intro order
    rcases allocateRegisters_cases S order fn with ⟨err, h1, _⟩ | ⟨m2, h1, h2, _⟩ |
      ⟨m2, m3, _, _, h3⟩
    · rw [hp] at h1
      cases h1
    · rw [hp] at h1
      simp only [Except.ok.injEq] at h1
      subst h1
      rw [hm'] at h2
      cases h2
    · rw [h3]
      exact fun hc => by cases hc
  · exact ⟨rfl, rfl, rfl⟩

/-- C12, the claim fails: on `priorFn` with allocators that fail,
`AllocateRegisters` returns the error and leaves the empty allocation of the
failed run in the slot, not the allocation the function held before. -/
theorem allocateRegisters_error_replaces_allocation :
    AllocateRegisters failAll id priorFn =
      some ({ priorFn with Allocation := [] }, some "no registers") ∧
    ({ priorFn with Allocation := [] } : Function).Allocation ≠ priorFn.Allocation := by
  decide

/-- C12 as amended. If `AllocateRegisters` returns an error, either the error
is that of `NewAllocatorForKind` and the function, its allocation slot included,
is as it was before the call; or the error is that of an allocator or of the
merge, and the slot holds the allocation created during the failed run (what was
merged before the failure, the empty allocation if the first allocator
failed), which is the same whatever the slot held before the call. -/
theorem allocateRegisters_error_allocation (S : Strategy) (order : AllocMap → AllocMap)
    (fn fn' : Function) (err : Error)
    (h : AllocateRegisters S order fn = some (fn', some err)) :
    (populate S [] fn.Instructions = .error err ∧ fn' = fn) ∨
    (∃ m m', populate S [] fn.Instructions = .ok m ∧
      interfere m fn.Instructions = some m' ∧
      executeAllocators S [] ((order m').map Prod.snd) = (fn'.Allocation, some err) ∧
      (∀ a rest e, (order m').map Prod.snd = a :: rest → S.allocate a = .error e →
        fn'.Allocation = []) ∧
      ∀ al0 : Allocation,
        (AllocateRegisters S order { fn with Allocation := al0 }).map
          (fun q => (q.1.Allocation, q.2)) = some (fn'.Allocation, some err)) := by
  rcases allocateRegisters_cases S order fn with ⟨e1, h1, h2⟩ | ⟨m, _, _, h2⟩ |
    ⟨m, m', h1, h2, h3⟩
  · rw [h2] at h
    simp only [Option.some.injEq, Prod.mk.injEq] at h
    left
    rw [← h.2, ← h.1]
    exact ⟨h1, rfl⟩
  · rw [h2] at h
    cases h
  · rw [h3] at h
    simp only [Option.some.injEq, Prod.mk.injEq] at h
    obtain ⟨ha, hb⟩ := h
    right
    have hal : fn'.Allocation = (executeAllocators S [] ((order m').map Prod.snd)).1 := by
      rw [← ha]
    refine ⟨m, m', h1, h2, ?_, ?_, ?_⟩
    · rw [hal]
      exact Prod.ext rfl hb
    · intro a rest e hl he
      rw [hal, hl]
      simp only [executeAllocators]
      rw [he]
    · intro al0
      rcases allocateRegisters_cases S order { fn with Allocation := al0 } with
        ⟨e1, g1, _⟩ | ⟨m2, g1, g2, _⟩ | ⟨m2, m3, g1, g2, g3⟩
      · rw [h1] at g1
        cases g1
      · rw [h1] at g1
        simp only [Except.ok.injEq] at g1
        subst g1
        rw [h2] at g2
        cases g2
      · rw [h1] at g1
        simp only [Except.ok.injEq] at g1
        subst g1
        rw [h2] at g2
        simp only [Option.some.injEq] at g2
        subst g2
        rw [g3, hal, ← hb]
        rfl

/-- Witness of the amended C12 on `priorFn` with allocators that fail. -/
theorem allocateRegisters_error_allocation_witness :
    AllocateRegisters failAll id priorFn =
      some ({ priorFn with Allocation := [] }, some "no registers") ∧
    ((populate failAll [] priorFn.Instructions = .error "no registers" ∧
        ({ priorFn with Allocation := [] } : Function) = priorFn) ∨
      (∃ m m', populate failAll [] priorFn.Instructions = .ok m ∧
        interfere m priorFn.Instructions = some m' ∧
        executeAllocators failAll [] ((id m').map Prod.snd) =
          (({ priorFn with Allocation := [] } : Function).Allocation, some "no registers") ∧
        (∀ a rest e, (id m').map Prod.snd = a :: rest → failAll.allocate a = .error e →
          ({ priorFn with Allocation := [] } : Function).Allocation = []) ∧
        ∀ al0 : Allocation,
          (AllocateRegisters failAll id { priorFn with Allocation := al0 }).map
            (fun q => (q.1.Allocation, q.2)) =
              some (({ priorFn with Allocation := [] } : Function).Allocation,
                some "no registers"))) :=
  ⟨by decide, allocateRegisters_error_allocation failAll id priorFn
    { priorFn with Allocation := [] } "no registers" (by decide)⟩

/-- C13, the claim fails: on `threeKindFn` with the strategy `threeKinds`, the
run that visits the allocators in the order of their creation returns the error
of kind 1 and leaves the allocation of kind 0 in the function, and the run that
visits them in the opposite order returns the error of kind 2 and leaves the
empty allocation. -/
theorem allocateRegisters_order_changes_error :
    AllocateRegisters threeKinds id threeKindFn =
      some ({ threeKindFn with Allocation := [(Register.virt 0 0, Register.phys 0 0)] },
        some "kind 1: no registers") ∧
    AllocateRegisters threeKinds List.reverse threeKindFn =
      some ({ threeKindFn with Allocation := [] }, some "kind 2: no registers") := by
  decide

/-- C13 as amended. For every function and every two visiting orders of the
allocators, the two runs agree on whether `AllocateRegisters` completes, on
success or failure and on the instructions, and when they succeed the resulting
allocations map every register to the same physical register. (On failure the
error returned and the allocation left in the function may differ.) -/
theorem allocateRegisters_order_agrees (S : Strategy) (fn : Function)
    (o1 o2 : AllocMap → AllocMap)
    (h1 : ∀ m : AllocMap, (o1 m).Perm m) (h2 : ∀ m : AllocMap, (o2 m).Perm m) :
    (AllocateRegisters S o1 fn = none ↔ AllocateRegisters S o2 fn = none) ∧
    ∀ (fn1 fn2 : Function) (e1 e2 : Option Error),
      AllocateRegisters S o1 fn = some (fn1, e1) →
      AllocateRegisters S o2 fn = some (fn2, e2) →
      (e1 = none ↔ e2 = none) ∧ fn1.Instructions = fn2.Instructions ∧
      (e1 = none → ∀ v, fn1.Allocation.lookup v = fn2.Allocation.lookup v) := by
  rcases allocateRegisters_cases S o1 fn with ⟨err, a1, a2⟩ | ⟨m, a1, a2, a3⟩ |
    ⟨m, m', a1, a2, a3⟩
  · rcases allocateRegisters_cases S o2 fn with ⟨err2, b1, b2⟩ | ⟨m2, b1, _, _⟩ |
      ⟨m2, m3, b1, _, _⟩
    · rw [a1] at b1
      simp only [Except.error.injEq] at b1
      subst b1
      rw [a2, b2]
      refine ⟨by simp, ?_⟩
      intro fn1 fn2 e1 e2 x y
      simp only [Option.some.injEq, Prod.mk.injEq] at x y
      rw [← x.1, ← y.1, ← x.2, ← y.2]
      exact ⟨Iff.rfl, rfl, fun _ _ => rfl⟩
    · rw [a1] at b1
      cases b1
    · rw [a1] at b1
      cases b1
  · rcases allocateRegisters_cases S o2 fn with ⟨err2, b1, _⟩ | ⟨m2, _, _, b3⟩ |
      ⟨m2, m3, b1, b2, _⟩
    · rw [a1] at b1
      cases b1
    · rw [a3, b3]
      refine ⟨Iff.rfl, ?_⟩
      intro fn1 fn2 e1 e2 x
      cases x
    · rw [a1] at b1
      simp only [Except.ok.injEq] at b1
      subst b1
      rw [a2] at b2
      cases b2
  · rcases allocateRegisters_cases S o2 fn with ⟨err2, b1, _⟩ | ⟨m2, b1, b2, _⟩ |
      ⟨m2, m3, b1, b2, b3⟩
    · rw [a1] at b1
      cases b1
    · rw [a1] at b1
      simp only [Except.ok.injEq] at b1
      subst b1
      rw [a2] at b2
      cases b2
    · rw [a1] at b1
      simp only [Except.ok.injEq] at b1
      subst b1
      rw [a2] at b2
      simp only [Option.some.injEq] at b2
      subst b2
      have hmem : ∀ a, a ∈ (o1 m').map Prod.snd ↔ a ∈ (o2 m').map Prod.snd := by
        intro a
        simp only [List.mem_map]
        constructor
        · rintro ⟨x, hx, rfl⟩
          exact ⟨x, (h2 m').mem_iff.mpr ((h1 m').mem_iff.mp hx), rfl⟩
        · rintro ⟨x, hx, rfl⟩
          exact ⟨x, (h1 m').mem_iff.mpr ((h2 m').mem_iff.mp hx), rfl⟩
      obtain ⟨c1, c2⟩ := executeAllocators_order S _ _ [] hmem
      rw [a3, b3]
      refine ⟨by simp, ?_⟩
      intro fn1 fn2 e1 e2 x y
      simp only [Option.some.injEq, Prod.mk.injEq] at x y
      obtain ⟨x1, x2⟩ := x
      obtain ⟨y1, y2⟩ := y
      subst x1 y1 x2 y2
      exact ⟨c1, rfl, c2⟩

/-- Witness of the amended C13: the order of creation and its reverse on
`threeKindFn`. -/
theorem allocateRegisters_order_agrees_witness :
    (∀ m : AllocMap, (id m).Perm m) ∧ (∀ m : AllocMap, (List.reverse m).Perm m) ∧
    ((AllocateRegisters threeKinds id threeKindFn = none ↔
        AllocateRegisters threeKinds List.reverse threeKindFn = none) ∧
      ∀ (fn1 fn2 : Function) (e1 e2 : Option Error),
        AllocateRegisters threeKinds id threeKindFn = some (fn1, e1) →
        AllocateRegisters threeKinds List.reverse threeKindFn = some (fn2, e2) →
        (e1 = none ↔ e2 = none) ∧ fn1.Instructions = fn2.Instructions ∧
        (e1 = none → ∀ v, fn1.Allocation.lookup v = fn2.Allocation.lookup v)) :=
  ⟨fun m => List.Perm.refl m, fun m => List.reverse_perm m,
    allocateRegisters_order_agrees threeKinds threeKindFn id List.reverse
      (fun m => List.Perm.refl m) (fun m => List.reverse_perm m)⟩

/-! ## `AllocateRegisters`: one allocator per kind -/

theorem mem_keys_iff (m : AllocMap) (k : Nat) :
    k ∈ m.map Prod.fst ↔ (m.find k).isSome = true := by
  induction m with
  | nil => simp [find_nil]
  | cons h t ih =>
    obtain ⟨k0, a0⟩ := h
    rw [find_cons, List.map_cons, List.mem_cons]
    by_cases e : k = k0
    · simp [e]
    · rw [if_neg e, ← ih]
      simp [e]

theorem keys_put (m : AllocMap) (k : Nat) (a : Allocator) :
    (m.put k a).map Prod.fst =
      if k ∈ m.map Prod.fst then m.map Prod.fst else m.map Prod.fst ++ [k] := by
  induction m with
  | nil => simp [AllocMap.put]
  | cons h t ih =>
    obtain ⟨k0, a0⟩ := h
    unfold AllocMap.put
    by_cases e : k0 = k
    · rw [if_pos e]
      simp [e]
    · rw [if_neg e]
      have e' : ¬ k = k0 := fun h => e h.symm
      simp only [List.map_cons, List.mem_cons, e', false_or, ih]
      by_cases c : k ∈ t.map Prod.fst
      · rw [if_pos c, if_pos c]
      · rw [if_neg c, if_neg c]
        rfl

theorem nodup_keys_put (m : AllocMap) (k : Nat) (a : Allocator)
    (h : (m.map Prod.fst).Nodup) : ((m.put k a).map Prod.fst).Nodup := by
  rw [keys_put]
  by_cases c : k ∈ m.map Prod.fst
  · rw [if_pos c]
    exact h
  · rw [if_neg c, List.nodup_append]
    refine ⟨h, List.nodup_singleton k, ?_⟩
    intro x hx hx'
    rw [List.mem_singleton] at hx'
    subst hx'
    exact c hx

theorem populateInv_nil (S : Strategy) : PopulateInv S (fun _ => False) [] := by
  refine ⟨List.nodup_nil, ?_, ?_⟩
  · intro k
    rw [find_nil]
    simp
  · intro k a h
    rw [find_nil] at h
    cases h

theorem populateInv_congr (S : Strategy) (seen seen' : Register → Prop) (m : AllocMap)
    (h : ∀ r, seen r ↔ seen' r) (hi : PopulateInv S seen m) : PopulateInv S seen' m := by
  obtain ⟨a, b, c⟩ := hi
  refine ⟨a, ?_, ?_⟩
  · intro k
    rw [b k]
    constructor
    · rintro ⟨r, hr, e⟩
      exact ⟨r, (h r).mp hr, e⟩
    · rintro ⟨r, hr, e⟩
      exact ⟨r, (h r).mpr hr, e⟩
  · intro k x hx
    obtain ⟨c1, c2, c3⟩ := c k x hx
    refine ⟨c1, c2, fun r => ?_⟩
    rw [c3 r, h r]

theorem populateInv_put (S : Strategy) (seen : Register → Prop) (m : AllocMap)
    (r : Register) (a : Allocator) (hi : PopulateInv S seen m)
    (ha : m.find r.Kind = some a ∨
      (m.find r.Kind = none ∧ a.kind = r.Kind ∧ a.registers = ∅ ∧
        S.unknownKind r.Kind = none)) :
    PopulateInv S (fun q => seen q ∨ q = r) (m.put r.Kind (a.Add r)) := by
  obtain ⟨n, b, c⟩ := hi
  refine ⟨nodup_keys_put m _ _ n, ?_, ?_⟩
  · intro k
    rw [find_put]
    by_cases e : k = r.Kind
    · rw [if_pos e]
      simp only [Option.isSome_some, true_iff]
      exact ⟨r, Or.inr rfl, e.symm⟩
    · rw [if_neg e, b k]
      constructor
      · rintro ⟨q, hq, hk⟩
        exact ⟨q, Or.inl hq, hk⟩
      · rintro ⟨q, hq | hq, hk⟩
        · exact ⟨q, hq, hk⟩
        · subst hq
          exact absurd hk.symm e
  · intro k x hx
    rw [find_put] at hx
    by_cases e : k = r.Kind
    · rw [if_pos e] at hx
      simp only [Option.some.injEq] at hx
      subst hx
      subst e
      have hreg : ∀ q, q ∈ a.registers ↔ (seen q ∧ q.Kind = r.Kind) := by
        rcases ha with ha | ⟨hn, _, hempty, _⟩
        · exact (c _ a ha).2.2
        · intro q
          rw [hempty]
          simp only [Finset.not_mem_empty, false_iff]
          rintro ⟨hq, hk⟩
          have := (b r.Kind).mpr ⟨q, hq, hk⟩
          rw [hn] at this
          cases this
      have hkind : a.kind = r.Kind ∧ S.unknownKind r.Kind = none := by
        rcases ha with ha | ⟨_, hk, _, hu⟩
        · exact ⟨(c _ a ha).1, (c _ a ha).2.1⟩
        · exact ⟨hk, hu⟩
      refine ⟨hkind.1, hkind.2, fun q => ?_⟩
      simp only [Allocator.Add, Finset.mem_insert, hreg q]
      constructor
      · rintro (h | ⟨h, hk⟩)
        · subst h
          exact ⟨Or.inr rfl, rfl⟩
        · exact ⟨Or.inl h, hk⟩
      · rintro ⟨h | h, hk⟩
        · exact Or.inr ⟨h, hk⟩
        · exact Or.inl h
    · rw [if_neg e] at hx
      obtain ⟨c1, c2, c3⟩ := c k x hx
      refine ⟨c1, c2, fun q => ?_⟩
      rw [c3 q]
      constructor
      · rintro ⟨h, hk⟩
        exact ⟨Or.inl h, hk⟩
      · rintro ⟨h | h, hk⟩
        · exact ⟨h, hk⟩
        · subst h
          exact absurd hk.symm e

theorem populateReg_inv (S : Strategy) (seen : Register → Prop) (m m' : AllocMap)
    (r : Register) (hi : PopulateInv S seen m) (h : populateReg S m r = .ok m') :
    PopulateInv S (fun q => seen q ∨ q = r) m' := by
  unfold populateReg at h
  simp only at h
  cases hf : m.find r.Kind with
  | some a =>
    rw [hf] at h
    simp only [Except.ok.injEq] at h
    rw [← h]
    exact populateInv_put S seen m r a hi (Or.inl hf)
  | none =>
    rw [hf] at h
    unfold NewAllocatorForKind at h
    cases hu : S.unknownKind r.Kind with
    | some err => rw [hu] at h; cases h
    | none =>
      rw [hu] at h
      simp only [Except.ok.injEq] at h
      rw [← h]
      exact populateInv_put S seen m r _ hi (Or.inr ⟨hf, rfl, rfl, hu⟩)

theorem populateReg_error (S : Strategy) (m : AllocMap) (r : Register) (err : Error)
    (h : populateReg S m r = .error err) : S.unknownKind r.Kind = some err := by
  unfold populateReg at h
  simp only at h
  cases hf : m.find r.Kind with
  | some a => rw [hf] at h; cases h
  | none =>
    rw [hf] at h
    unfold NewAllocatorForKind at h
    cases hu : S.unknownKind r.Kind with
    | some e =>
      rw [hu] at h
      simp only [Except.error.injEq] at h
      rw [h]
    | none => rw [hu] at h; cases h

theorem populateRegs_inv (S : Strategy) (rs : List Register) (seen : Register → Prop)
    (m m' : AllocMap) (hi : PopulateInv S seen m) (h : populateRegs S m rs = .ok m') :
    PopulateInv S (fun q => seen q ∨ q ∈ rs) m' := by
  induction rs generalizing seen m with
  | nil =>
    simp only [populateRegs, Except.ok.injEq] at h
    subst h
    exact populateInv_congr S seen _ m (fun r => by simp) hi
  | cons r t ih =>
    unfold populateRegs at h
    cases h1 : populateReg S m r with
    | error err => rw [h1] at h; cases h
    | ok m1 =>
      rw [h1] at h
      have := ih _ m1 (populateReg_inv S seen m m1 r hi h1) h
      apply populateInv_congr S _ _ m' _ this
      intro q
      simp only [List.mem_cons]
      tauto

theorem populateRegs_error (S : Strategy) (rs : List Register) (m : AllocMap) (err : Error)
    (h : populateRegs S m rs = .error err) : ∃ r ∈ rs, S.unknownKind r.Kind = some err := by
  induction rs generalizing m with
  | nil => cases h
  | cons r t ih =>
    unfold populateRegs at h
    cases h1 : populateReg S m r with
    | error e =>
      rw [h1] at h
      simp only [Except.error.injEq] at h
      subst h
      exact ⟨r, List.mem_cons_self _ _, populateReg_error S m r e h1⟩
    | ok m1 =>
      rw [h1] at h
      obtain ⟨q, hq, hu⟩ := ih m1 h
      exact ⟨q, List.mem_cons_of_mem _ hq, hu⟩

theorem populate_inv (S : Strategy) (is : List Instruction) (seen : Register → Prop)
    (m m' : AllocMap) (hi : PopulateInv S seen m) (h : populate S m is = .ok m') :
    PopulateInv S (fun q => seen q ∨ ∃ i ∈ is, q ∈ i.Registers) m' := by
  induction is generalizing seen m with
  | nil =>
    simp only [populate, Except.ok.injEq] at h
    subst h
    exact populateInv_congr S seen _ m (fun r => by simp) hi
  | cons i t ih =>
    unfold populate at h
    cases h1 : populateRegs S m i.Registers with
    | error err => rw [h1] at h; cases h
    | ok m1 =>
      rw [h1] at h
      have := ih _ m1 (populateRegs_inv S i.Registers seen m m1 hi h1) h
      apply populateInv_congr S _ _ m' _ this
      intro q
      simp only [List.mem_cons, exists_eq_or_imp]
      tauto

theorem populate_error (S : Strategy) (is : List Instruction) (m : AllocMap) (err : Error)
    (h : populate S m is = .error err) :
    ∃ i ∈ is, ∃ r ∈ i.Registers, S.unknownKind r.Kind = some err := by
  induction is generalizing m with
  | nil => cases h
  | cons i t ih =>
    unfold populate at h
    cases h1 : populateRegs S m i.Registers with
    | error e =>
      rw [h1] at h
      simp only [Except.error.injEq] at h
      subst h
      obtain ⟨r, hr, hu⟩ := populateRegs_error S i.Registers m e h1
      exact ⟨i, List.mem_cons_self _ _, r, hr, hu⟩
    | ok m1 =>
      rw [h1] at h
      obtain ⟨j, hj, r, hr, hu⟩ := ih m1 h
      exact ⟨j, List.mem_cons_of_mem _ hj, r, hr, hu⟩

theorem populate_congr_allocate (S S' : Strategy) (h : S'.unknownKind = S.unknownKind)
    (is : List Instruction) (m : AllocMap) : populate S' m is = populate S m is := by
  have e1 : ∀ k, NewAllocatorForKind S' k = NewAllocatorForKind S k := by
    intro k
    unfold NewAllocatorForKind
    rw [h]
  have e2 : ∀ m r, populateReg S' m r = populateReg S m r := by
    intro m r
    unfold populateReg
    simp only [e1]
  have e3 : ∀ rs m, populateRegs S' m rs = populateRegs S m rs := by
    intro rs
    induction rs with
    | nil => intro m; rfl
    | cons r t ih =>
      intro m
      unfold populateRegs
      rw [e2]
      cases populateReg S m r with
      | error err => rfl
      | ok m1 => exact ih m1
  induction is generalizing m with
  | nil => rfl
  | cons i t ih =>
    unfold populate
    rw [e3]
    cases populateRegs S m i.Registers with
    | error err => rfl
    | ok m1 => exact ih m1

/-- C14. `AllocateRegisters` partitions the referenced registers by kind: when
the first phase completes, the map holds exactly one allocator per distinct
kind among the registers of all instructions, and the allocator of a kind was
made for that kind and holds exactly the referenced registers of that kind. If
`NewAllocatorForKind` fails for an observed kind, the first phase fails with the
error of such a kind and `AllocateRegisters` returns that error and the function
as it was (its allocation included), whatever the allocators would do: no
interference is recorded and no allocator is run. -/
theorem allocateRegisters_partitions_by_kind (S : Strategy) (fn : Function) :
    (∀ m, populate S [] fn.Instructions = .ok m →
      (m.map Prod.fst).Nodup ∧
      (∀ k, k ∈ m.map Prod.fst ↔ ∃ i ∈ fn.Instructions, ∃ r ∈ i.Registers, r.Kind = k) ∧
      (∀ k a, m.find k = some a →
        a.kind = k ∧
        ∀ r, r ∈ a.registers ↔ (r.Kind = k ∧ ∃ i ∈ fn.Instructions, r ∈ i.Registers))) ∧
    ((∃ i ∈ fn.Instructions, ∃ r ∈ i.Registers, S.unknownKind r.Kind ≠ none) →
      ∃ err, populate S [] fn.Instructions = .error err ∧
        (∃ i ∈ fn.Instructions, ∃ r ∈ i.Registers, S.unknownKind r.Kind = some err) ∧
        ∀ (order : AllocMap → AllocMap) (run : Allocator → Except Error Allocation),
          AllocateRegisters { S with allocate := run } order fn = some (fn, some err)) := by
  have hinv : ∀ m, populate S [] fn.Instructions = .ok m →
      PopulateInv S (fun q => ∃ i ∈ fn.Instructions, q ∈ i.Registers) m := by
    intro m hm
    have := populate_inv S fn.Instructions _ [] m (populateInv_nil S) hm
    exact populateInv_congr S _ _ m (fun r => by simp) this
  constructor
  · intro m hm
    obtain ⟨a, b, c⟩ := hinv m hm
    refine ⟨a, ?_, ?_⟩
    · intro k
      rw [mem_keys_iff, b k]
      constructor
      · rintro ⟨r, ⟨i, hi, hr⟩, e⟩
        exact ⟨i, hi, r, hr, e⟩
      · rintro ⟨i, hi, r, hr, e⟩
        exact ⟨r, ⟨i, hi, hr⟩, e⟩
    · intro k x hx
      obtain ⟨c1, _, c3⟩ := c k x hx
      refine ⟨c1, fun r => ?_⟩
      rw [c3 r]
      exact And.comm
  · rintro ⟨i, hi, r, hr, hu⟩
    cases hp : populate S [] fn.Instructions with
    | ok m =>
      obtain ⟨_, b, c⟩ := hinv m hp
      obtain ⟨x, hx⟩ := Option.isSome_iff_exists.mp ((b r.Kind).mpr ⟨r, ⟨i, hi, hr⟩, rfl⟩)
      exact absurd (c r.Kind x hx).2.1 hu
    | error err =>
      refine ⟨err, rfl, populate_error S fn.Instructions [] err hp, ?_⟩
      intro order run
      have hp' : populate { S with allocate := run } [] fn.Instructions = .error err := by
        rw [populate_congr_allocate S { S with allocate := run } rfl, hp]
      rcases allocateRegisters_cases { S with allocate := run } order fn with
        ⟨e1, h1, h2⟩ | ⟨m, h1, _, _⟩ | ⟨m, m', h1, _, _⟩
      · rw [hp'] at h1
        simp only [Except.error.injEq] at h1
        rw [h2, h1]
      · rw [hp'] at h1
        cases h1
      · rw [hp'] at h1
        cases h1

/-- Witness of C14 on `liveFn`, which references a register of kind 1, with a
strategy that has no allocator for kind 1. -/
theorem allocateRegisters_partitions_by_kind_witness :
    ∃ err, populate noKindOne [] liveFn.Instructions = .error err ∧
      (∃ i ∈ liveFn.Instructions, ∃ r ∈ i.Registers, noKindOne.unknownKind r.Kind = some err) ∧
      ∀ (order : AllocMap → AllocMap) (run : Allocator → Except Error Allocation),
        AllocateRegisters { noKindOne with allocate := run } order liveFn
          = some (liveFn, some err) :=
  (allocateRegisters_partitions_by_kind noKindOne liveFn).2 (by decide)

end Avo
